import Mathlib

/-!
# Verification of the QuantumJSP windowed job-shop optimizer

A shallow embedding of the scheduling core of the QuantumJSP repository:
the validity checker and greedy constructors (`instance_parser.py`), the
window extractor (`solution.py` / `instance_parser.py`), the decomposition
driver (`brute_force_greedy.py`) and the pruning/bias phases of the two
encoders (`pyqubo_scheduler.py`, `dqm_scheduler.py`).

Conventions of the embedding:
* Python `dict`s keyed by job names become association lists
  (`List (Nat × _)`) preserving insertion order; lookup is `alookup`.
* Code paths that can raise (`KeyError`, `IndexError`, `TypeError`)
  are embedded in the `Option` monad, `none` marking the raise.
* All times/durations are natural numbers except where Python can
  produce negative intermediate values (the window extractor's
  forbidden-time ranges), which use `Int`.
* Variable labels `f"{job}_{position}"` are embedded as the pair
  `(job, position)` (the formatting is injective for the numeric job
  names produced by the instance readers), and pyqubo's timed labels
  `f"{job}_{position},{time}"` as triples.
-/

/-- Job names and machine ids are numbers (`readInstance` keys jobs by
`i + 1`). -/
abbrev JobName := Nat

/-- An operation `(machine, duration)` as stored in the instance dict. -/
abbrev Op := Nat × Nat

/-- An instance: dict from job name to its ordered operations. -/
abbrev Jobs := List (JobName × List Op)

/-- A schedule: dict from job name to the list of start times. -/
abbrev Sol := List (JobName × List Nat)

/-- Python dict lookup on an association list. -/
def alookup {β : Type} : List (Nat × β) → Nat → Option β
  | [], _ => none
  | (k, v) :: rest, j => if k = j then some v else alookup rest j

/-- `defaultdict` read: a missing key yields the default. -/
def alookupD {β : Type} (l : List (Nat × β)) (j : Nat) (dflt : β) : β :=
  (alookup l j).getD dflt

/-- `machine_dict[k].append(v)` on a `defaultdict(list)`: append to the
entry of `k`, creating it (at the end, as Python dicts do) if absent. -/
def dictAppend {β : Type} : List (Nat × List β) → Nat → β → List (Nat × List β)
  | [], k, v => [(k, [v])]
  | (k', l) :: rest, k, v =>
      if k' = k then (k', l ++ [v]) :: rest else (k', l) :: dictAppend rest k v

/-- `d[k] = v` on a `defaultdict`, creating the key if absent. -/
def dictSet {β : Type} : List (Nat × β) → Nat → β → List (Nat × β)
  | [], k, v => [(k, v)]
  | (k', w) :: rest, k, v =>
      if k' = k then (k', v) :: rest else (k', w) :: dictSet rest k v

/-- `l[i] = v` on a Python list: `none` is the `IndexError` on a bad index. -/
def listSet {β : Type} : List β → Nat → β → Option (List β)
  | [], _, _ => none
  | _ :: rest, 0, v => some (v :: rest)
  | x :: rest, i + 1, v => (listSet rest i v).map (x :: ·)

/-! ## `checkValidity` (src/instance_parser.py lines 188-227)

The function returns `False` as soon as one constraint fails, so the
iteration structure matters for which dict/list accesses are reached;
the embedding reproduces the loops with early exit. -/

/-- Inner loop of the precedence check of `checkValidity`: walk the
consecutive pairs of `operations` (Python `zip(operations[:-1],
operations[1:])`), reading `solution[job][i]` and `solution[job][i+1]`. -/
def jobPrecCheck (sol : Sol) (job : JobName) : List Op → Nat → Option Bool
  | op1 :: op2 :: rest, i => do
      let starts ← alookup sol job
      let s1 ← starts.get? i
      let s2 ← starts.get? (i + 1)
      if s1 + op1.2 > s2 then pure false
      else jobPrecCheck sol job (op2 :: rest) (i + 1)
  | _, _ => pure true

/-- Outer loop of the precedence check: over `jobs.items()`. -/
def precCheck (sol : Sol) : Jobs → Option Bool
  | [] => pure true
  | (job, ops) :: rest => do
      let b ← jobPrecCheck sol job ops 0
      if b then precCheck sol rest else pure false

/-- Inner loop of `transformToMachineDict` over `range(len(value))`. -/
def machineDictJob (jobs : Jobs) (key : JobName) (value : List Nat) :
    List (Nat × List (JobName × Nat × Nat)) → List Nat →
    Option (List (Nat × List (JobName × Nat × Nat)))
  | d, [] => some d
  | d, i :: rest => do
      let ops ← alookup jobs key
      let op ← ops.get? i
      let s ← value.get? i
      machineDictJob jobs key value (dictAppend d op.1 (key, s, op.2)) rest

/-- `transformToMachineDict(jobs, solution)` (src/instance_parser.py
lines 21-43): group `(job, start, duration)` by machine, in solution
iteration order. -/
def transformToMachineDict (jobs : Jobs) (sol : Sol) :
    Option (List (Nat × List (JobName × Nat × Nat))) :=
  sol.foldlM (fun d kv => machineDictJob jobs kv.1 kv.2 d (List.range kv.2.length)) []

/-- The pairwise interval test of `checkValidity` on one machine's
operation list: all ordered pairs at distinct positions must not overlap. -/
def machineListOk (l : List (JobName × Nat × Nat)) : Bool :=
  (List.range l.length).all fun i =>
    (List.range l.length).all fun j =>
      if i = j then true
      else
        match l.get? i, l.get? j with
        | some op1, some op2 =>
            decide (op1.2.1 + op1.2.2 ≤ op2.2.1) || decide (op2.2.1 + op2.2.2 ≤ op1.2.1)
        | _, _ => true

/-- `checkValidity(jobs, solution)` (src/instance_parser.py lines
188-227; identical to `Solution.is_valid`, src/solution.py lines
100-118).  `none` is a raised `KeyError`/`IndexError`. -/
def checkValidity (jobs : Jobs) (sol : Sol) : Option Bool := do
  let b ← precCheck sol jobs
  if b then do
    let md ← transformToMachineDict jobs sol
    pure (md.all fun g => machineListOk g.2)
  else pure false

/-! ## Specification-level validity predicates (spec sections 4.3, 8)

These follow the spec's wording; the claim theorems compare them with the
embedded `checkValidity`. -/

/-- Well-formedness relating an instance and a schedule: distinct job
names on both sides, the same set of job names, and one start time per
operation.  This is the shape every real schedule of an instance has. -/
def SolMatches (jobs : Jobs) (sol : Sol) : Prop :=
  (jobs.map Prod.fst).Nodup ∧ (sol.map Prod.fst).Nodup ∧
  (sol.map Prod.fst).Perm (jobs.map Prod.fst) ∧
  ∀ p ∈ jobs, ∀ q ∈ sol, p.1 = q.1 → q.2.length = p.2.length

instance (jobs : Jobs) (sol : Sol) : Decidable (SolMatches jobs sol) := by
  unfold SolMatches; infer_instance

/-- Spec 4.3 check 1: for consecutive operations `i, i+1` of a job,
`start[i] + duration[i] <= start[i+1]`. -/
def PrecSpec (jobs : Jobs) (sol : Sol) : Prop :=
  ∀ p ∈ jobs, ∀ q ∈ sol, p.1 = q.1 →
    ∀ i op s1 s2, p.2.get? i = some op → q.2.get? i = some s1 →
      q.2.get? (i + 1) = some s2 → s1 + op.2 ≤ s2

/-- Spec 4.3 check 2: two distinct operations sharing a machine have
disjoint half-open execution intervals. -/
def ExclSpec (jobs : Jobs) (sol : Sol) : Prop :=
  ∀ p1 ∈ jobs, ∀ p2 ∈ jobs, ∀ q1 ∈ sol, ∀ q2 ∈ sol, p1.1 = q1.1 → p2.1 = q2.1 →
    ∀ i1 i2 op1 op2 s1 s2,
      p1.2.get? i1 = some op1 → p2.2.get? i2 = some op2 →
      q1.2.get? i1 = some s1 → q2.2.get? i2 = some s2 →
      (p1.1, i1) ≠ (p2.1, i2) → op1.1 = op2.1 →
      s1 + op1.2 ≤ s2 ∨ s2 + op2.2 ≤ s1

/-! Reference functions used by the correctness proofs below. -/

/-- Pure reference for the precedence loop on one job: check consecutive
start/duration pairs. -/
def pairsOk : List Nat → List Op → Bool
  | s1 :: s2 :: srest, op :: oprest =>
      decide (s1 + op.2 ≤ s2) && pairsOk (s2 :: srest) oprest
  | _, _ => true

/-- The `(job, start, duration)` entry produced for operation `i` of a
schedule row, tagged with `(job, i)` and its machine; `none` when Python
would raise. -/
def entryOf (jobs : Jobs) (key : JobName) (value : List Nat) (i : Nat) :
    Option ((JobName × Nat) × Nat × Nat × Nat) := do
  let ops ← alookup jobs key
  let op ← ops.get? i
  let s ← value.get? i
  pure ((key, i), (op.1, s, op.2))

/-- All tagged machine-dict entries, in construction order. -/
def allEntries (jobs : Jobs) (sol : Sol) : List ((JobName × Nat) × Nat × Nat × Nat) :=
  sol.flatMap fun q => (List.range q.2.length).filterMap (entryOf jobs q.1 q.2)

/-- The machine-`m` group that `transformToMachineDict` builds, read off
from the tagged entry stream. -/
def groupOfEntries (es : List ((JobName × Nat) × Nat × Nat × Nat)) (m : Nat) :
    List (JobName × Nat × Nat) :=
  es.filterMap fun e => if e.2.1 = m then some (e.1.1, e.2.2.1, e.2.2.2) else none

/-- Invariant carried through the `transformToMachineDict` fold. -/
def MachineDictP (es : List ((JobName × Nat) × Nat × Nat × Nat))
    (d : List (Nat × List (JobName × Nat × Nat))) : Prop :=
  (d.map Prod.fst).Nodup ∧ ∀ m, alookupD d m [] = groupOfEntries es m

theorem dictAppend_keys {β : Type} (d : List (Nat × List β)) (k : Nat) (v : β) :
    ((dictAppend d k v).map Prod.fst) = if k ∈ d.map Prod.fst then d.map Prod.fst
      else d.map Prod.fst ++ [k] := by
  induction d with
  | nil => simp [dictAppend]
  | cons kv rest ih =>
      obtain ⟨k', l⟩ := kv
      by_cases h : k' = k
      · subst h; simp [dictAppend]
      · have h' : ¬ (k = k') := fun hh => h hh.symm
        simp only [dictAppend, h, if_false, List.map_cons, ih]
        by_cases hmem : k ∈ rest.map Prod.fst <;> simp [hmem, h', List.mem_cons]

theorem dictAppend_lookup_self {β : Type} (d : List (Nat × List β)) (k : Nat) (v : β) :
    alookupD (dictAppend d k v) k [] = alookupD d k [] ++ [v] := by
  induction d with
  | nil => simp [dictAppend, alookupD, alookup]
  | cons kv rest ih =>
      obtain ⟨k', l⟩ := kv
      by_cases h : k' = k
      · subst h; simp [dictAppend, alookupD, alookup]
      · simp only [dictAppend, h, if_false]
        simp only [alookupD, alookup, h, if_false] at ih ⊢
        exact ih

theorem dictAppend_lookup_other {β : Type} (d : List (Nat × List β)) (k : Nat) (v : β)
    (m : Nat) (hm : m ≠ k) : alookupD (dictAppend d k v) m [] = alookupD d m [] := by
  induction d with
  | nil =>
      have hk : k ≠ m := Ne.symm hm
      simp [dictAppend, alookupD, alookup, hk]
  | cons kv rest ih =>
      obtain ⟨k', l⟩ := kv
      by_cases h : k' = k
      · subst h
        simp only [dictAppend, if_true]
        simp [alookupD, alookup, Ne.symm hm]
      · simp only [dictAppend, h, if_false]
        by_cases h2 : k' = m
        · subst h2; simp [alookupD, alookup]
        · simp only [alookupD, alookup, h2, if_false] at ih ⊢
          exact ih

theorem dictAppend_nodup {β : Type} (d : List (Nat × List β)) (k : Nat) (v : β)
    (h : (d.map Prod.fst).Nodup) : ((dictAppend d k v).map Prod.fst).Nodup := by
  rw [dictAppend_keys]
  by_cases hmem : k ∈ d.map Prod.fst
  · simpa [hmem]
  · simp only [hmem, if_false]
    simp [List.nodup_append, h, hmem]

theorem machineDictP_step (es : List ((JobName × Nat) × Nat × Nat × Nat))
    (d : List (Nat × List (JobName × Nat × Nat)))
    (e : (JobName × Nat) × Nat × Nat × Nat) (h : MachineDictP es d) :
    MachineDictP (es ++ [e]) (dictAppend d e.2.1 (e.1.1, e.2.2.1, e.2.2.2)) := by
  obtain ⟨hnd, hgr⟩ := h
  refine ⟨dictAppend_nodup _ _ _ hnd, fun m => ?_⟩
  by_cases hm : m = e.2.1
  · subst hm
    rw [dictAppend_lookup_self, hgr]
    simp [groupOfEntries]
  · rw [dictAppend_lookup_other _ _ _ _ hm, hgr]
    have : ¬ (e.2.1 = m) := fun hh => hm hh.symm
    simp [groupOfEntries, this]

/-! ## The window extractor `find_time_window`
(src/solution.py lines 164-214; src/instance_parser.py lines 46-96 is the
same loop with labels from the `job_shop_scheduler` module).
Labels are `(job, position)` pairs; the emitted forbidden times use `Int`
because Python computes `x - start` on unbounded ints (it can go
negative when a predecessor duration exceeds the window start). -/

/-- Python `range(a, b)` over integers. -/
def intRange (a b : Int) : List Int :=
  (List.range (b - a).toNat).map fun k => a + Int.ofNat k

/-- `disable_till[m] = max(disable_till[m], v)` on a `defaultdict(int)`. -/
def dtillUpdate (d : List (Nat × Nat)) (m v : Nat) : List (Nat × Nat) :=
  dictSet d m (max (alookupD d m 0) v)

/-- `disable_since[m] = min(disable_since[m], v)` on a
`defaultdict(lambda: inf)`: a missing machine means the old value is
`inf`, so the result is `v`. -/
def dsinceUpdate (d : List (Nat × Nat)) (m v : Nat) : List (Nat × Nat) :=
  match alookup d m with
  | some old => dictSet d m (min old v)
  | none => dictSet d m v

/-- The five accumulators of `find_time_window`. -/
structure WindowInfo where
  new_jobs : Jobs
  operations_indexes : List (JobName × List Nat)
  disable_till : List (Nat × Nat)
  disable_since : List (Nat × Nat)
  disabled_variables : List ((JobName × Nat) × Int)
deriving Repr, DecidableEq

/-- One iteration of the inner loop of `find_time_window`, classifying
operation `i` of `job_name` (scheduled at `start_time`, with `nStarts`
start times in the row) against the window `[start, fin)`. -/
def windowStep (jobs : Jobs) (start fin : Nat) (job_name : JobName) (nStarts : Nat)
    (i : Nat) (start_time : Nat) (w : WindowInfo) : Option WindowInfo := do
  let ops ← alookup jobs job_name
  let op ← ops.get? i
  let machine := op.1
  let end_time := start_time + op.2
  if start_time ≥ start ∧ end_time ≤ fin then
    -- the operation fits into the time window
    pure { w with new_jobs := dictAppend w.new_jobs job_name op,
                  operations_indexes := dictAppend w.operations_indexes job_name i }
  else if start ≤ start_time ∧ start_time < fin ∧ end_time > fin then
    -- the operation reaches out of the time window on the right side
    if i > 0 then do
      let pred ← ops.get? (i - 1)
      pure { w with
        disabled_variables := w.disabled_variables ++
          (intRange ((start_time : Int) - (pred.2 : Int) + 1) (fin : Int)).map
            (fun x => ((job_name, i - 1), x - (start : Int))),
        disable_since := dsinceUpdate w.disable_since machine (start_time - start) }
    else
      pure { w with
        disable_since := dsinceUpdate w.disable_since machine (start_time - start) }
  else if start_time < start ∧ start < end_time ∧ end_time ≤ fin then
    -- the operation reaches out of the time window on the left side;
    -- note the emitted label is the job name with position 0
    if i < nStarts - 1 then do
      let _succ ← ops.get? (i + 1)
      pure { w with
        disabled_variables := w.disabled_variables ++
          (intRange 0 ((end_time : Int) - (start : Int))).map
            (fun x => ((job_name, 0), x)),
        disable_till := dtillUpdate w.disable_till machine (end_time - start) }
    else
      pure { w with
        disable_till := dtillUpdate w.disable_till machine (end_time - start) }
  else
    -- reaches out on both sides (or lies outside): nothing to do
    pure w

/-- `find_time_window(jobs, solution, start, end)`: iterate the solution
rows and classify every operation. -/
def find_time_window (jobs : Jobs) (sol : Sol) (start fin : Nat) : Option WindowInfo :=
  sol.foldlM
    (fun w q => q.2.enum.foldlM
      (fun w p => windowStep jobs start fin q.1 q.2.length p.1 p.2 w) w)
    ⟨[], [], [], [], []⟩

/-- Interior test used to characterise `operations_indexes`: operation
`i` of row `q` lies fully inside `[start, fin)`. -/
def interiorAt (jobs : Jobs) (q : JobName × List Nat) (start fin : Nat) (i : Nat) : Bool :=
  match alookup jobs q.1, q.2.get? i with
  | some ops, some s =>
      match ops.get? i with
      | some op => decide (s ≥ start) && decide (s + op.2 ≤ fin)
      | none => false
  | _, _ => false

/-! ## The decomposition driver `brute_force_greedy`
(src/brute_force_greedy.py lines 6-33).

The sub-solver results (best of eleven `solve_greedily` runs per window)
are abstracted into an oracle `Nat → Nat → Sol` indexed by the outer
iteration and the window position: the claims quantify over every
sequence of sub-solver results.  The inner `for i in range(10)` loop
shadows the window index `i`, so the merge shift and the yielded frame
index are the literal `9` left in `i`, not the window start. -/

/-- `get_result(jobs, solution)` (src/instance_parser.py lines 230-234). -/
def get_result (jobs : Jobs) (sol : Sol) : Option Nat :=
  jobs.foldlM
    (fun mt p => do
      let starts ← alookup sol p.1
      let last ← starts.getLast?
      let lastop ← p.2.getLast?
      pure (max mt (last + lastop.2)))
    0

/-- Merge loop body for one job of `task_times`: write
`task_times[job][j] + shift` into position `indexes[job][j]` of the
candidate schedule (the code first reads the old value, then writes
exactly this value when it differs, which nets to an unconditional
write). -/
def mergeOps (job : JobName) (idxs : List Nat) (shift : Nat) :
    Sol → List Nat → Nat → Option Sol
  | solf, [], _ => some solf
  | solf, t :: ts, j => do
      let idx ← idxs.get? j
      let row := alookupD solf job []
      let _ ← row.get? idx
      let row' ← listSet row idx (t + shift)
      mergeOps job idxs shift (dictSet solf job row') ts (j + 1)

/-- The improving merge of `brute_force_greedy` (lines 25-30): overwrite
the interior operations of a copy of the current schedule. -/
def mergeStep (sol : Sol) (indexes : List (JobName × List Nat)) (task_times : Sol)
    (shift : Nat) : Option Sol :=
  task_times.foldlM (fun solf q => mergeOps q.1 (alookupD indexes q.1 []) shift solf q.2 0) sol

/-- One window position of the driver: extract, skip when the window is
empty, merge the sub-solver result, keep the candidate only when
`checkValidity` accepts it; the second component is the yielded schedule,
when any. -/
def driverStep (jobs : Jobs) (windowSize : Nat) (tt : Sol) (sol : Sol) (w : Nat) :
    Option (Sol × Option Sol) := do
  let info ← find_time_window jobs sol w (w + windowSize)
  if info.new_jobs = [] then pure (sol, none)
  else do
    let solFound ← mergeStep sol info.operations_indexes tt 9
    let ok ← checkValidity jobs solFound
    if ok then pure (solFound, some solFound) else pure (sol, none)

/-- The generator loop over `(iteration, window)` pairs; an exception
(`none`) aborts the generator, keeping the yields made so far. -/
def driverLoop (jobs : Jobs) (windowSize : Nat) (oracle : Nat → Nat → Sol) :
    List (Nat × Nat) → Sol → List (Sol × Nat) → List (Sol × Nat)
  | [], _, acc => acc
  | (it, w) :: rest, sol, acc =>
      match driverStep jobs windowSize (oracle it w) sol w with
      | none => acc
      | some (sol2, yld) =>
          driverLoop jobs windowSize oracle rest sol2
            (acc ++ (yld.map fun s => (s, 9)).toList)

/-- `brute_force_greedy(jobs, solution, ...)`: the full decomposition
driver, yielding `(schedule, frame index)` pairs (`max_time` is passed
explicitly; the code defaults it to `get_result(jobs, solution) + 3`). -/
def brute_force_greedy (jobs : Jobs) (sol0 : Sol) (maxTime windowSize times : Nat)
    (oracle : Nat → Nat → Sol) : List (Sol × Nat) :=
  driverLoop jobs windowSize oracle
    ((List.range times).flatMap fun it =>
      (List.range (maxTime - windowSize)).map fun pos => (it, pos))
    sol0 []


/-- Generic invariant for dicts built by `dictAppend` from a stream of
`(key, value)` events. -/
def DictStreamP {β : Type} (es : List (Nat × β)) (d : List (Nat × List β)) : Prop :=
  (d.map Prod.fst).Nodup ∧
    ∀ k, alookupD d k [] = (es.filter fun e => e.1 = k).map (·.2)

/-- The stream of `(job, index)` events appended to `operations_indexes`
during `find_time_window`: one event per fully-interior operation, in
iteration order. -/
def interiorStream (jobs : Jobs) (sol : Sol) (start fin : Nat) : List (JobName × Nat) :=
  sol.flatMap fun q =>
    ((List.range q.2.length).filter (interiorAt jobs q start fin)).map fun i => (q.1, i)


/-! ## Tasks and the two encoders

`Task`/`_process_data` are identical in src/pyqubo_scheduler.py and
src/dqm_scheduler.py.  dqm labels `f"{job}_{position}"` are embedded as
pairs, pyqubo labels `f"{job}_{position},{time}"` as triples with an
`Int` time (the "too late" phase can build labels with negative times on
short horizons). -/

structure TaskD where
  job : JobName
  position : Nat
  machine : Nat
  duration : Nat
deriving Repr, DecidableEq

/-- pyqubo label `(job, position, time)`. -/
abbrev Label3 := JobName × Nat × Int

/-- `_process_data`: concatenated `Task(job_name, i, machine, time_span)`
objects in job order. -/
def processTasks (jobs : Jobs) : List TaskD :=
  jobs.flatMap fun p => p.2.enum.map fun ip => ⟨p.1, ip.1, ip.2.1, ip.2.2⟩

/-- `last_task_indices`: running `last + len(job_tasks)` starting from
`-1`, one entry per job (dropping the leading `-1`). -/
def lastTaskIndicesAux : Int → Jobs → List Int
  | _, [] => []
  | prev, p :: rest =>
      (prev + p.2.length) :: lastTaskIndicesAux (prev + p.2.length) rest

def lastTaskIndices (jobs : Jobs) : List Int :=
  lastTaskIndicesAux (-1) jobs

/-- Python `l[i]` with an `int` index: negative indices address from the
end, out-of-range raises. -/
def listGetInt {α : Type} (l : List α) (i : Int) : Option α :=
  if 0 ≤ i then l.get? i.toNat
  else if -(l.length : Int) ≤ i then l.get? (i + l.length).toNat
  else none

/-- Python `range(a, b)` over naturals. -/
def natRange (a b : Nat) : List Nat := (List.range (b - a)).map (a + ·)

/-! ### dqm `_remove_absurd_times` (src/dqm_scheduler.py lines 181-244)

Only the linear bias arrays are touched by this method; they are
embedded as an association list from dqm labels to numpy-style arrays of
accumulated `lagrange_absurd` penalties. -/

/-- Lookup in a label-keyed dict. -/
def plookup {β : Type} : List ((JobName × Nat) × β) → (JobName × Nat) → Option β
  | [], _ => none
  | (k, v) :: rest, j => if k = j then some v else plookup rest j

/-- `d[k] = v` on a label-keyed dict. -/
def pdictSet {β : Type} : List ((JobName × Nat) × β) → (JobName × Nat) → β →
    List ((JobName × Nat) × β)
  | [], k, v => [(k, v)]
  | (k', w) :: rest, k, v =>
      if k' = k then (k', v) :: rest else (k', w) :: pdictSet rest k v

/-- The dqm linear-bias table. -/
abbrev Biases := List ((JobName × Nat) × List Nat)

/-- `self.biases[label] = np.zeros(self.max_time)` for every task. -/
def initLinBiases (tasks : List TaskD) (maxTime : Nat) : Biases :=
  tasks.map fun t => ((t.job, t.position), List.replicate maxTime 0)

/-- numpy `arr[i] += v` with Python `int` indexing: negative indices
wrap once, out-of-range raises. -/
def npAdd (l : List Nat) (i : Int) (v : Nat) : Option (List Nat) :=
  if 0 ≤ i ∧ i < (l.length : Int) then do
    let old ← l.get? i.toNat
    listSet l i.toNat (old + v)
  else if -(l.length : Int) ≤ i ∧ i < 0 then do
    let j := (i + l.length).toNat
    let old ← l.get? j
    listSet l j (old + v)
  else none

/-- `self.biases[label][int(t)] += lagrange`; `none` is a `KeyError` or
`IndexError`. -/
def biasAdd (b : Biases) (lbl : JobName × Nat) (i : Int) (v : Nat) : Option Biases := do
  let arr ← plookup b lbl
  let arr2 ← npAdd arr i v
  pure (pdictSet b lbl arr2)

def biasAddMany (b : Biases) (lbl : JobName × Nat) (idxs : List Int) (v : Nat) :
    Option Biases :=
  idxs.foldlM (fun b i => biasAdd b lbl i v) b

/-- "Times that are too early": walk the task list tracking
`predecessor_time`, resetting when the job changes. -/
def dqmEarlyPhase (lagrange : Nat) : List TaskD → Nat → JobName → Biases → Option Biases
  | [], _, _, b => some b
  | task :: rest, predTime0, curJob0, b =>
      let predTime := if task.job ≠ curJob0 then 0 else predTime0
      do
        let b2 ← biasAddMany b (task.job, task.position)
          ((List.range predTime).map (Int.ofNat)) lagrange
        dqmEarlyPhase lagrange rest (predTime + task.duration) task.job b2

/-- "Times that are too late": walk the reversed task list tracking
`successor_time` (an `int` starting at `-1`), penalising
`biases[label][max_time - 1 - t]`. -/
def dqmLatePhase (lagrange maxTime : Nat) : List TaskD → Int → JobName → Biases →
    Option Biases
  | [], _, _, b => some b
  | task :: rest, succTime0, curJob0, b =>
      let succTime := (if task.job ≠ curJob0 then (-1 : Int) else succTime0) +
        (task.duration : Int)
      do
        let b2 ← biasAddMany b (task.job, task.position)
          ((intRange 0 succTime).map fun t => (maxTime : Int) - 1 - t) lagrange
        dqmLatePhase lagrange maxTime rest succTime task.job b2

/-- "Times interfering with disabled regions": note the `elif` — when a
machine appears in `disable_till`, its `disable_since` entry is ignored. -/
def dqmDisablePhase (lagrange maxTime : Nat) (till since : List (Nat × Nat)) :
    List TaskD → Biases → Option Biases
  | [], b => some b
  | task :: rest, b => do
      let b2 ← (match alookup till task.machine with
        | some v => biasAddMany b (task.job, task.position)
            ((List.range v).map (Int.ofNat)) lagrange
        | none => (match alookup since task.machine with
          | some v => biasAddMany b (task.job, task.position)
              ((natRange v maxTime).map (Int.ofNat)) lagrange
          | none => pure b))
      dqmDisablePhase lagrange maxTime till since rest b2

/-- "Times that are manually disabled": `biases[label][int(t)] += lagrange`
for every `(label, t)` in `disabled_variables`. -/
def dqmManualPhase (lagrange : Nat) (disabled : List ((JobName × Nat) × Int)) (b : Biases) :
    Option Biases :=
  disabled.foldlM (fun b p => biasAdd b p.1 p.2 lagrange) b

/-- `JobShopScheduler._remove_absurd_times` of src/dqm_scheduler.py:
the accumulated `lagrange_absurd` penalties on the linear biases.
`none` is a raised exception (empty task list, missing label, bad index). -/
def dqmRemoveAbsurdTimes (tasks : List TaskD) (till since : List (Nat × Nat))
    (disabled : List ((JobName × Nat) × Int)) (maxTime lagrange : Nat) :
    Option Biases :=
  match tasks with
  | [] => none
  | t0 :: _ => do
      let b1 ← dqmEarlyPhase lagrange tasks 0 t0.job (initLinBiases tasks maxTime)
      let tlast ← tasks.getLast?
      let b2 ← dqmLatePhase lagrange maxTime tasks.reverse (-1) tlast.job b1
      let b3 ← dqmDisablePhase lagrange maxTime till since tasks b2
      dqmManualPhase lagrange disabled b3

/-- Read one accumulated penalty. -/
def entryAt (b : Biases) (lbl : JobName × Nat) (j : Nat) : Option Nat :=
  (plookup b lbl).bind fun arr => arr.get? j

/-! ### pyqubo `_remove_absurd_times` (src/pyqubo_scheduler.py lines 252-311)

Here pruning is a set of labels; `absurd_times` is modelled as the list
of added labels (membership is all that is ever read).  The
`disabled_variables` parameter is taken already in label form, as the
final loop adds its elements to the set verbatim. -/

def pqEarlyPhase : List TaskD → Nat → JobName → List Label3 → List Label3
  | [], _, _, acc => acc
  | task :: rest, predTime0, curJob0, acc =>
      let predTime := if task.job ≠ curJob0 then 0 else predTime0
      pqEarlyPhase rest (predTime + task.duration) task.job
        (acc ++ (List.range predTime).map fun t => (task.job, task.position, Int.ofNat t))

def pqLatePhase (maxTime : Nat) : List TaskD → Int → JobName → List Label3 → List Label3
  | [], _, _, acc => acc
  | task :: rest, succTime0, curJob0, acc =>
      let succTime := (if task.job ≠ curJob0 then (-1 : Int) else succTime0) +
        (task.duration : Int)
      pqLatePhase maxTime rest succTime task.job
        (acc ++ (intRange 0 succTime).map fun t =>
          (task.job, task.position, (maxTime : Int) - 1 - t))

def pqDisablePhase (maxTime : Nat) (till since : List (Nat × Nat)) :
    List TaskD → List Label3 → List Label3
  | [], acc => acc
  | task :: rest, acc =>
      pqDisablePhase maxTime till since rest
        (match alookup till task.machine with
          | some v => acc ++ (List.range v).map fun t =>
              (task.job, task.position, Int.ofNat t)
          | none => match alookup since task.machine with
            | some v => acc ++ ((natRange v maxTime).map fun t =>
                (task.job, task.position, Int.ofNat t))
            | none => acc)

/-- `JobShopScheduler._remove_absurd_times` of src/pyqubo_scheduler.py:
the set of absurd labels (`none` when `self.tasks[0]` raises on an empty
task list). -/
def pyquboAbsurdTimes (tasks : List TaskD) (till since : List (Nat × Nat))
    (disabled : List Label3) (maxTime : Nat) : Option (List Label3) :=
  match tasks with
  | [] => none
  | t0 :: _ => do
      let a1 := pqEarlyPhase tasks 0 t0.job []
      let tlast ← tasks.getLast?
      let a2 := pqLatePhase maxTime tasks.reverse (-1) tlast.job a1
      pure (pqDisablePhase maxTime till since tasks a2 ++ disabled)

/-! ### The pyqubo Hamiltonian (src/pyqubo_scheduler.py lines 152-389)

The Hamiltonian is represented symbolically as the list of terms the
code adds to `self.H`; addition is commutative so the list order within
a phase that the source produces by machine-grouping is immaterial and
the embedding iterates ordered task pairs directly. -/

inductive HTerm where
  | oneHot (vars : List Label3) (lag : ℚ)
  | quad (v1 v2 : Label3) (lag : ℚ)
  | lin (v : Label3) (coef : ℚ)
deriving Repr, DecidableEq

/-- `_add_one_start_constraint`: one `lagrange_one_hot * (1 - sum vars)^2`
term per task over its non-absurd labels (`task_times` is a Python set
of the labels for `t in range(max_time)`; set order does not affect the
sum). -/
def oneStartTerms (tasks : List TaskD) (absurd : List Label3) (maxTime : Nat)
    (lag : ℚ) : List HTerm :=
  tasks.map fun task =>
    HTerm.oneHot
      ((List.range maxTime).filterMap fun t =>
        if ((task.job, task.position, Int.ofNat t) : Label3) ∈ absurd then none
        else some (task.job, task.position, Int.ofNat t))
      lag

/-- `_add_precedence_constraint`: couplings between consecutive tasks of
the same job. -/
def precTerms (tasks : List TaskD) (absurd : List Label3) (maxTime : Nat)
    (lag : ℚ) : List HTerm :=
  (tasks.zip (tasks.drop 1)).flatMap fun pr =>
    if pr.1.job ≠ pr.2.job then []
    else (List.range maxTime).flatMap fun t =>
      if ((pr.1.job, pr.1.position, Int.ofNat t) : Label3) ∈ absurd then []
      else (List.range (min (t + pr.1.duration) maxTime)).flatMap fun tt =>
        if ((pr.2.job, pr.2.position, Int.ofNat tt) : Label3) ∈ absurd then []
        else [HTerm.quad (pr.1.job, pr.1.position, Int.ofNat t)
          (pr.2.job, pr.2.position, Int.ofNat tt) lag]

/-- `_add_share_machine_constraint`: couplings between ordered pairs of
distinct tasks sharing a machine. -/
def shareTerms (tasks : List TaskD) (absurd : List Label3) (maxTime : Nat)
    (lag : ℚ) : List HTerm :=
  tasks.flatMap fun task => tasks.flatMap fun other =>
    if task.machine ≠ other.machine then []
    else if task.job = other.job ∧ task.position = other.position then []
    else (List.range maxTime).flatMap fun t =>
      if ((task.job, task.position, Int.ofNat t) : Label3) ∈ absurd then []
      else (natRange t (min (t + task.duration) maxTime)).flatMap fun tt =>
        if ((other.job, other.position, Int.ofNat tt) : Label3) ∈ absurd then []
        else [HTerm.quad (task.job, task.position, Int.ofNat t)
          (other.job, other.position, Int.ofNat tt) lag]

/-- The makespan-bias loop of `get_bqm`: for each last-task index, a
linear bias `2 * base^(end_time - max_time)` on every non-absurd,
in-horizon start time. -/
def makespanTerms (tasks : List TaskD) (absurd : List Label3) (maxTime : Nat)
    (base : ℚ) : List Int → Option (List HTerm)
  | [] => some []
  | i :: rest => do
      let task ← listGetInt tasks i
      let more ← makespanTerms tasks absurd maxTime base rest
      pure (((List.range maxTime).filterMap fun t =>
        if t + task.duration > maxTime then none
        else if ((task.job, task.position, Int.ofNat t) : Label3) ∈ absurd then none
        else some (HTerm.lin (task.job, task.position, Int.ofNat t)
          (2 * base ^ (Int.ofNat t + (task.duration : Int) - (maxTime : Int)))))
        ++ more)

/-- `JobShopScheduler.get_bqm` (src/pyqubo_scheduler.py lines 313-389):
prune, add the three constraint families and the makespan bias, return
the model.  There is no `EncodingImpossible` path: the only failure modes
are the exceptions of `_remove_absurd_times` and the `self.tasks[i]`
accesses of the bias loop. -/
def get_bqm (jobs : Jobs) (maxTime : Nat) (till since : List (Nat × Nat))
    (disabled : List Label3) (lagOne lagPrec lagShare : ℚ) : Option (List HTerm) := do
  let tasks := processTasks jobs
  let absurd ← pyquboAbsurdTimes tasks till since disabled maxTime
  let base : ℚ := (lastTaskIndices jobs).length + 1
  let ms ← makespanTerms tasks absurd maxTime base (lastTaskIndices jobs)
  pure (oneStartTerms tasks absurd maxTime lagOne ++
    precTerms tasks absurd maxTime lagPrec ++
    shareTerms tasks absurd maxTime lagShare ++ ms)


/-! ## `solve_with_order` (src/instance_parser.py lines 172-185)

`last_in_job` and `last_in_machine` are `defaultdict(int)` (default `0`);
`solution` is a `defaultdict(list)` appended to in order. -/

def solve_with_order_aux (jobs : Jobs) :
    List (JobName × Nat) → List (Nat × Nat) → List (Nat × Nat) → Sol → Option Sol
  | [], _, _, sol => some sol
  | (key, index) :: rest, lj, lm, sol => do
      let ops ← alookup jobs key
      let op ← ops.get? index
      let start := max (alookupD lj key 0) (alookupD lm op.1 0)
      solve_with_order_aux jobs rest (dictSet lj key (start + op.2))
        (dictSet lm op.1 (start + op.2)) (dictAppend sol key start)

def solve_with_order (jobs : Jobs) (order : List (JobName × Nat)) : Option Sol :=
  solve_with_order_aux jobs order [] [] []

/-- Invariant carried through the `solve_with_order` fold: placed rows
stay within the instance, every placed end is bounded by the
`last_in_job` and `last_in_machine` trackers, and the partial schedule
already satisfies precedence and machine exclusivity. -/
def OrderInv (jobs : Jobs) (lj lm : List (Nat × Nat)) (sol : Sol) : Prop :=
  (sol.map Prod.fst).Nodup ∧
  (∀ q ∈ sol, q.1 ∈ jobs.map Prod.fst) ∧
  (∀ p ∈ jobs,
    (alookupD sol p.1 []).length ≤ p.2.length ∧
    (∀ i op s, p.2.get? i = some op → (alookupD sol p.1 []).get? i = some s →
      s + op.2 ≤ alookupD lj p.1 0 ∧ s + op.2 ≤ alookupD lm op.1 0)) ∧
  (∀ p ∈ jobs, ∀ i op s1 s2, p.2.get? i = some op →
    (alookupD sol p.1 []).get? i = some s1 →
    (alookupD sol p.1 []).get? (i + 1) = some s2 → s1 + op.2 ≤ s2) ∧
  (∀ p1 ∈ jobs, ∀ p2 ∈ jobs, ∀ i1 i2 op1 op2 s1 s2,
    p1.2.get? i1 = some op1 → p2.2.get? i2 = some op2 →
    (alookupD sol p1.1 []).get? i1 = some s1 →
    (alookupD sol p2.1 []).get? i2 = some s2 →
    (p1.1, i1) ≠ (p2.1, i2) → op1.1 = op2.1 →
    s1 + op1.2 ≤ s2 ∨ s2 + op2.2 ≤ s1)

/-! ## `solve_greedily` (src/instance_parser.py lines 99-136)

`max_time` is the sum of all durations; `free_space` maps machines to
lists of half-open free intervals; `solution` is a `defaultdict(list)`.
Python compares `space[1] - space[0] >= length` (and the `max(...)`
variant) over unbounded ints; over naturals the equivalent added forms
`a + length <= b` are used.  The inner `for j, space in enumerate(...)`
loop with `break` is first-fit: it is embedded as a recursive scan that
returns the placed start and the updated free list, or `none` when no
interval fits (Python then silently places nothing).  Reading
`solution[name][i-1]` only happens when the machine's free list is
non-empty, as in the source (the expression sits inside the loop body).
The shuffled job list is a parameter `jsh` (a permutation of the
instance's items). -/

def totalTime (jobs : Jobs) : Nat :=
  (jobs.map fun p => (p.2.map Prod.snd).sum).sum

def maxNumOps (jobs : Jobs) : Nat :=
  jobs.foldl (fun m p => if p.2.length > m then p.2.length else m) 0

def initFreeSpace (jobs : Jobs) (maxT : Nat) : List (Nat × List (Nat × Nat)) :=
  jobs.foldl (fun fs p => p.2.foldl (fun fs op => dictSet fs op.1 [(0, maxT)]) fs) []

def place0 (len : Nat) : List (Nat × Nat) → Option (Nat × List (Nat × Nat))
  | [] => none
  | (s, e) :: rest =>
      if s + len ≤ e then some (s, (s + len, e) :: rest)
      else (place0 len rest).map fun r => (r.1, (s, e) :: r.2)

def placeLater (prevEnd len : Nat) : List (Nat × Nat) → Option (Nat × List (Nat × Nat))
  | [] => none
  | (s, e) :: rest =>
      if max s prevEnd + len ≤ e then
        some (max s prevEnd, (s, max s prevEnd) :: (max s prevEnd + len, e) :: rest)
      else (placeLater prevEnd len rest).map fun r => (r.1, (s, e) :: r.2)

def greedyJobStep (jobs : Jobs) (i : Nat) (q : JobName × List Op)
    (st : Sol × List (Nat × List (Nat × Nat))) :
    Option (Sol × List (Nat × List (Nat × Nat))) :=
  if i ≥ q.2.length then some st
  else do
    let ops ← alookup jobs q.1
    let op ← ops.get? i
    let fl ← alookup st.2 op.1
    if i = 0 then
      match place0 op.2 fl with
      | none => some st
      | some r => some (dictAppend st.1 q.1 r.1, dictSet st.2 op.1 r.2)
    else
      match fl with
      | [] => some st
      | _ :: _ => do
          let sprev ← (alookupD st.1 q.1 []).get? (i - 1)
          let opprev ← ops.get? (i - 1)
          match placeLater (sprev + opprev.2) op.2 fl with
          | none => some st
          | some r => some (dictAppend st.1 q.1 r.1, dictSet st.2 op.1 r.2)

def greedyRound (jobs jsh : Jobs) (i : Nat)
    (st : Sol × List (Nat × List (Nat × Nat))) :
    Option (Sol × List (Nat × List (Nat × Nat))) :=
  jsh.foldlM (fun st q => greedyJobStep jobs i q st) st

def solve_greedily (jobs jsh : Jobs) : Option Sol := do
  let st ← (List.range (maxNumOps jobs)).foldlM
    (fun st i => greedyRound jobs jsh i st) (([] : Sol), initFreeSpace jobs (totalTime jobs))
  pure st.1

/-- Free intervals in scan order: lower-bounded, well-formed, increasing —
hence pairwise disjoint. -/
def ChainOk : Nat → List (Nat × Nat) → Prop
  | _, [] => True
  | lo, ab :: rest => lo ≤ ab.1 ∧ ab.1 ≤ ab.2 ∧ ChainOk ab.2 rest

/-- Total duration of the operations already placed. -/
def placedSum (jobs : Jobs) (sol : Sol) : Nat :=
  (jobs.map fun p => ((p.2.take (alookupD sol p.1 []).length).map Prod.snd).sum).sum

/-- Invariant carried through the `solve_greedily` loops: rows are
prefixes of the instance rows with all placed ends bounded by the placed
total, precedence and machine exclusivity hold on the partial schedule,
and every used machine has a well-formed free list whose interval starts
stay below the placed total, with some interval ending at the horizon
and all free intervals disjoint from the placed operations. -/
def GInv (jobs : Jobs) (maxT : Nat) (sol : Sol)
    (fs : List (Nat × List (Nat × Nat))) : Prop :=
  (sol.map Prod.fst).Nodup ∧
  (∀ q ∈ sol, q.1 ∈ jobs.map Prod.fst) ∧
  (∀ p ∈ jobs, (alookupD sol p.1 []).length ≤ p.2.length) ∧
  (∀ p ∈ jobs, ∀ i op s, p.2.get? i = some op →
    (alookupD sol p.1 []).get? i = some s → s + op.2 ≤ placedSum jobs sol) ∧
  (∀ p ∈ jobs, ∀ i op s1 s2, p.2.get? i = some op →
    (alookupD sol p.1 []).get? i = some s1 →
    (alookupD sol p.1 []).get? (i + 1) = some s2 → s1 + op.2 ≤ s2) ∧
  (∀ p1 ∈ jobs, ∀ p2 ∈ jobs, ∀ i1 i2 op1 op2 s1 s2,
    p1.2.get? i1 = some op1 → p2.2.get? i2 = some op2 →
    (alookupD sol p1.1 []).get? i1 = some s1 →
    (alookupD sol p2.1 []).get? i2 = some s2 →
    (p1.1, i1) ≠ (p2.1, i2) → op1.1 = op2.1 → s1 + op1.2 ≤ s2 ∨ s2 + op2.2 ≤ s1) ∧
  (∀ m, (∃ p ∈ jobs, ∃ op ∈ p.2, op.1 = m) → ∃ fl, alookup fs m = some fl ∧
    ChainOk 0 fl ∧
    (∀ ab ∈ fl, ab.1 ≤ placedSum jobs sol) ∧
    (∃ x, (x, maxT) ∈ fl) ∧
    (∀ ab ∈ fl, ∀ p2 ∈ jobs, ∀ i2 op2 s2, p2.2.get? i2 = some op2 →
      (alookupD sol p2.1 []).get? i2 = some s2 → op2.1 = m →
      s2 + op2.2 ≤ ab.1 ∨ ab.2 ≤ s2))

/-! ## Association-list lemmas -/

theorem alookup_isSome_iff {β : Type} (l : List (Nat × β)) (j : Nat) :
    (alookup l j).isSome ↔ j ∈ l.map Prod.fst := by
  induction l with
  | nil => simp [alookup]
  | cons kv rest ih =>
      obtain ⟨k, v⟩ := kv
      by_cases h : k = j
      · subst h; simp [alookup]
      · have h' : j ≠ k := fun hh => h hh.symm
        simp [alookup, h, ih, h']

theorem alookup_mem {β : Type} {l : List (Nat × β)} {j : Nat} {v : β}
    (h : alookup l j = some v) : (j, v) ∈ l := by
  induction l with
  | nil => simp [alookup] at h
  | cons kv rest ih =>
      obtain ⟨k, w⟩ := kv
      by_cases hk : k = j
      · subst hk
        simp [alookup] at h
        subst h; exact List.mem_cons_self _ _
      · simp [alookup, hk] at h
        exact List.mem_cons_of_mem _ (ih h)

theorem mem_alookup {β : Type} {l : List (Nat × β)} {j : Nat} {v : β}
    (hnd : (l.map Prod.fst).Nodup) (h : (j, v) ∈ l) : alookup l j = some v := by
  induction l with
  | nil => simp at h
  | cons kv rest ih =>
      obtain ⟨k, w⟩ := kv
      simp only [List.map_cons, List.nodup_cons] at hnd
      rcases List.mem_cons.mp h with h1 | h1
      · cases h1; simp [alookup]
      · have hkj : k ≠ j := by
          intro he
          exact hnd.1 (List.mem_map.mpr ⟨(j, v), h1, he.symm⟩)
        simp only [alookup, hkj, if_false]
        exact ih hnd.2 h1

/-! ## Correctness of the precedence half of `checkValidity` -/

theorem pairsOk_nil (starts : List Nat) : pairsOk starts [] = true := by
  cases starts with
  | nil => rfl
  | cons a t => cases t <;> rfl

theorem pairsOk_short (a : Nat) (ops : List Op) : pairsOk [a] ops = true := by
  cases ops <;> rfl

theorem pairsOk_iff (ops : List Op) : ∀ (starts : List Nat),
    pairsOk starts ops = true ↔
      ∀ i op s1 s2, ops.get? i = some op → starts.get? i = some s1 →
        starts.get? (i + 1) = some s2 → s1 + op.2 ≤ s2 := by
  induction ops with
  | nil =>
      intro starts
      simp [pairsOk_nil]
  | cons op rest ih =>
      intro starts
      match starts with
      | [] => simp [pairsOk]
      | [a] =>
          simp only [pairsOk_short, true_iff]
          intro i opx s1 s2 _ h1 h2
          rcases i with _ | i <;> simp at h2
      | s1 :: s2 :: srest =>
          simp only [pairsOk, Bool.and_eq_true, decide_eq_true_eq, ih (s2 :: srest)]
          constructor
          · rintro ⟨h0, hrest⟩ i opx t1 t2 hop hs1 hs2
            rcases i with _ | i
            · simp at hop hs1 hs2
              subst hop; subst hs1; subst hs2; exact h0
            · exact hrest i opx t1 t2 (by simpa using hop) (by simpa using hs1)
                (by simpa using hs2)
          · intro h
            refine ⟨h 0 op s1 s2 rfl rfl rfl, ?_⟩
            intro i opx t1 t2 hop hs1 hs2
            exact h (i + 1) opx t1 t2 (by simpa using hop) (by simpa using hs1)
              (by simpa using hs2)

theorem jobPrecCheck_eq (sol : Sol) (job : JobName) (starts : List Nat)
    (hs : alookup sol job = some starts) :
    ∀ (l : List Op) (i : Nat), i + l.length = starts.length →
      jobPrecCheck sol job l i = some (pairsOk (starts.drop i) l) := by
  intro l
  induction l with
  | nil => intro i _; simp [jobPrecCheck, pairsOk_nil]
  | cons op1 rest ih =>
      intro i hlen
      match rest, ih with
      | [], _ =>
          have hdlen : (starts.drop i).length = 1 := by
            simp only [List.length_cons, List.length_nil] at hlen
            simp [List.length_drop]; omega
          rcases hd : starts.drop i with _ | ⟨a, t⟩
          · rw [hd] at hdlen; simp at hdlen
          · rw [hd] at hdlen
            simp only [List.length_cons] at hdlen
            have : t = [] := by
              cases t; · rfl
              · simp at hdlen
            subst this
            simp [jobPrecCheck, pairsOk_short]
      | op2 :: rest2, ih =>
          have hi1 : i + 1 < starts.length := by
            simp only [List.length_cons] at hlen; omega
          have hi0 : i < starts.length := by omega
          have hs1 : starts.get? i = some starts[i] := by
            simp [List.get?_eq_getElem?, List.getElem?_eq_getElem hi0]
          have hs2 : starts.get? (i + 1) = some starts[i+1] := by
            simp [List.get?_eq_getElem?, List.getElem?_eq_getElem hi1]
          have hdrop : starts.drop i = starts[i] :: starts[i+1] :: starts.drop (i + 2) := by
            rw [List.drop_eq_getElem_cons hi0, List.drop_eq_getElem_cons hi1]
          have hrec := ih (i + 1) (by simp only [List.length_cons] at hlen ⊢; omega)
          have hdrop1 : starts.drop (i + 1) = starts[i+1] :: starts.drop (i + 2) :=
            List.drop_eq_getElem_cons hi1
          have hg1 : starts[i]? = some starts[i] := List.getElem?_eq_getElem hi0
          have hg2 : starts[i+1]? = some starts[i+1] := List.getElem?_eq_getElem hi1
          by_cases hcmp : starts[i] + op1.2 > starts[i+1]
          · rw [hdrop]
            have hc : ¬ (starts[i] + op1.2 ≤ starts[i+1]) := by omega
            simp [jobPrecCheck, hs, hg1, hg2, pairsOk, hc, Nat.lt_of_lt_of_le]
          · rw [hdrop]
            have hc : starts[i] + op1.2 ≤ starts[i+1] := by omega
            rw [hdrop1] at hrec
            have hc2 : ¬ (starts[i+1] < starts[i] + op1.2) := by omega
            simp [jobPrecCheck, hs, hg1, hg2, pairsOk, hc, hc2, hrec]

/-- Under `SolMatches`-style success hypotheses the outer precedence loop
computes the conjunction of the per-job checks. -/
theorem precCheck_eq (sol : Sol) : ∀ (l : Jobs),
    (∀ p ∈ l, ∃ starts, alookup sol p.1 = some starts ∧ starts.length = p.2.length) →
    precCheck sol l = some (l.all fun p => pairsOk (alookupD sol p.1 []) p.2) := by
  intro l
  induction l with
  | nil => intro _; rfl
  | cons p rest ih =>
      intro h
      obtain ⟨starts, hstarts, hlen⟩ := h p (List.mem_cons_self _ _)
      obtain ⟨job, ops⟩ := p
      have hjob : jobPrecCheck sol job ops 0 = some (pairsOk starts ops) := by
        have := jobPrecCheck_eq sol job starts hstarts ops 0 (by simpa using hlen.symm)
        simpa using this
      have hgetD : alookupD sol job [] = starts := by simp [alookupD, hstarts]
      by_cases hb : pairsOk starts ops = true
      · simp only [precCheck, hjob, Option.some_bind, hb, if_true, List.all_cons, hgetD]
        rw [ih (fun q hq => h q (List.mem_cons_of_mem _ hq))]
        simp [hb]
      · simp only [precCheck, hjob, Option.some_bind, Bool.not_eq_true] at *
        simp [hb, List.all_cons, hgetD]

theorem solMatches_lookup {jobs : Jobs} {sol : Sol} (h : SolMatches jobs sol) :
    ∀ p ∈ jobs, ∃ starts, alookup sol p.1 = some starts ∧ starts.length = p.2.length := by
  obtain ⟨hndj, hnds, hperm, hlen⟩ := h
  intro p hp
  have hkey : p.1 ∈ sol.map Prod.fst := by
    exact hperm.mem_iff.mpr (List.mem_map.mpr ⟨p, hp, rfl⟩)
  obtain ⟨starts, hstarts⟩ := Option.isSome_iff_exists.mp
    ((alookup_isSome_iff sol p.1).mpr hkey)
  exact ⟨starts, hstarts, hlen p hp (p.1, starts) (alookup_mem hstarts) rfl⟩

theorem precAll_iff {jobs : Jobs} {sol : Sol} (h : SolMatches jobs sol) :
    (jobs.all fun p => pairsOk (alookupD sol p.1 []) p.2) = true ↔ PrecSpec jobs sol := by
  obtain ⟨hndj, hnds, hperm, hlen⟩ := h
  rw [List.all_eq_true]
  constructor
  · intro hall p hp q hq hpq i op s1 s2 hop hs1 hs2
    have hq2 : alookup sol p.1 = some q.2 := by
      rw [hpq]; exact mem_alookup hnds (by simpa using hq)
    have := hall p hp
    rw [show alookupD sol p.1 [] = q.2 by simp [alookupD, hq2]] at this
    exact (pairsOk_iff p.2 q.2).mp this i op s1 s2 hop hs1 hs2
  · intro hspec p hp
    obtain ⟨starts, hstarts, _⟩ := solMatches_lookup ⟨hndj, hnds, hperm, hlen⟩ p hp
    rw [show alookupD sol p.1 [] = starts by simp [alookupD, hstarts]]
    refine (pairsOk_iff p.2 starts).mpr ?_
    intro i op s1 s2 hop hs1 hs2
    exact hspec p hp (p.1, starts) (alookup_mem hstarts) rfl i op s1 s2 hop hs1 hs2

/-! ## Correctness of the machine-exclusivity half of `checkValidity` -/

theorem entryOf_eq_some {jobs : Jobs} {key : JobName} {value : List Nat} {i : Nat}
    {e : (JobName × Nat) × Nat × Nat × Nat} :
    entryOf jobs key value i = some e ↔
      ∃ ops op s, alookup jobs key = some ops ∧ ops.get? i = some op ∧
        value.get? i = some s ∧ e = ((key, i), (op.1, s, op.2)) := by
  simp only [entryOf, bind, Option.bind_eq_some, Option.pure_def, Option.some.injEq]
  constructor
  · rintro ⟨ops, hops, op, hop, s, hs, he⟩
    exact ⟨ops, op, s, hops, hop, hs, he.symm⟩
  · rintro ⟨ops, op, s, hops, hop, hs, he⟩
    exact ⟨ops, hops, op, hop, s, hs, he.symm⟩

theorem machineDictJob_inv (jobs : Jobs) (key : JobName) (value : List Nat) :
    ∀ (idxs : List Nat) (d : List (Nat × List (JobName × Nat × Nat)))
      (es : List ((JobName × Nat) × Nat × Nat × Nat)), MachineDictP es d →
      (∀ i ∈ idxs, (entryOf jobs key value i).isSome) →
      ∃ d', machineDictJob jobs key value d idxs = some d' ∧
        MachineDictP (es ++ idxs.filterMap (entryOf jobs key value)) d' := by
  intro idxs
  induction idxs with
  | nil => intro d es h _; exact ⟨d, rfl, by simpa using h⟩
  | cons i rest ih =>
      intro d es h hsucc
      obtain ⟨e, he⟩ := Option.isSome_iff_exists.mp (hsucc i (List.mem_cons_self _ _))
      obtain ⟨ops, op, s, hops, hop, hs, hee⟩ := entryOf_eq_some.mp he
      have hstep := machineDictP_step es d e h
      obtain ⟨d', hd', hP⟩ := ih (dictAppend d e.2.1 (e.1.1, e.2.2.1, e.2.2.2)) (es ++ [e])
        hstep (fun j hj => hsucc j (List.mem_cons_of_mem _ hj))
      refine ⟨d', ?_, ?_⟩
      · have hde : dictAppend d op.1 (key, s, op.2) =
            dictAppend d e.2.1 (e.1.1, e.2.2.1, e.2.2.2) := by rw [hee]
        simp only [machineDictJob, bind, hops, Option.some_bind, hop, hs, hde]
        exact hd'
      · have : (i :: rest).filterMap (entryOf jobs key value) =
            e :: rest.filterMap (entryOf jobs key value) := by
          simp [List.filterMap_cons, he]
        rw [this]
        simpa [List.append_assoc] using hP

theorem transformToMachineDict_inv (jobs : Jobs) :
    ∀ (rows : Sol) (d : List (Nat × List (JobName × Nat × Nat)))
      (es : List ((JobName × Nat) × Nat × Nat × Nat)), MachineDictP es d →
      (∀ q ∈ rows, ∀ i ∈ List.range q.2.length, (entryOf jobs q.1 q.2 i).isSome) →
      ∃ d', rows.foldlM
          (fun d kv => machineDictJob jobs kv.1 kv.2 d (List.range kv.2.length)) d = some d' ∧
        MachineDictP
          (es ++ rows.flatMap fun q => (List.range q.2.length).filterMap (entryOf jobs q.1 q.2))
          d' := by
  intro rows
  induction rows with
  | nil => intro d es h _; exact ⟨d, rfl, by simpa using h⟩
  | cons q rest ih =>
      intro d es h hsucc
      obtain ⟨d1, hd1, hP1⟩ := machineDictJob_inv jobs q.1 q.2 (List.range q.2.length) d es h
        (hsucc q (List.mem_cons_self _ _))
      obtain ⟨d', hd', hP⟩ := ih d1 _ hP1 (fun r hr => hsucc r (List.mem_cons_of_mem _ hr))
      refine ⟨d', ?_, ?_⟩
      · simp only [List.foldlM_cons, hd1, Option.some_bind]
        exact hd'
      · simpa [List.flatMap_cons, List.append_assoc] using hP

theorem transformToMachineDict_eq {jobs : Jobs} {sol : Sol} (h : SolMatches jobs sol) :
    ∃ md, transformToMachineDict jobs sol = some md ∧
      MachineDictP (allEntries jobs sol) md := by
  obtain ⟨hndj, hnds, hperm, hlen⟩ := h
  have hsucc : ∀ q ∈ sol, ∀ i ∈ List.range q.2.length, (entryOf jobs q.1 q.2 i).isSome := by
    intro q hq i hi
    rw [List.mem_range] at hi
    have hkey : q.1 ∈ jobs.map Prod.fst :=
      hperm.mem_iff.mp (List.mem_map.mpr ⟨q, hq, rfl⟩)
    obtain ⟨ops, hops⟩ := Option.isSome_iff_exists.mp ((alookup_isSome_iff jobs q.1).mpr hkey)
    have hql : q.2.length = ops.length :=
      hlen (q.1, ops) (alookup_mem hops) q hq rfl
    have hop : (ops.get? i).isSome := by
      rw [List.get?_eq_getElem?]
      simp [List.getElem?_eq_getElem (show i < ops.length by omega)]
    have hv : (q.2.get? i).isSome := by
      rw [List.get?_eq_getElem?]
      simp [List.getElem?_eq_getElem (show i < q.2.length by omega)]
    obtain ⟨op, hop⟩ := Option.isSome_iff_exists.mp hop
    obtain ⟨s, hs⟩ := Option.isSome_iff_exists.mp hv
    rw [Option.isSome_iff_exists]
    exact ⟨_, entryOf_eq_some.mpr ⟨ops, op, s, hops, hop, hs, rfl⟩⟩
  have hP0 : MachineDictP [] [] := by
    constructor
    · simp
    · intro m; simp [alookupD, alookup, groupOfEntries]
  obtain ⟨md, hmd, hP⟩ := transformToMachineDict_inv jobs sol [] [] hP0 hsucc
  exact ⟨md, hmd, by simpa [allEntries] using hP⟩

theorem get?_some_lt {β : Type} {l : List β} {n : Nat} {a : β} (h : l.get? n = some a) :
    n < l.length := by
  rw [List.get?_eq_getElem?] at h
  exact (List.getElem?_eq_some.mp h).1

theorem machineListOk_iff (l : List (JobName × Nat × Nat)) :
    machineListOk l = true ↔
      ∀ u v a b, u ≠ v → l.get? u = some a → l.get? v = some b →
        (a.2.1 + a.2.2 ≤ b.2.1 ∨ b.2.1 + b.2.2 ≤ a.2.1) := by
  unfold machineListOk
  simp only [List.all_eq_true, List.mem_range]
  constructor
  · intro h u v a b huv hu hv
    have := h u (get?_some_lt hu) v (get?_some_lt hv)
    simp only [huv, if_false, hu, hv] at this
    simpa using this
  · intro h u hu v hv
    by_cases huv : u = v
    · simp [huv]
    · simp only [huv, if_false]
      rcases ha : l.get? u with _ | a
      · simp
      · rcases hb : l.get? v with _ | b
        · simp
        · simpa using h u v a b huv ha hb

theorem groupOfEntries_eq (es : List ((JobName × Nat) × Nat × Nat × Nat)) (m : Nat) :
    groupOfEntries es m =
      (es.filter fun e => e.2.1 = m).map fun e => (e.1.1, e.2.2) := by
  induction es with
  | nil => rfl
  | cons e rest ih =>
      by_cases h : e.2.1 = m <;>
        simp [groupOfEntries, List.filterMap_cons, List.filter_cons, h] at ih ⊢ <;>
        exact ih

theorem mem_allEntries {jobs : Jobs} {sol : Sol} {e : (JobName × Nat) × Nat × Nat × Nat} :
    e ∈ allEntries jobs sol ↔
      ∃ q ∈ sol, ∃ i, i < q.2.length ∧ entryOf jobs q.1 q.2 i = some e := by
  simp only [allEntries, List.mem_flatMap, List.mem_filterMap, List.mem_range]

theorem allEntries_tags_nodup {jobs : Jobs} {sol : Sol}
    (hnds : (sol.map Prod.fst).Nodup) :
    ((allEntries jobs sol).map Prod.fst).Nodup := by
  induction sol with
  | nil => simp [allEntries]
  | cons q rest ih =>
      simp only [List.map_cons, List.nodup_cons] at hnds
      have hblock : (((List.range q.2.length).filterMap (entryOf jobs q.1 q.2)).map
          Prod.fst).Nodup := by
        rw [List.map_filterMap]
        refine List.Nodup.filterMap ?_ (List.nodup_range _)
        intro a b c ha hb
        rcases hfa : entryOf jobs q.1 q.2 a with _ | ea
        · rw [hfa] at ha; simp at ha
        · rcases hfb : entryOf jobs q.1 q.2 b with _ | eb
          · rw [hfb] at hb; simp at hb
          · obtain ⟨_, _, _, _, _, _, hea⟩ := entryOf_eq_some.mp hfa
            obtain ⟨_, _, _, _, _, _, heb⟩ := entryOf_eq_some.mp hfb
            rw [hfa] at ha; rw [hfb] at hb
            rw [hea] at ha; rw [heb] at hb
            simp only [Option.map_some', Option.mem_def, Option.some.injEq] at ha hb
            have hab := ha.trans hb.symm
            simp only [Prod.mk.injEq] at hab
            exact hab.2
      have hrest := ih hnds.2
      have hdisj : ∀ t ∈ ((List.range q.2.length).filterMap (entryOf jobs q.1 q.2)).map
          Prod.fst, t ∉ (allEntries jobs rest).map Prod.fst := by
        intro t ht hmem
        obtain ⟨e1, he1, ht1⟩ := List.mem_map.mp ht
        obtain ⟨e2, he2, ht2⟩ := List.mem_map.mp hmem
        obtain ⟨i, hi, hfe1⟩ := List.mem_filterMap.mp he1
        obtain ⟨_, _, _, _, _, _, hshape1⟩ := entryOf_eq_some.mp hfe1
        obtain ⟨r, hr, j, hj, hfe2⟩ := mem_allEntries.mp he2
        obtain ⟨_, _, _, _, _, _, hshape2⟩ := entryOf_eq_some.mp hfe2
        have h1 : t.1 = q.1 := by rw [← ht1, hshape1]
        have h2 : t.1 = r.1 := by rw [← ht2, hshape2]
        exact hnds.1 (h1 ▸ h2 ▸ List.mem_map.mpr ⟨r, hr, rfl⟩)
      have : allEntries jobs (q :: rest) =
          ((List.range q.2.length).filterMap (entryOf jobs q.1 q.2)) ++
            allEntries jobs rest := by
        simp [allEntries]
      rw [this, List.map_append, List.nodup_append]
      exact ⟨hblock, hrest, fun t ht => hdisj t ht⟩

theorem machineListOk_nil : machineListOk [] = true := rfl

theorem exclBridge {jobs : Jobs} {sol : Sol} (h : SolMatches jobs sol) :
    (∀ m, machineListOk (groupOfEntries (allEntries jobs sol) m) = true) ↔
      ExclSpec jobs sol := by
  obtain ⟨hndj, hnds, hperm, hlen⟩ := h
  have htags := @allEntries_tags_nodup jobs sol hnds
  constructor
  · intro hall p1 hp1 p2 hp2 q1 hq1 q2 hq2 hpq1 hpq2 i1 i2 op1 op2 s1 s2
      hop1 hop2 hs1 hs2 hne hm
    set e1 : (JobName × Nat) × Nat × Nat × Nat := ((q1.1, i1), (op1.1, s1, op1.2)) with he1def
    set e2 : (JobName × Nat) × Nat × Nat × Nat := ((q2.1, i2), (op2.1, s2, op2.2)) with he2def
    have hlk1 : alookup jobs q1.1 = some p1.2 := by
      rw [← hpq1]; exact mem_alookup hndj (by simpa using hp1)
    have hlk2 : alookup jobs q2.1 = some p2.2 := by
      rw [← hpq2]; exact mem_alookup hndj (by simpa using hp2)
    have he1 : e1 ∈ allEntries jobs sol :=
      mem_allEntries.mpr ⟨q1, hq1, i1, get?_some_lt hs1,
        entryOf_eq_some.mpr ⟨p1.2, op1, s1, hlk1, hop1, hs1, rfl⟩⟩
    have he2 : e2 ∈ allEntries jobs sol :=
      mem_allEntries.mpr ⟨q2, hq2, i2, get?_some_lt hs2,
        entryOf_eq_some.mpr ⟨p2.2, op2, s2, hlk2, hop2, hs2, rfl⟩⟩
    set fl := (allEntries jobs sol).filter fun e => e.2.1 = op1.1 with hfl
    have hf1 : e1 ∈ fl := List.mem_filter.mpr ⟨he1, by simp [he1def]⟩
    have hf2 : e2 ∈ fl := List.mem_filter.mpr ⟨he2, by simp [he2def, ← hm]⟩
    obtain ⟨u, hu⟩ := List.get?_of_mem hf1
    obtain ⟨v, hv⟩ := List.get?_of_mem hf2
    have huv : u ≠ v := by
      intro huv
      rw [huv, hv] at hu
      have : e2.1 = e1.1 := by rw [Option.some.injEq] at hu; rw [hu]
      simp only [he1def, he2def, Prod.mk.injEq] at this
      exact hne (by rw [hpq1, hpq2]; exact Prod.ext this.1.symm this.2.symm)
    have hall1 := (machineListOk_iff _).mp (hall op1.1)
    have hgu : (groupOfEntries (allEntries jobs sol) op1.1).get? u =
        some (e1.1.1, e1.2.2) := by
      rw [groupOfEntries_eq, List.get?_map, ← hfl, hu]; rfl
    have hgv : (groupOfEntries (allEntries jobs sol) op1.1).get? v =
        some (e2.1.1, e2.2.2) := by
      rw [groupOfEntries_eq, List.get?_map, ← hfl, hv]; rfl
    have := hall1 u v _ _ huv hgu hgv
    simpa [he1def, he2def] using this
  · intro hspec m
    rw [machineListOk_iff]
    intro u v a b huv hgu hgv
    rw [groupOfEntries_eq, List.get?_map] at hgu hgv
    set fl := (allEntries jobs sol).filter fun e => e.2.1 = m with hfl
    rcases hfu : fl.get? u with _ | e1
    · rw [hfu] at hgu; simp at hgu
    rcases hfv : fl.get? v with _ | e2
    · rw [hfv] at hgv; simp at hgv
    rw [hfu] at hgu
    rw [hfv] at hgv
    simp only [Option.map_some', Option.some.injEq] at hgu hgv
    have hm1 : e1 ∈ fl := List.get?_mem hfu
    have hm2 : e2 ∈ fl := List.get?_mem hfv
    have he1m := List.mem_filter.mp hm1
    have he2m := List.mem_filter.mp hm2
    -- the tags on the filtered list are still distinct
    have htagsfl : (fl.map Prod.fst).Nodup :=
      htags.sublist (List.Sublist.map _ (List.filter_sublist _))
    have hne : e1.1 ≠ e2.1 := by
      intro heq
      have h1 : (fl.map Prod.fst).get? u = some e1.1 := by
        rw [List.get?_map, hfu]; rfl
      have h2 : (fl.map Prod.fst).get? v = some e1.1 := by
        rw [List.get?_map, hfv]
        simp [heq]
      exact huv (List.get?_inj (by
        have := get?_some_lt h1; simpa using this) htagsfl (h1.trans h2.symm))
    obtain ⟨q1, hq1, i1, hi1, hent1⟩ := mem_allEntries.mp he1m.1
    obtain ⟨q2, hq2, i2, hi2, hent2⟩ := mem_allEntries.mp he2m.1
    obtain ⟨ops1, op1, s1, hlk1, hop1, hs1, hsh1⟩ := entryOf_eq_some.mp hent1
    obtain ⟨ops2, op2, s2, hlk2, hop2, hs2, hsh2⟩ := entryOf_eq_some.mp hent2
    have hp1 : (q1.1, ops1) ∈ jobs := alookup_mem hlk1
    have hp2 : (q2.1, ops2) ∈ jobs := alookup_mem hlk2
    have hmm1 : op1.1 = m := by
      have := he1m.2; rw [hsh1] at this; simpa using this
    have hmm2 : op2.1 = m := by
      have := he2m.2; rw [hsh2] at this; simpa using this
    have hnepair : ((q1.1, ops1) : JobName × List Op).1 ≠ 0 ∨ True := Or.inr trivial
    have hres := hspec (q1.1, ops1) hp1 (q2.1, ops2) hp2 q1 hq1 q2 hq2 rfl rfl
      i1 i2 op1 op2 s1 s2 hop1 hop2 hs1 hs2
      (by
        intro hcon
        apply hne
        rw [hsh1, hsh2]
        simpa using hcon)
      (hmm1.trans hmm2.symm)
    have hva : a = (q1.1, s1, op1.2) := by rw [← hgu, hsh1]
    have hvb : b = (q2.1, s2, op2.2) := by rw [← hgv, hsh2]
    rw [hva, hvb]
    simpa using hres

theorem mdAll_iff {es : List ((JobName × Nat) × Nat × Nat × Nat)}
    {md : List (Nat × List (JobName × Nat × Nat))} (hP : MachineDictP es md) :
    (md.all fun g => machineListOk g.2) = true ↔
      ∀ m, machineListOk (groupOfEntries es m) = true := by
  obtain ⟨hnd, hgr⟩ := hP
  rw [List.all_eq_true]
  constructor
  · intro hall m
    rcases hm : alookup md m with _ | g
    · have : groupOfEntries es m = [] := by
        rw [← hgr m]; simp [alookupD, hm]
      rw [this]; exact machineListOk_nil
    · have : groupOfEntries es m = g := by rw [← hgr m]; simp [alookupD, hm]
      rw [this]
      exact hall (m, g) (alookup_mem hm)
  · intro hgrp g hg
    have : alookup md g.1 = some g.2 := mem_alookup hnd (by simpa using hg)
    have hgeq : g.2 = groupOfEntries es g.1 := by rw [← hgr g.1]; simp [alookupD, this]
    rw [hgeq]; exact hgrp g.1

/-- Master helper: on any well-shaped instance/schedule pair,
`checkValidity` returns a boolean (it never raises) and that boolean is
`true` exactly when the spec's two validity conditions hold. -/
theorem checkValidity_spec {jobs : Jobs} {sol : Sol} (h : SolMatches jobs sol) :
    (∃ b, checkValidity jobs sol = some b) ∧
      (checkValidity jobs sol = some true ↔ PrecSpec jobs sol ∧ ExclSpec jobs sol) := by
  have hprec := precCheck_eq sol jobs (solMatches_lookup h)
  rcases hb : (jobs.all fun p => pairsOk (alookupD sol p.1 []) p.2) with _ | _
  · rw [hb] at hprec
    have hcv : checkValidity jobs sol = some false := by
      simp [checkValidity, bind, hprec]
    refine ⟨⟨false, hcv⟩, ?_⟩
    rw [hcv]
    simp only [Option.some.injEq, Bool.false_eq_true, false_iff]
    intro hcon
    have := (precAll_iff h).mpr hcon.1
    rw [hb] at this
    exact Bool.false_ne_true this
  · rw [hb] at hprec
    obtain ⟨md, hmd, hP⟩ := transformToMachineDict_eq h
    have hcv : checkValidity jobs sol =
        some (md.all fun g => machineListOk g.2) := by
      simp [checkValidity, bind, hprec, hmd]
    refine ⟨⟨_, hcv⟩, ?_⟩
    rw [hcv]
    have hPrec : PrecSpec jobs sol := (precAll_iff h).mp hb
    constructor
    · intro hsome
      rw [Option.some.injEq] at hsome
      exact ⟨hPrec, (exclBridge h).mp ((mdAll_iff hP).mp hsome)⟩
    · intro hcon
      rw [Option.some.injEq]
      exact (mdAll_iff hP).mpr ((exclBridge h).mpr hcon.2)

/-! ## Claim C2 -/

/-- C2: `checkValidity(jobs, solution)` returns `True` iff (1) every
pair of consecutive operations of a job satisfies
`start[i] + duration[i] <= start[i+1]`, and (2) any two distinct
operations sharing a machine have non-overlapping `[start,
start+duration)` intervals; and it always returns a boolean (never
raises) on well-formed instance/solution inputs. -/
theorem claim_C2_checkValidity (jobs : Jobs) (sol : Sol) (h : SolMatches jobs sol) :
    (∃ b, checkValidity jobs sol = some b) ∧
      (checkValidity jobs sol = some true ↔ PrecSpec jobs sol ∧ ExclSpec jobs sol) :=
  checkValidity_spec h

theorem claim_C2_checkValidity_witness :
    SolMatches [(1, [(0, 2), (1, 1)]), (2, [(0, 1)])] [(1, [0, 2]), (2, [2])] ∧
      ((∃ b, checkValidity [(1, [(0, 2), (1, 1)]), (2, [(0, 1)])]
          [(1, [0, 2]), (2, [2])] = some b) ∧
        (checkValidity [(1, [(0, 2), (1, 1)]), (2, [(0, 1)])]
            [(1, [0, 2]), (2, [2])] = some true ↔
          PrecSpec [(1, [(0, 2), (1, 1)]), (2, [(0, 1)])] [(1, [0, 2]), (2, [2])] ∧
            ExclSpec [(1, [(0, 2), (1, 1)]), (2, [(0, 1)])] [(1, [0, 2]), (2, [2])])) :=
  ⟨by decide, claim_C2_checkValidity _ _ (by decide)⟩

/-! ## Claim C1: the driver only yields schedules accepted by `checkValidity` -/

theorem driverStep_yield_valid {jobs : Jobs} {windowSize : Nat} {tt sol : Sol}
    {w : Nat} {sol2 s : Sol}
    (h : driverStep jobs windowSize tt sol w = some (sol2, some s)) :
    checkValidity jobs s = some true := by
  unfold driverStep at h
  rcases hfw : find_time_window jobs sol w (w + windowSize) with _ | info
  · rw [hfw] at h; simp at h
  rw [hfw] at h
  simp only [Option.some_bind, bind] at h
  by_cases hnj : info.new_jobs = []
  · simp [hnj] at h
  simp only [hnj, if_false] at h
  rcases hms : mergeStep sol info.operations_indexes tt 9 with _ | solFound
  · rw [hms] at h; simp at h
  rw [hms] at h
  simp only [Option.some_bind] at h
  rcases hcv : checkValidity jobs solFound with _ | ok
  · rw [hcv] at h; simp at h
  rw [hcv] at h
  simp only [Option.some_bind] at h
  rcases ok with _ | _
  · simp at h
  · simp only [if_true, Option.pure_def, Option.some.injEq, Prod.mk.injEq,
      Option.some.injEq] at h
    rw [← h.2]
    exact hcv

theorem driverLoop_valid (jobs : Jobs) (windowSize : Nat) (oracle : Nat → Nat → Sol) :
    ∀ (pairs : List (Nat × Nat)) (sol : Sol) (acc : List (Sol × Nat)),
      (∀ pr ∈ acc, checkValidity jobs pr.1 = some true) →
      ∀ pr ∈ driverLoop jobs windowSize oracle pairs sol acc,
        checkValidity jobs pr.1 = some true := by
  intro pairs
  induction pairs with
  | nil => intro sol acc hacc pr hpr; exact hacc pr hpr
  | cons p rest ih =>
      intro sol acc hacc pr hpr
      obtain ⟨it, w⟩ := p
      rw [driverLoop] at hpr
      rcases hstep : driverStep jobs windowSize (oracle it w) sol w with _ | r
      · rw [hstep] at hpr; exact hacc pr hpr
      · rw [hstep] at hpr
        obtain ⟨sol2, yld⟩ := r
        refine ih sol2 _ ?_ pr hpr
        intro pr2 hpr2
        rcases List.mem_append.mp hpr2 with hmem | hmem
        · exact hacc pr2 hmem
        · rcases yld with _ | s
          · simp at hmem
          · simp only [Option.map_some', Option.toList_some, List.mem_singleton] at hmem
            rw [hmem]
            exact driverStep_yield_valid hstep

/-- C1: every schedule yielded by the decomposition driver
`brute_force_greedy` — for every instance, every initial schedule, every
`max_time`/window/iteration setting, and every sequence of per-window
sub-solver results — passes the full-schedule `checkValidity` check; no
invalid schedule is ever yielded. -/
theorem claim_C1_driver_yields_valid (jobs : Jobs) (sol0 : Sol)
    (maxTime windowSize times : Nat) (oracle : Nat → Nat → Sol) :
    ∀ pr ∈ brute_force_greedy jobs sol0 maxTime windowSize times oracle,
      checkValidity jobs pr.1 = some true := by
  intro pr hpr
  exact driverLoop_valid jobs windowSize oracle _ sol0 [] (by simp) pr hpr

theorem claim_C1_driver_yields_valid_witness :
    (([(1, [9])], 9) ∈
        brute_force_greedy [(1, [(0, 1)])] [(1, [0])] 2 1 1 (fun _ _ => [(1, [0])])) ∧
      checkValidity [(1, [(0, 1)])] [(1, [9])] = some true :=
  ⟨by decide, claim_C1_driver_yields_valid [(1, [(0, 1)])] [(1, [0])] 2 1 1
    (fun _ _ => [(1, [0])]) ([(1, [9])], 9) (by decide)⟩

/-! ## Claim C7: merging only touches interior operations -/

theorem dictSet_lookup_self {β : Type} (d : List (Nat × β)) (k : Nat) (v : β) :
    alookup (dictSet d k v) k = some v := by
  induction d with
  | nil => simp [dictSet, alookup]
  | cons kv rest ih =>
      obtain ⟨k', w⟩ := kv
      by_cases h : k' = k
      · subst h; simp [dictSet, alookup]
      · simp [dictSet, alookup, h, ih]

theorem dictSet_lookup_other {β : Type} (d : List (Nat × β)) (k : Nat) (v : β)
    (m : Nat) (hm : k ≠ m) : alookup (dictSet d k v) m = alookup d m := by
  induction d with
  | nil => simp [dictSet, alookup, hm]
  | cons kv rest ih =>
      obtain ⟨k', w⟩ := kv
      by_cases h : k' = k
      · subst h; simp [dictSet, alookup, hm]
      · simp [dictSet, alookup, h, ih]

theorem listSet_get?_ne {β : Type} :
    ∀ (row : List β) (idx : Nat) (v : β) (row' : List β), listSet row idx v = some row' →
      ∀ k, k ≠ idx → row'.get? k = row.get? k := by
  intro row
  induction row with
  | nil => intro idx v row' h; simp [listSet] at h
  | cons x rest ih =>
      intro idx v row' h k hk
      match idx, h with
      | 0, h =>
          simp only [listSet, Option.some.injEq] at h
          subst h
          match k, hk with
          | n + 1, _ => simp
      | i + 1, h =>
          simp only [listSet] at h
          rcases hrec : listSet rest i v with _ | rest'
          · rw [hrec] at h; simp at h
          · rw [hrec] at h
            simp only [Option.map_some', Option.some.injEq] at h
            subst h
            match k, hk with
            | 0, _ => simp
            | m + 1, hk =>
                simp only [List.get?_cons_succ]
                exact ih i v rest' hrec m (fun he => hk (by rw [he]))

theorem mergeOps_frame (job : JobName) (idxs : List Nat) (shift : Nat) :
    ∀ (ts : List Nat) (j : Nat) (solf sol' : Sol),
      mergeOps job idxs shift solf ts j = some sol' →
      ∀ job2 idx, (job2 = job → idx ∉ idxs) →
        (alookupD sol' job2 []).get? idx = (alookupD solf job2 []).get? idx := by
  intro ts
  induction ts with
  | nil =>
      intro j solf sol' h job2 idx _
      simp only [mergeOps, Option.some.injEq] at h
      rw [h]
  | cons t rest ih =>
      intro j solf sol' h job2 idx hcond
      simp only [mergeOps, bind, Option.bind_eq_some] at h
      obtain ⟨idx0, hidx0, _, _, row', hrow', hrec⟩ := h
      have hstep : (alookupD (dictSet solf job row') job2 []).get? idx =
          (alookupD solf job2 []).get? idx := by
        by_cases hj : job2 = job
        · subst hj
          have hninl : idx ∉ idxs := hcond rfl
          have hidxne : idx ≠ idx0 := fun he => hninl (he ▸ List.get?_mem hidx0)
          rw [show alookupD (dictSet solf job2 row') job2 [] = row' by
            simp [alookupD, dictSet_lookup_self]]
          exact listSet_get?_ne _ _ _ _ hrow' idx hidxne
        · rw [show alookupD (dictSet solf job row') job2 [] = alookupD solf job2 [] by
            simp [alookupD, dictSet_lookup_other _ _ _ _ (fun he => hj he.symm)]]
      rw [ih (j + 1) _ _ hrec job2 idx hcond, hstep]

theorem mergeStep_frame {indexes : List (JobName × List Nat)} {shift : Nat} :
    ∀ (tt : List (JobName × List Nat)) (sol sol' : Sol),
      mergeStep sol indexes tt shift = some sol' →
      ∀ job idx, idx ∉ alookupD indexes job [] →
        (alookupD sol' job []).get? idx = (alookupD sol job []).get? idx := by
  intro tt
  induction tt with
  | nil =>
      intro sol sol' h job idx _
      simp only [mergeStep, List.foldlM_nil, Option.pure_def, Option.some.injEq] at h
      rw [h]
  | cons q rest ih =>
      intro sol sol' h job idx hnin
      simp only [mergeStep, List.foldlM_cons, bind, Option.bind_eq_some] at h
      obtain ⟨sol1, hsol1, hrest⟩ := h
      have h1 := mergeOps_frame q.1 (alookupD indexes q.1 []) shift q.2 0 sol sol1 hsol1
        job idx (fun hj => hj ▸ hnin)
      have h2 := ih sol1 sol' (by simpa [mergeStep] using hrest) job idx hnin
      rw [h2, h1]

theorem dictStreamP_step {β : Type} {es : List (Nat × β)}
    {d : List (Nat × List β)} (h : DictStreamP es d) (k : Nat) (v : β) :
    DictStreamP (es ++ [(k, v)]) (dictAppend d k v) := by
  obtain ⟨hnd, hgr⟩ := h
  refine ⟨dictAppend_nodup _ _ _ hnd, fun m => ?_⟩
  by_cases hm : m = k
  · subst hm
    rw [dictAppend_lookup_self, hgr]
    simp [List.filter_append]
  · rw [dictAppend_lookup_other _ _ _ _ hm, hgr]
    have : ¬ (k = m) := fun hh => hm hh.symm
    simp [List.filter_append, this]

theorem windowStep_indexes {jobs : Jobs} {start fin : Nat} {q : JobName × List Nat}
    {i s : Nat} {w w' : WindowInfo}
    (hs : q.2.get? i = some s)
    (h : windowStep jobs start fin q.1 q.2.length i s w = some w') :
    w'.operations_indexes =
      (if interiorAt jobs q start fin i
        then dictAppend w.operations_indexes q.1 i else w.operations_indexes) := by
  unfold windowStep at h
  rcases hops : alookup jobs q.1 with _ | ops
  · rw [hops] at h; simp at h
  rw [hops] at h
  simp only [bind, Option.some_bind] at h
  rcases hop : ops.get? i with _ | op
  · rw [hop] at h; simp at h
  rw [hop] at h
  simp only [Option.some_bind] at h
  have hint : interiorAt jobs q start fin i =
      (decide (s ≥ start) && decide (s + op.2 ≤ fin)) := by
    simp only [interiorAt, hops, hs, hop]
  by_cases h1 : s ≥ start ∧ s + op.2 ≤ fin
  · rw [if_pos h1] at h
    simp only [Option.pure_def, Option.some.injEq] at h
    rw [← h, hint]
    simp [h1.1, h1.2]
  · rw [if_neg h1] at h
    have hfalse : interiorAt jobs q start fin i = false := by
      rw [hint]
      rcases Decidable.not_and_iff_or_not.mp h1 with h2 | h2 <;> simp [h2]
    rw [hfalse, if_neg (by simp)]
    by_cases h2 : start ≤ s ∧ s < fin ∧ s + op.2 > fin
    · rw [if_pos h2] at h
      by_cases h3 : i > 0
      · rw [if_pos h3] at h
        rcases hpred : ops.get? (i - 1) with _ | pred
        · rw [hpred] at h; simp at h
        · rw [hpred] at h
          simp only [Option.some_bind, Option.pure_def, Option.some.injEq] at h
          rw [← h]
      · rw [if_neg h3] at h
        simp only [Option.pure_def, Option.some.injEq] at h
        rw [← h]
    · rw [if_neg h2] at h
      by_cases h4 : s < start ∧ start < s + op.2 ∧ s + op.2 ≤ fin
      · rw [if_pos h4] at h
        by_cases h5 : i < q.2.length - 1
        · rw [if_pos h5] at h
          rcases hsucc : ops.get? (i + 1) with _ | su
          · rw [hsucc] at h; simp at h
          · rw [hsucc] at h
            simp only [Option.some_bind, Option.pure_def, Option.some.injEq] at h
            rw [← h]
        · rw [if_neg h5] at h
          simp only [Option.pure_def, Option.some.injEq] at h
          rw [← h]
      · rw [if_neg h4] at h
        simp only [Option.pure_def, Option.some.injEq] at h
        rw [← h]

theorem flatMap_if_singleton {α : Type} (c : Nat → Bool) (f : Nat → α) :
    ∀ (l : List Nat),
      (l.flatMap fun i => if c i then [f i] else []) = (l.filter c).map f := by
  intro l
  induction l with
  | nil => rfl
  | cons a t ih =>
      by_cases h : c a <;> simp [List.filter_cons, h, ih]

theorem enum_flatMap_if {α : Type} (l : List Nat) (c : Nat → Bool) (f : Nat → α) :
    (l.enum.flatMap fun p => if c p.1 then [f p.1] else []) =
      ((List.range l.length).filter c).map f := by
  have h1 : (l.enum.flatMap fun p => if c p.1 then [f p.1] else []) =
      (l.enum.map Prod.fst).flatMap fun i => if c i then [f i] else [] := by
    induction l.enum with
    | nil => rfl
    | cons p t ih => simp only [List.flatMap_cons, List.map_cons, ih]
  rw [h1, List.enum_map_fst, flatMap_if_singleton]

theorem rowFold_idx {jobs : Jobs} {start fin : Nat} (q : JobName × List Nat) :
    ∀ (ps : List (Nat × Nat)), (∀ p ∈ ps, q.2.get? p.1 = some p.2) →
      ∀ (w w' : WindowInfo),
        ps.foldlM (fun w p => windowStep jobs start fin q.1 q.2.length p.1 p.2 w) w
          = some w' →
        ∀ es, DictStreamP es w.operations_indexes →
          DictStreamP (es ++ ps.flatMap fun p =>
            if interiorAt jobs q start fin p.1 then [(q.1, p.1)] else [])
            w'.operations_indexes := by
  intro ps
  induction ps with
  | nil =>
      intro _ w w' h es hP
      simp only [List.foldlM_nil, Option.pure_def, Option.some.injEq] at h
      rw [← h]
      simpa using hP
  | cons p rest ih =>
      intro hmem w w' h es hP
      simp only [List.foldlM_cons, bind, Option.bind_eq_some] at h
      obtain ⟨w1, hw1, hrest⟩ := h
      have hidx := windowStep_indexes (hmem p (List.mem_cons_self _ _)) hw1
      by_cases hc : interiorAt jobs q start fin p.1
      · rw [if_pos hc] at hidx
        have hP1 : DictStreamP (es ++ [(q.1, p.1)]) w1.operations_indexes := by
          rw [hidx]; exact dictStreamP_step hP q.1 p.1
        have := ih (fun r hr => hmem r (List.mem_cons_of_mem _ hr)) w1 w' hrest _ hP1
        simpa [hc, List.append_assoc] using this
      · rw [if_neg hc] at hidx
        have hP1 : DictStreamP es w1.operations_indexes := by rw [hidx]; exact hP
        have := ih (fun r hr => hmem r (List.mem_cons_of_mem _ hr)) w1 w' hrest _ hP1
        simpa [hc] using this

theorem find_time_window_streamP {jobs : Jobs} {start fin : Nat} :
    ∀ (rows : Sol) (w w' : WindowInfo),
      rows.foldlM
        (fun w q => q.2.enum.foldlM
          (fun w p => windowStep jobs start fin q.1 q.2.length p.1 p.2 w) w) w
        = some w' →
      ∀ es, DictStreamP es w.operations_indexes →
        DictStreamP (es ++ interiorStream jobs rows start fin) w'.operations_indexes := by
  intro rows
  induction rows with
  | nil =>
      intro w w' h es hP
      simp only [List.foldlM_nil, Option.pure_def, Option.some.injEq] at h
      rw [← h]
      simpa [interiorStream] using hP
  | cons q rest ih =>
      intro w w' h es hP
      simp only [List.foldlM_cons, bind, Option.bind_eq_some] at h
      obtain ⟨w1, hw1, hrest⟩ := h
      have hrow := rowFold_idx q q.2.enum
        (fun p hp => by
          rw [List.mem_enum_iff_getElem?] at hp
          rw [List.get?_eq_getElem?]
          exact hp)
        w w1 hw1 es hP
      rw [enum_flatMap_if] at hrow
      have := ih w1 w' hrest _ hrow
      simpa [interiorStream, List.append_assoc] using this

/-- Stream keys come from the rows that produced them. -/
theorem interiorStream_keys {jobs : Jobs} {start fin : Nat} :
    ∀ (rows : Sol) (e : JobName × Nat), e ∈ interiorStream jobs rows start fin →
      e.1 ∈ rows.map Prod.fst := by
  intro rows e he
  simp only [interiorStream, List.mem_flatMap, List.mem_map] at he
  obtain ⟨q, hq, i, _, hei⟩ := he
  rw [← hei]
  exact List.mem_map.mpr ⟨q, hq, rfl⟩

theorem find_time_window_indexes {jobs : Jobs} {sol : Sol} {start fin : Nat}
    {info : WindowInfo} (h : find_time_window jobs sol start fin = some info)
    (hnd : (sol.map Prod.fst).Nodup) :
    ∀ q ∈ sol, alookupD info.operations_indexes q.1 [] =
      (List.range q.2.length).filter (interiorAt jobs q start fin) := by
  have hP0 : DictStreamP ([] : List (JobName × Nat))
      (WindowInfo.operations_indexes ⟨[], [], [], [], []⟩) := by
    refine ⟨by simp, fun k => ?_⟩
    simp [alookupD, alookup]
  have hP := find_time_window_streamP sol _ _ h [] hP0
  simp only [List.nil_append] at hP
  intro q hq
  rw [hP.2 q.1]
  -- the stream filtered on `q.1` is exactly the block of row `q`
  clear hP hP0 h
  induction sol with
  | nil => simp at hq
  | cons r rest ih =>
      simp only [List.map_cons, List.nodup_cons] at hnd
      have hblockmap : ∀ (z : JobName × List Nat),
          ((((List.range z.2.length).filter (interiorAt jobs z start fin)).map
              (fun i => (z.1, i))).filter (fun e => e.1 = q.1)).map (·.2) =
            if z.1 = q.1
              then (List.range z.2.length).filter (interiorAt jobs z start fin)
              else [] := by
        intro z
        by_cases hz : z.1 = q.1
        · rw [if_pos hz]
          rw [List.filter_map, List.map_map]
          have : ((List.range z.2.length).filter (interiorAt jobs z start fin)).filter
              ((fun e => decide (e.1 = q.1)) ∘ fun i => (z.1, i)) =
              (List.range z.2.length).filter (interiorAt jobs z start fin) := by
            apply List.filter_eq_self.mpr
            intro a _
            simp [hz]
          rw [this]
          simp
        · rw [if_neg hz]
          have : (((List.range z.2.length).filter (interiorAt jobs z start fin)).map
              (fun i => (z.1, i))).filter (fun e => e.1 = q.1) = [] := by
            apply List.filter_eq_nil_iff.mpr
            intro e he
            obtain ⟨i, _, hei⟩ := List.mem_map.mp he
            rw [← hei]
            simpa using hz
          rw [this]
          rfl
      rcases List.mem_cons.mp hq with hqr | hqr
      · subst hqr
        simp only [interiorStream, List.flatMap_cons, List.filter_append,
          List.map_append]
        rw [hblockmap q, if_pos rfl]
        have hrest0 : ((interiorStream jobs rest start fin).filter
            (fun e => e.1 = q.1)).map (·.2) = [] := by
          have : (interiorStream jobs rest start fin).filter (fun e => e.1 = q.1) = [] := by
            apply List.filter_eq_nil_iff.mpr
            intro e he
            intro hcon
            apply hnd.1
            have := interiorStream_keys rest e he
            rw [show e.1 = q.1 by simpa using hcon] at this
            exact this
          rw [this]; rfl
        simp only [interiorStream] at hrest0
        rw [hrest0, List.append_nil]
      · have hq1ne : r.1 ≠ q.1 := by
          intro he
          apply hnd.1
          rw [he]
          exact List.mem_map.mpr ⟨q, hqr, rfl⟩
        simp only [interiorStream, List.flatMap_cons, List.filter_append,
          List.map_append]
        rw [hblockmap r, if_neg hq1ne, List.nil_append]
        simpa [interiorStream] using ih hnd.2 hqr

/-- C7: the driver's merge is conservative.  For any window `[start,
fin)` extracted from the current schedule and any sub-solver result,
(1) every operation whose index is not among the window's
`operations_indexes` (the operations not classified as fully inside)
keeps exactly its previous start time, and (2) in particular any
operation with positive duration whose start is `≥ fin` (e.g. `op_start
>= 5` for a `[0,5)` window) is never changed by the merge. -/
theorem claim_C7_merge_conservative (jobs : Jobs) (sol : Sol) (start fin : Nat)
    (info : WindowInfo) (tt : Sol) (shift : Nat) (sol' : Sol)
    (hnd : (sol.map Prod.fst).Nodup)
    (hfw : find_time_window jobs sol start fin = some info)
    (hm : mergeStep sol info.operations_indexes tt shift = some sol') :
    (∀ job idx, idx ∉ alookupD info.operations_indexes job [] →
       (alookupD sol' job []).get? idx = (alookupD sol job []).get? idx) ∧
    (∀ q ∈ sol, ∀ idx op s ops, alookup jobs q.1 = some ops →
       ops.get? idx = some op → q.2.get? idx = some s → 1 ≤ op.2 → fin ≤ s →
       (alookupD sol' q.1 []).get? idx = some s) := by
  have hframe := mergeStep_frame tt sol sol' hm
  refine ⟨hframe, ?_⟩
  intro q hq idx op s ops hops hop hs hdur hfin
  have hnin : idx ∉ alookupD info.operations_indexes q.1 [] := by
    rw [find_time_window_indexes hfw hnd q hq]
    intro hmem
    have hint := (List.mem_filter.mp hmem).2
    simp only [interiorAt, hops, hs, hop, ge_iff_le, Bool.and_eq_true,
      decide_eq_true_eq] at hint
    omega
  have := hframe q.1 idx hnin
  rw [this]
  have hrow : alookupD sol q.1 [] = q.2 := by
    simp [alookupD, mem_alookup hnd (by simpa using hq)]
  rw [hrow, hs]

theorem claim_C7_merge_conservative_witness :
    (((List.map Prod.fst [(1, [0, 5])]).Nodup) ∧
      find_time_window [(1, [(0, 1), (1, 1)])] [(1, [0, 5])] 0 5 =
        some ⟨[(1, [(0, 1)])], [(1, [0])], [], [], []⟩ ∧
      mergeStep [(1, [0, 5])]
        (WindowInfo.operations_indexes ⟨[(1, [(0, 1)])], [(1, [0])], [], [], []⟩)
        [(1, [2])] 0 = some [(1, [2, 5])]) ∧
    ((∀ job idx, idx ∉ alookupD
        (WindowInfo.operations_indexes ⟨[(1, [(0, 1)])], [(1, [0])], [], [], []⟩) job [] →
        (alookupD [(1, [2, 5])] job []).get? idx =
          (alookupD [(1, [0, 5])] job []).get? idx) ∧
      (∀ q ∈ [((1 : JobName), [0, 5])], ∀ idx op s ops,
        alookup [(1, [(0, 1), (1, 1)])] q.1 = some ops →
        ops.get? idx = some op → q.2.get? idx = some s → 1 ≤ op.2 → 5 ≤ s →
        (alookupD [(1, [2, 5])] q.1 []).get? idx = some s)) :=
  ⟨⟨by decide, by decide, by decide⟩,
    claim_C7_merge_conservative [(1, [(0, 1), (1, 1)])] [(1, [0, 5])] 0 5
      ⟨[(1, [(0, 1)])], [(1, [0])], [], [], []⟩ [(1, [2])] 0 [(1, [2, 5])]
      (by decide) (by decide) (by decide)⟩

/-! ## Claim C5: left-edge crossings -/

theorem windowStep_leftcross {jobs : Jobs} {start fin : Nat} {q : JobName × List Nat}
    {i s : Nat} {w w' : WindowInfo} {ops : List Op} {op : Op}
    (hops : alookup jobs q.1 = some ops) (hop : ops.get? i = some op)
    (hcross : s < start ∧ start < s + op.2 ∧ s + op.2 ≤ fin)
    (h : windowStep jobs start fin q.1 q.2.length i s w = some w') :
    w'.disable_till = dictSet w.disable_till op.1
        (max (alookupD w.disable_till op.1 0) (s + op.2 - start)) ∧
      (i < q.2.length - 1 → w'.disabled_variables = w.disabled_variables ++
        (intRange 0 (((s + op.2 : Nat) : Int) - (start : Int))).map fun x => ((q.1, 0), x)) ∧
      (¬ i < q.2.length - 1 → w'.disabled_variables = w.disabled_variables) := by
  unfold windowStep at h
  rw [hops] at h
  simp only [bind, Option.some_bind] at h
  rw [hop] at h
  simp only [Option.some_bind] at h
  rw [if_neg (by omega), if_neg (by omega), if_pos hcross] at h
  by_cases hsucc : i < q.2.length - 1
  · rw [if_pos hsucc] at h
    rcases hnext : ops.get? (i + 1) with _ | su
    · rw [hnext] at h; simp at h
    · rw [hnext] at h
      simp only [Option.some_bind, Option.pure_def, Option.some.injEq] at h
      rw [← h]
      exact ⟨rfl, fun _ => rfl, fun hcon => absurd hsucc hcon⟩
  · rw [if_neg hsucc] at h
    simp only [Option.pure_def, Option.some.injEq] at h
    rw [← h]
    exact ⟨rfl, fun hcon => absurd hcon hsucc, fun _ => rfl⟩

theorem filter_range_head (c : Nat → Bool) (n k : Nat) (hk : k < n) (hck : c k = true)
    (hbelow : ∀ j < k, c j = false) : ((List.range n).filter c).head? = some k := by
  have hsplit : List.range n = List.range (k + 1) ++
      (List.range (n - (k + 1))).map ((k + 1) + ·) := by
    rw [← List.range_add]
    congr 1
    omega
  have hfirst : (List.range (k + 1)).filter c = [k] := by
    rw [List.range_succ, List.filter_append]
    have h1 : (List.range k).filter c = [] := by
      apply List.filter_eq_nil_iff.mpr
      intro j hj
      simp [hbelow j (List.mem_range.mp hj)]
    rw [h1, List.nil_append]
    simp [hck]
  rw [hsplit, List.filter_append, hfirst]
  rfl

theorem starts_mono {ops : List Op} {starts : List Nat}
    (hlen : starts.length = ops.length)
    (hprec : ∀ k opk s1 s2, ops.get? k = some opk → starts.get? k = some s1 →
      starts.get? (k + 1) = some s2 → s1 + opk.2 ≤ s2) :
    ∀ k j sj sk, j ≤ k → starts.get? j = some sj → starts.get? k = some sk → sj ≤ sk := by
  intro k
  induction k with
  | zero =>
      intro j sj sk hj hgj hgk
      interval_cases j
      rw [hgj] at hgk
      simp at hgk
      omega
  | succ m ih =>
      intro j sj sk hj hgj hgk
      by_cases hjm : j = m + 1
      · subst hjm
        rw [hgj] at hgk; simp at hgk; omega
      · have hjm2 : j ≤ m := by omega
        have hmlt : m < starts.length := by
          have := get?_some_lt hgk; omega
        have hsm : ∃ sm, starts.get? m = some sm := by
          rw [List.get?_eq_getElem?]
          exact ⟨_, List.getElem?_eq_getElem hmlt⟩
        obtain ⟨sm, hsm⟩ := hsm
        have hopm : ∃ opm, ops.get? m = some opm := by
          rw [List.get?_eq_getElem?]
          exact ⟨_, List.getElem?_eq_getElem (by omega)⟩
        obtain ⟨opm, hopm⟩ := hopm
        have h1 := ih j sj sm hjm2 hgj hsm
        have h2 := hprec m opm sm sk hopm hsm hgk
        omega

theorem interiorAt_true {jobs : Jobs} {q : JobName × List Nat} {start fin i : Nat}
    (h : interiorAt jobs q start fin i = true) :
    ∃ ops op s, alookup jobs q.1 = some ops ∧ ops.get? i = some op ∧
      q.2.get? i = some s ∧ start ≤ s ∧ s + op.2 ≤ fin := by
  rcases hops : alookup jobs q.1 with _ | ops
  · simp only [interiorAt, hops] at h; exact absurd h (by simp)
  rcases hs : q.2.get? i with _ | s
  · simp only [interiorAt, hops, hs] at h; exact absurd h (by simp)
  rcases hop : ops.get? i with _ | op
  · simp only [interiorAt, hops, hs, hop] at h; exact absurd h (by simp)
  simp only [interiorAt, hops, hs, hop, ge_iff_le, Bool.and_eq_true,
    decide_eq_true_eq] at h
  exact ⟨ops, op, s, rfl, hop, rfl, h.1, h.2⟩

/-- C5: for an operation crossing the left edge of the window
(`op_start < start < op_end <= end`), (1) the extractor sets
`disable_till[machine]` to `max(previous value, op_end - start)`, (2)
when the operation has a successor (`i < len(start_times) - 1`) it
appends forbidden pairs for label `(job, 0)` at exactly the local times
`[0, op_end - start)` and no pairs otherwise, and (3) on a valid
schedule, if the successor is interior then local task `0` of this job
in the extracted window is exactly that successor (the first interior
index is `i + 1`), so the forbidden pairs are the successor's local
times. -/
theorem claim_C5_leftcross (jobs : Jobs) (sol : Sol) (start fin : Nat)
    (info : WindowInfo) (q : JobName × List Nat) (i s : Nat) (ops : List Op) (op : Op)
    (w w' : WindowInfo)
    (hnd : (sol.map Prod.fst).Nodup)
    (hops : alookup jobs q.1 = some ops) (hop : ops.get? i = some op)
    (hs : q.2.get? i = some s)
    (hlen : q.2.length = ops.length)
    (hcross : s < start ∧ start < s + op.2 ∧ s + op.2 ≤ fin)
    (hstep : windowStep jobs start fin q.1 q.2.length i s w = some w')
    (hq : q ∈ sol)
    (hfw : find_time_window jobs sol start fin = some info)
    (hvalid : pairsOk q.2 ops = true) :
    w'.disable_till = dictSet w.disable_till op.1
        (max (alookupD w.disable_till op.1 0) (s + op.2 - start)) ∧
      (i < q.2.length - 1 → w'.disabled_variables = w.disabled_variables ++
        (intRange 0 (((s + op.2 : Nat) : Int) - (start : Int))).map fun x => ((q.1, 0), x)) ∧
      (¬ i < q.2.length - 1 → w'.disabled_variables = w.disabled_variables) ∧
      (interiorAt jobs q start fin (i + 1) = true →
        (alookupD info.operations_indexes q.1 []).head? = some (i + 1)) := by
  obtain ⟨h1, h2, h3⟩ := windowStep_leftcross hops hop hcross hstep
  refine ⟨h1, h2, h3, ?_⟩
  intro hint
  rw [find_time_window_indexes hfw hnd q hq]
  obtain ⟨_, _, ssucc, _, _, hssucc, _, _⟩ := interiorAt_true hint
  have hprec := (pairsOk_iff ops q.2).mp hvalid
  refine filter_range_head _ _ _ (get?_some_lt hssucc) hint ?_
  intro j hj
  rw [Bool.eq_false_iff]
  intro hjint
  obtain ⟨ops', op', s', hops', hop', hs', hge, _⟩ := interiorAt_true hjint
  rw [hops] at hops'
  rw [Option.some.injEq] at hops'
  subst hops'
  have hji : j ≤ i := by omega
  have hmono := starts_mono hlen hprec i j s' s hji hs' hs
  omega

theorem claim_C5_leftcross_witness :
    ((alookup [((1 : JobName), [(0, 2), (1, 1)])] 1 = some [(0, 2), (1, 1)]) ∧
      windowStep [(1, [(0, 2), (1, 1)])] 1 3 1 2 0 0 ⟨[], [], [], [], []⟩ =
        some ⟨[], [], [(0, 1)], [], [((1, 0), 0)]⟩ ∧
      find_time_window [(1, [(0, 2), (1, 1)])] [(1, [0, 2])] 1 3 =
        some ⟨[(1, [(1, 1)])], [(1, [1])], [(0, 1)], [], [((1, 0), 0)]⟩) ∧
    ((WindowInfo.disable_till ⟨[], [], [(0, 1)], [], [((1, 0), 0)]⟩ =
        dictSet [] 0 (max (alookupD [] 0 0) (0 + 2 - 1))) ∧
      (0 < ([0, 2] : List Nat).length - 1 →
        WindowInfo.disabled_variables ⟨[], [], [(0, 1)], [], [((1, 0), 0)]⟩ =
          [] ++ (intRange 0 (((0 + 2 : Nat) : Int) - ((1 : Nat) : Int))).map
            fun x => (((1 : JobName), 0), x)) ∧
      (¬ 0 < ([0, 2] : List Nat).length - 1 →
        WindowInfo.disabled_variables ⟨[], [], [(0, 1)], [], [((1, 0), 0)]⟩ = []) ∧
      (interiorAt [(1, [(0, 2), (1, 1)])] (1, [0, 2]) 1 3 (0 + 1) = true →
        (alookupD (WindowInfo.operations_indexes
            ⟨[(1, [(1, 1)])], [(1, [1])], [(0, 1)], [], [((1, 0), 0)]⟩) 1 []).head? =
          some (0 + 1))) :=
  ⟨⟨by decide, by decide, by decide⟩,
    claim_C5_leftcross [(1, [(0, 2), (1, 1)])] [(1, [0, 2])] 1 3
      ⟨[(1, [(1, 1)])], [(1, [1])], [(0, 1)], [], [((1, 0), 0)]⟩
      (1, [0, 2]) 0 0 [(0, 2), (1, 1)] (0, 2)
      ⟨[], [], [], [], []⟩ ⟨[], [], [(0, 1)], [], [((1, 0), 0)]⟩
      (by decide) (by decide) (by decide) (by decide) (by decide)
      (by decide) (by decide) (by decide) (by decide) (by decide)⟩

/-! ## Claim C6: boundary pruning and the `elif` between the two
machine-unavailability dictionaries -/

theorem pqDisable_acc_sub (maxTime : Nat) (till since : List (Nat × Nat)) :
    ∀ (tasks : List TaskD) (acc : List Label3) (x : Label3), x ∈ acc →
      x ∈ pqDisablePhase maxTime till since tasks acc := by
  intro tasks
  induction tasks with
  | nil => intro acc x hx; exact hx
  | cons task rest ih =>
      intro acc x hx
      simp only [pqDisablePhase]
      apply ih
      rcases alookup till task.machine with _ | v
      · rcases alookup since task.machine with _ | v
        · exact hx
        · exact List.mem_append.mpr (Or.inl hx)
      · exact List.mem_append.mpr (Or.inl hx)

theorem pqDisable_mem (maxTime : Nat) (till since : List (Nat × Nat)) :
    ∀ (tasks : List TaskD) (acc : List Label3), ∀ task ∈ tasks, ∀ t : Nat,
      ((alookup till task.machine).isSome →
        t < (alookup till task.machine).getD 0 →
        ((task.job, task.position, (t : Int)) : Label3) ∈
          pqDisablePhase maxTime till since tasks acc) ∧
      (alookup till task.machine = none → (alookup since task.machine).isSome →
        (alookup since task.machine).getD 0 ≤ t → t < maxTime →
        ((task.job, task.position, (t : Int)) : Label3) ∈
          pqDisablePhase maxTime till since tasks acc) := by
  intro tasks
  induction tasks with
  | nil => intro acc task htask; simp at htask
  | cons task0 rest ih =>
      intro acc task htask t
      rcases List.mem_cons.mp htask with heq | hmem
      · subst heq
        constructor
        · intro hsome hlt
          rcases hv : alookup till task.machine with _ | v
          · rw [hv] at hsome; simp at hsome
          · rw [hv] at hlt
            simp only [Option.getD_some] at hlt
            simp only [pqDisablePhase, hv]
            apply pqDisable_acc_sub
            apply List.mem_append.mpr
            exact Or.inr (List.mem_map_of_mem _ (List.mem_range.mpr hlt))
        · intro hnone hsome hge hlt
          rcases hv : alookup since task.machine with _ | v
          · rw [hv] at hsome; simp at hsome
          · rw [hv] at hge
            simp only [Option.getD_some] at hge
            simp only [pqDisablePhase, hnone, hv]
            apply pqDisable_acc_sub
            apply List.mem_append.mpr
            have hmem2 : t ∈ natRange v maxTime := by
              simp only [natRange, List.mem_map, List.mem_range]
              exact ⟨t - v, by omega, by omega⟩
            exact Or.inr (List.mem_map_of_mem _ hmem2)
      · constructor
        · intro hsome hlt
          simp only [pqDisablePhase]
          exact ((ih _ task hmem t).1) hsome hlt
        · intro hnone hsome hge hlt
          simp only [pqDisablePhase]
          exact ((ih _ task hmem t).2) hnone hsome hge hlt

/-- C6 (amended): in pyqubo `_remove_absurd_times`, a variable
`(task, t)` is marked absurd whenever `t` falls in a
`forbidden_assignments` entry for that task, or `t < disable_till[m]`
when the task's machine `m` is in `disable_till`, or `disable_since[m]
<= t < max_time` when `m` is in `disable_since` **and not** in
`disable_till` — the `elif` makes `disable_till` take precedence, so
`disable_since` is ignored for a machine listed in both (the claim's
"both always applied" fails; see the counterexample). -/
theorem claim_C6_pruning (tasks : List TaskD) (till since : List (Nat × Nat))
    (disabled : List Label3) (maxTime : Nat) (A : List Label3)
    (hA : pyquboAbsurdTimes tasks till since disabled maxTime = some A) :
    (∀ lbl ∈ disabled, lbl ∈ A) ∧
      (∀ task ∈ tasks, ∀ t v, alookup till task.machine = some v → t < v →
        ((task.job, task.position, (t : Int)) : Label3) ∈ A) ∧
      (∀ task ∈ tasks, ∀ t v, alookup till task.machine = none →
        alookup since task.machine = some v → v ≤ t → t < maxTime →
        ((task.job, task.position, (t : Int)) : Label3) ∈ A) := by
  match tasks, hA with
  | t0 :: rest, hA =>
    unfold pyquboAbsurdTimes at hA
    rcases hlast : (t0 :: rest).getLast? with _ | tlast
    · simp at hlast
    rw [hlast] at hA
    simp only [Option.some_bind, bind, Option.pure_def, Option.some.injEq] at hA
    constructor
    · intro lbl hlbl
      rw [← hA]
      exact List.mem_append.mpr (Or.inr hlbl)
    constructor
    · intro task htask t v hv hlt
      rw [← hA]
      apply List.mem_append.mpr
      refine Or.inl (((pqDisable_mem maxTime till since _ _ task htask t).1)
        (by simp [hv]) (by simp [hv]; omega))
    · intro task htask t v hnone hv hge hlt
      rw [← hA]
      apply List.mem_append.mpr
      refine Or.inl (((pqDisable_mem maxTime till since _ _ task htask t).2)
        hnone (by simp [hv]) (by simp [hv]; omega) hlt)

theorem claim_C6_pruning_witness :
    (pyquboAbsurdTimes [⟨1, 0, 0, 1⟩] [(0, 1)] [] [(1, 0, 2)] 3 =
        some [(1, 0, 0), (1, 0, 2)]) ∧
      ((∀ lbl ∈ [((1 : JobName), (0 : Nat), (2 : Int))],
          lbl ∈ [((1 : JobName), (0 : Nat), (0 : Int)), (1, 0, 2)]) ∧
        (∀ task ∈ [(⟨1, 0, 0, 1⟩ : TaskD)], ∀ (t v : Nat),
          alookup [(0, 1)] task.machine = some v →
          t < v → ((task.job, task.position, (t : Int)) : Label3) ∈
            [((1 : JobName), (0 : Nat), (0 : Int)), (1, 0, 2)]) ∧
        (∀ task ∈ [(⟨1, 0, 0, 1⟩ : TaskD)], ∀ (t v : Nat),
          alookup [(0, 1)] task.machine = none →
          alookup [] task.machine = some v → v ≤ t → t < 3 →
          ((task.job, task.position, (t : Int)) : Label3) ∈
            [((1 : JobName), (0 : Nat), (0 : Int)), (1, 0, 2)])) :=
  ⟨by decide, claim_C6_pruning [⟨1, 0, 0, 1⟩] [(0, 1)] [] [(1, 0, 2)] 3
    [(1, 0, 0), (1, 0, 2)] (by decide)⟩

/-- C6 counterexample: with machine `0` in both dictionaries
(`disable_till[0] = 1`, `disable_since[0] = 2`, `max_time = 3`) and a
single unit task, the claim requires `(task, 2)` to be pruned because
`2 >= disable_since[0]`, but the `elif` skips the `disable_since`
branch: the absurd set is exactly `{(task, 0)}` and `(task, 2)`
survives. -/
theorem claim_C6_counterexample :
    pyquboAbsurdTimes [⟨1, 0, 0, 1⟩] [(0, 1)] [(0, 2)] [] 3 =
        some [(1, 0, 0)] ∧
      alookup [((0 : Nat), (2 : Nat))] 0 = some 2 ∧
      (2 : Nat) ≥ 2 ∧ (2 : Nat) < 3 ∧
      ((1, 0, (2 : Int)) : Label3) ∉ [((1 : JobName), (0 : Nat), (0 : Int))] := by
  refine ⟨by decide, by decide, by decide, by decide, by decide⟩

/-! ## Claim C8: there is no `EncodingImpossible` failure path -/

theorem lastTaskIndicesAux_bounds :
    ∀ (js : Jobs) (prev : Int), (∀ p ∈ js, p.2 ≠ []) →
      ∀ x ∈ lastTaskIndicesAux prev js,
        prev < x ∧ x < prev + 1 + Int.ofNat ((js.map fun p => p.2.length).sum) := by
  intro js
  induction js with
  | nil => intro prev _ x hx; simp [lastTaskIndicesAux] at hx
  | cons p rest ih =>
      intro prev hops x hx
      have hlen : 1 ≤ p.2.length := by
        have := hops p (List.mem_cons_self _ _)
        cases hl : p.2 with
        | nil => exact absurd hl this
        | cons a t => simp [hl]
      simp only [lastTaskIndicesAux, List.mem_cons] at hx
      rcases hx with hx | hx
      · subst hx
        simp only [List.map_cons, List.sum_cons, Int.ofNat_eq_coe]
        omega
      · have := ih (prev + p.2.length) (fun r hr => hops r (List.mem_cons_of_mem _ hr)) x hx
        simp only [List.map_cons, List.sum_cons, Int.ofNat_eq_coe] at this ⊢
        omega

theorem processTasks_length (js : Jobs) :
    (processTasks js).length = (js.map fun p => p.2.length).sum := by
  induction js with
  | nil => rfl
  | cons p rest ih =>
      simp only [processTasks, List.flatMap_cons, List.length_append, List.length_map,
        List.enum_length, List.map_cons, List.sum_cons] at ih ⊢
      omega

theorem makespanTerms_some (tasks : List TaskD) (absurd : List Label3)
    (maxT : Nat) (base : ℚ) :
    ∀ (idxs : List Int), (∀ i ∈ idxs, 0 ≤ i ∧ i.toNat < tasks.length) →
      ∃ ms, makespanTerms tasks absurd maxT base idxs = some ms := by
  intro idxs
  induction idxs with
  | nil => intro _; exact ⟨[], rfl⟩
  | cons i rest ih =>
      intro hb
      obtain ⟨h0, hlt⟩ := hb i (List.mem_cons_self _ _)
      obtain ⟨ms, hms⟩ := ih (fun j hj => hb j (List.mem_cons_of_mem _ hj))
      have hget : listGetInt tasks i = some (tasks.get ⟨i.toNat, hlt⟩) := by
        simp only [listGetInt, h0, if_true]
        rw [List.get?_eq_getElem?, List.getElem?_eq_getElem hlt]
        rfl
      have hsome : (makespanTerms tasks absurd maxT base (i :: rest)).isSome := by
        simp only [makespanTerms, bind, hget, Option.some_bind, hms, Option.pure_def,
          Option.isSome_some]
      exact Option.isSome_iff_exists.mp hsome

/-- C8 (amended): the pyqubo encoder has no `EncodingImpossible` failure
path.  For every instance whose jobs all have at least one operation,
`get_bqm` returns a model; in particular even when, after pruning, some
operation has zero remaining candidate `(operation, t)` pairs, a model
is still returned and that operation's one-hot constraint degenerates
into the irreducible constant penalty `lagrange_one_hot * (1 - 0)^2`
(term `oneHot [] lagrange`).  Callers waiting for `EncodingImpossible`
to skip infeasible windows never see it. -/
theorem claim_C8_no_encoding_failure (jobs : Jobs) (maxTime : Nat)
    (till since : List (Nat × Nat)) (disabled : List Label3)
    (lagOne lagPrec lagShare : ℚ)
    (hne : jobs ≠ []) (hops : ∀ p ∈ jobs, p.2 ≠ []) :
    ∃ A M, pyquboAbsurdTimes (processTasks jobs) till since disabled maxTime = some A ∧
      get_bqm jobs maxTime till since disabled lagOne lagPrec lagShare = some M ∧
      ∀ task ∈ processTasks jobs,
        (∀ t, t < maxTime → ((task.job, task.position, Int.ofNat t) : Label3) ∈ A) →
        HTerm.oneHot [] lagOne ∈ M := by
  have htasksne : processTasks jobs ≠ [] := by
    intro hcon
    have hlen := congrArg List.length hcon
    rw [processTasks_length] at hlen
    match jobs, hne with
    | p :: rest, _ =>
      have h1 : 1 ≤ p.2.length := by
        have := hops p (List.mem_cons_self _ _)
        cases hl : p.2 with
        | nil => exact absurd hl this
        | cons a t => simp [hl]
      simp only [List.map_cons, List.sum_cons, List.length_nil] at hlen
      omega
  match htasks : processTasks jobs, htasksne with
  | t0 :: trest, _ =>
    have hlast : (t0 :: trest).getLast? = some ((t0 :: trest).getLast (by simp)) := by
      rw [List.getLast?_eq_getLast]
    have hA0 : (pyquboAbsurdTimes (t0 :: trest) till since disabled maxTime).isSome := by
      unfold pyquboAbsurdTimes
      rw [hlast]
      simp [bind]
    obtain ⟨A, hA⟩ := Option.isSome_iff_exists.mp hA0
    have hbounds : ∀ i ∈ lastTaskIndices jobs, 0 ≤ i ∧ i.toNat < (t0 :: trest).length := by
      intro i hi
      have := lastTaskIndicesAux_bounds jobs (-1) hops i hi
      have hplen : ((t0 :: trest).length : Int) =
          Int.ofNat ((jobs.map fun p => p.2.length).sum) := by
        rw [← htasks, processTasks_length]
        rfl
      simp only [Int.ofNat_eq_coe] at this hplen
      constructor
      · omega
      · omega
    obtain ⟨ms, hms⟩ := makespanTerms_some (t0 :: trest) A maxTime
      ((lastTaskIndices jobs).length + 1) (lastTaskIndices jobs) hbounds
    have hM : get_bqm jobs maxTime till since disabled lagOne lagPrec lagShare =
        some (oneStartTerms (t0 :: trest) A maxTime lagOne ++
          precTerms (t0 :: trest) A maxTime lagPrec ++
          shareTerms (t0 :: trest) A maxTime lagShare ++ ms) := by
      simp only [get_bqm, htasks, hA, bind, Option.some_bind]
      rw [hms]
      simp only [Option.some_bind, Option.pure_def]
    refine ⟨A, _, hA, hM, ?_⟩
    intro task htask hall
    have hfm : ((List.range maxTime).filterMap fun t =>
        if ((task.job, task.position, Int.ofNat t) : Label3) ∈ A then none
        else some ((task.job, task.position, Int.ofNat t) : Label3)) = [] := by
      apply List.filterMap_eq_nil_iff.mpr
      intro t ht
      have h := hall t (List.mem_range.mp ht)
      simp only [Int.ofNat_eq_coe] at h
      simp [h]
    apply List.mem_append.mpr
    refine Or.inl (List.mem_append.mpr (Or.inl (List.mem_append.mpr (Or.inl ?_))))
    unfold oneStartTerms
    refine List.mem_map.mpr ⟨task, htask, ?_⟩
    rw [hfm]

theorem claim_C8_no_encoding_failure_witness :
    (([((1 : JobName), [((0 : Nat), (1 : Nat))])] : Jobs) ≠ [] ∧
      (∀ p ∈ ([((1 : JobName), [((0 : Nat), (1 : Nat))])] : Jobs), p.2 ≠ [])) ∧
    (∃ A M, pyquboAbsurdTimes (processTasks [(1, [(0, 1)])]) [(0, 2)] [] [] 2 = some A ∧
      get_bqm [(1, [(0, 1)])] 2 [(0, 2)] [] [] 1 1 1 = some M ∧
      ∀ task ∈ processTasks [(1, [(0, 1)])],
        (∀ t, t < 2 → ((task.job, task.position, Int.ofNat t) : Label3) ∈ A) →
        HTerm.oneHot [] 1 ∈ M) :=
  ⟨⟨by decide, by decide⟩,
    claim_C8_no_encoding_failure [(1, [(0, 1)])] 2 [(0, 2)] [] [] 1 1 1
      (by decide) (by decide)⟩

/-- C8 counterexample to the original claim: with one unit task on
machine `0`, `max_time = 2` and `disable_till = {0: 2}`, pruning leaves
the task with zero candidate pairs — the claim requires the encoder to
fail with `EncodingImpossible` and return no model — yet `get_bqm`
returns the model `[oneHot [] 1]` (the degenerate one-hot constant). -/
theorem claim_C8_counterexample :
    pyquboAbsurdTimes (processTasks [(1, [(0, 1)])]) [(0, 2)] [] [] 2 =
        some [(1, 0, 0), (1, 0, 1)] ∧
      (∀ t, t < 2 → ((1, 0, Int.ofNat t) : Label3) ∈
        [((1 : JobName), (0 : Nat), (0 : Int)), (1, 0, 1)]) ∧
      get_bqm [(1, [(0, 1)])] 2 [(0, 2)] [] [] 1 1 1 =
        some [HTerm.oneHot [] 1] := by
  refine ⟨by decide, by decide, by decide⟩

/-! ## Claim C4: the right-edge crossing rule and dqm boundary pruning -/

theorem intRange_mem (a b t : Int) : t ∈ intRange a b ↔ a ≤ t ∧ t < b := by
  unfold intRange
  simp only [List.mem_map, List.mem_range, Int.ofNat_eq_coe]
  constructor
  · rintro ⟨k, hk, rfl⟩
    omega
  · rintro ⟨h1, h2⟩
    exact ⟨(t - a).toNat, by omega, by omega⟩

theorem intRange_map_shift (a b c : Int) :
    (intRange a b).map (fun x => x - c) = intRange (a - c) (b - c) := by
  unfold intRange
  rw [List.map_map]
  have hn : (b - c - (a - c)).toNat = (b - a).toNat := by omega
  rw [hn]
  refine List.map_congr_left fun k _ => ?_
  simp only [Function.comp_apply, Int.ofNat_eq_coe]
  ring

theorem windowStep_rightcross {jobs : Jobs} {start fin : Nat} {q : JobName × List Nat}
    {i s : Nat} {w w' : WindowInfo} {ops : List Op} {op pred : Op}
    (hops : alookup jobs q.1 = some ops) (hop : ops.get? i = some op)
    (hpred : ops.get? (i - 1) = some pred) (hipos : 0 < i)
    (hcross : start ≤ s ∧ s < fin ∧ fin < s + op.2)
    (h : windowStep jobs start fin q.1 q.2.length i s w = some w') :
    w'.disabled_variables = w.disabled_variables ++
        (intRange ((s : Int) - (start : Int) - (pred.2 : Int) + 1)
          ((fin : Int) - (start : Int))).map (fun t => ((q.1, i - 1), t)) ∧
      w'.disable_since = dsinceUpdate w.disable_since op.1 (s - start) := by
  have he : intRange ((s : Int) - (start : Int) - (pred.2 : Int) + 1)
      ((fin : Int) - (start : Int)) =
      (intRange ((s : Int) - (pred.2 : Int) + 1) (fin : Int)).map
        (fun x => x - (start : Int)) := by
    rw [intRange_map_shift]
    congr 1
    ring
  unfold windowStep at h
  rw [hops] at h
  simp only [bind, Option.some_bind] at h
  rw [hop] at h
  simp only [Option.some_bind] at h
  rw [if_neg (by omega), if_pos (show start ≤ s ∧ s < fin ∧ s + op.2 > fin by omega),
    if_pos hipos] at h
  rw [hpred] at h
  simp only [Option.some_bind, Option.pure_def, Option.some.injEq] at h
  rw [← h]
  refine ⟨?_, rfl⟩
  show w.disabled_variables ++ _ = w.disabled_variables ++ _
  congr 1
  rw [he, List.map_map]
  rfl

theorem listSet_get?_self {β : Type} :
    ∀ (row : List β) (idx : Nat) (v : β) (row2 : List β), listSet row idx v = some row2 →
      row2.get? idx = some v := by
  intro row
  induction row with
  | nil => intro idx v row2 h; simp [listSet] at h
  | cons x rest ih =>
      intro idx v row2 h
      match idx, h with
      | 0, h =>
          simp only [listSet, Option.some.injEq] at h
          subst h
          rfl
      | i + 1, h =>
          simp only [listSet] at h
          rcases hrec : listSet rest i v with _ | rest2
          · rw [hrec] at h; simp at h
          · rw [hrec] at h
            simp only [Option.map_some', Option.some.injEq] at h
            subst h
            simpa using ih i v rest2 hrec

theorem plookup_pdictSet_self {β : Type} :
    ∀ (b : List ((JobName × Nat) × β)) (k : JobName × Nat) (v : β),
      plookup (pdictSet b k v) k = some v := by
  intro b
  induction b with
  | nil => intro k v; simp [pdictSet, plookup]
  | cons p rest ih =>
      intro k v
      obtain ⟨k2, w⟩ := p
      by_cases hk : k2 = k
      · simp [pdictSet, plookup, hk]
      · simp only [pdictSet, if_neg hk, plookup]
        exact ih k v

theorem plookup_pdictSet_other {β : Type} :
    ∀ (b : List ((JobName × Nat) × β)) (k k2 : JobName × Nat) (v : β), k2 ≠ k →
      plookup (pdictSet b k v) k2 = plookup b k2 := by
  intro b
  induction b with
  | nil =>
      intro k k2 v hne
      simp only [pdictSet, plookup]
      rw [if_neg (fun he => hne he.symm)]
  | cons p rest ih =>
      intro k k2 v hne
      obtain ⟨k3, w⟩ := p
      by_cases hk : k3 = k
      · subst hk
        simp only [pdictSet, if_pos rfl, plookup]
        rw [if_neg (fun he => hne he.symm), if_neg (fun he => hne he.symm)]
      · simp only [pdictSet, if_neg hk, plookup]
        by_cases h2 : k3 = k2
        · rw [if_pos h2, if_pos h2]
        · rw [if_neg h2, if_neg h2]
          exact ih k k2 v hne

theorem listSet_add_ge {l : List Nat} {idx old v : Nat} {l2 : List Nat}
    (hold : l.get? idx = some old) (h : listSet l idx (old + v) = some l2) :
    ∀ j x, l.get? j = some x → ∃ y, l2.get? j = some y ∧ x ≤ y := by
  intro j x hx
  by_cases hj : j = idx
  · subst hj
    rw [hold, Option.some.injEq] at hx
    exact ⟨old + v, listSet_get?_self _ _ _ _ h, by omega⟩
  · rw [listSet_get?_ne _ _ _ _ h j hj]
    exact ⟨x, hx, le_refl x⟩

theorem npAdd_get?_ge {l : List Nat} {i : Int} {v : Nat} {l2 : List Nat}
    (h : npAdd l i v = some l2) :
    ∀ j x, l.get? j = some x → ∃ y, l2.get? j = some y ∧ x ≤ y := by
  unfold npAdd at h
  by_cases h1 : 0 ≤ i ∧ i < (l.length : Int)
  · rw [if_pos h1] at h
    simp only [bind] at h
    rcases hold : l.get? i.toNat with _ | old
    · rw [hold] at h; simp at h
    · rw [hold] at h
      simp only [Option.some_bind] at h
      exact listSet_add_ge hold h
  · rw [if_neg h1] at h
    by_cases h2 : -(l.length : Int) ≤ i ∧ i < 0
    · rw [if_pos h2] at h
      simp only [bind] at h
      rcases hold : l.get? (i + (l.length : Int)).toNat with _ | old
      · rw [hold] at h; simp at h
      · rw [hold] at h
        simp only [Option.some_bind] at h
        exact listSet_add_ge hold h
    · rw [if_neg h2] at h
      simp at h

theorem npAdd_hit {l : List Nat} {i : Int} {v : Nat} {l2 : List Nat}
    (h : npAdd l i v = some l2) (hi : 0 ≤ i) :
    ∃ old, l.get? i.toNat = some old ∧ l2.get? i.toNat = some (old + v) := by
  unfold npAdd at h
  by_cases h1 : 0 ≤ i ∧ i < (l.length : Int)
  · rw [if_pos h1] at h
    simp only [bind] at h
    rcases hold : l.get? i.toNat with _ | old
    · rw [hold] at h; simp at h
    · rw [hold] at h
      simp only [Option.some_bind] at h
      exact ⟨old, rfl, listSet_get?_self _ _ _ _ h⟩
  · rw [if_neg h1] at h
    by_cases h2 : -(l.length : Int) ≤ i ∧ i < 0
    · exact absurd h2.2 (by omega)
    · rw [if_neg h2] at h
      simp at h

theorem biasAdd_ge {b : Biases} {lbl : JobName × Nat} {i : Int} {v : Nat} {b2 : Biases}
    (h : biasAdd b lbl i v = some b2) :
    ∀ lbl2 j x, entryAt b lbl2 j = some x → ∃ y, entryAt b2 lbl2 j = some y ∧ x ≤ y := by
  unfold biasAdd at h
  simp only [bind] at h
  rcases harr : plookup b lbl with _ | arr
  · rw [harr] at h; simp at h
  · rw [harr] at h
    simp only [Option.some_bind] at h
    rcases harr2 : npAdd arr i v with _ | arr2
    · rw [harr2] at h; simp at h
    · rw [harr2] at h
      simp only [Option.some_bind, Option.pure_def, Option.some.injEq] at h
      subst h
      intro lbl2 j x hx
      unfold entryAt at hx ⊢
      by_cases hl : lbl2 = lbl
      · subst hl
        rw [harr] at hx
        simp only [Option.some_bind] at hx
        rw [plookup_pdictSet_self]
        simp only [Option.some_bind]
        exact npAdd_get?_ge harr2 j x hx
      · rw [plookup_pdictSet_other _ _ _ _ hl]
        exact ⟨x, hx, le_refl x⟩

theorem biasAdd_hit {b : Biases} {lbl : JobName × Nat} {t : Int} {v : Nat} {b2 : Biases}
    (h : biasAdd b lbl t v = some b2) (ht : 0 ≤ t) :
    ∃ old, entryAt b lbl t.toNat = some old ∧ entryAt b2 lbl t.toNat = some (old + v) := by
  unfold biasAdd at h
  simp only [bind] at h
  rcases harr : plookup b lbl with _ | arr
  · rw [harr] at h; simp at h
  · rw [harr] at h
    simp only [Option.some_bind] at h
    rcases harr2 : npAdd arr t v with _ | arr2
    · rw [harr2] at h; simp at h
    · rw [harr2] at h
      simp only [Option.some_bind, Option.pure_def, Option.some.injEq] at h
      subst h
      obtain ⟨old, hold, hnew⟩ := npAdd_hit harr2 ht
      refine ⟨old, ?_, ?_⟩
      · unfold entryAt
        rw [harr]
        simpa using hold
      · unfold entryAt
        rw [plookup_pdictSet_self]
        simpa using hnew

theorem dqmManualPhase_ge (lagrange : Nat) :
    ∀ (disabled : List ((JobName × Nat) × Int)) (b b2 : Biases),
      dqmManualPhase lagrange disabled b = some b2 →
      ∀ lbl j x, entryAt b lbl j = some x → ∃ y, entryAt b2 lbl j = some y ∧ x ≤ y := by
  intro disabled
  induction disabled with
  | nil =>
      intro b b2 h lbl j x hx
      simp only [dqmManualPhase, List.foldlM_nil, Option.pure_def,
        Option.some.injEq] at h
      exact ⟨x, h ▸ hx, le_refl x⟩
  | cons p rest ih =>
      intro b b2 h lbl j x hx
      unfold dqmManualPhase at h
      rw [List.foldlM_cons] at h
      simp only [bind] at h
      rcases hb1 : biasAdd b p.1 p.2 lagrange with _ | b1
      · rw [hb1] at h; simp at h
      · rw [hb1] at h
        simp only [Option.some_bind] at h
        obtain ⟨y1, hy1, hxy1⟩ := biasAdd_ge hb1 lbl j x hx
        obtain ⟨y, hy, hy2⟩ := ih b1 b2 h lbl j y1 hy1
        exact ⟨y, hy, le_trans hxy1 hy2⟩

theorem dqmManualPhase_hit (lagrange : Nat) :
    ∀ (disabled : List ((JobName × Nat) × Int)) (b b2 : Biases)
      (lbl : JobName × Nat) (t : Int),
      dqmManualPhase lagrange disabled b = some b2 → (lbl, t) ∈ disabled → 0 ≤ t →
      ∃ y, entryAt b2 lbl t.toNat = some y ∧ lagrange ≤ y := by
  intro disabled
  induction disabled with
  | nil => intro b b2 lbl t h hmem; simp at hmem
  | cons p rest ih =>
      intro b b2 lbl t h hmem ht
      unfold dqmManualPhase at h
      rw [List.foldlM_cons] at h
      simp only [bind] at h
      rcases hb1 : biasAdd b p.1 p.2 lagrange with _ | b1
      · rw [hb1] at h; simp at h
      · rw [hb1] at h
        simp only [Option.some_bind] at h
        rcases List.mem_cons.mp hmem with hp | hrest
        · cases hp.symm
          obtain ⟨old, _, hent⟩ := biasAdd_hit hb1 ht
          obtain ⟨y, hy, hxy⟩ :=
            dqmManualPhase_ge lagrange rest b1 b2 h lbl t.toNat (old + lagrange) hent
          exact ⟨y, hy, by omega⟩
        · exact ih b1 b2 lbl t h hrest ht

/-- C4 (amended): for an operation crossing the right edge of the window
(`start <= op_start < end < op_end`) with a predecessor (`i > 0`), the
extractor (1) appends forbidden pairs for label `(job, i-1)` at exactly
the local times `[op_start - start - predecessor_duration + 1, end - start)`
and (2) sets `disable_since[machine]` to
`min(previous value, op_start - start)`; (3) every local time in that
interval is among the emitted pairs, and (4) whenever the dqm encoder's
`_remove_absurd_times` succeeds on these pairs, every emitted pair with a
nonnegative local time `t` receives a penalty of at least
`lagrange_absurd` on the predecessor's variable at `t`.  The original
claim's stronger conclusion — that no predecessor variable with
`t + predecessor_duration > op_start - start` survives over the full
variable domain `[0, max_time)` with `max_time = window_length + 1` — is
refuted by `claim_C4_counterexample`: the domain point
`t = window_length` is never covered by the emitted pairs. -/
theorem claim_C4_rightcross (jobs : Jobs) (start fin : Nat)
    (q : JobName × List Nat) (i s : Nat) (ops : List Op) (op pred : Op)
    (w w' : WindowInfo)
    (hops : alookup jobs q.1 = some ops) (hop : ops.get? i = some op)
    (hpred : ops.get? (i - 1) = some pred) (hipos : 0 < i)
    (hcross : start ≤ s ∧ s < fin ∧ fin < s + op.2)
    (hstep : windowStep jobs start fin q.1 q.2.length i s w = some w') :
    w'.disabled_variables = w.disabled_variables ++
        (intRange ((s : Int) - (start : Int) - (pred.2 : Int) + 1)
          ((fin : Int) - (start : Int))).map (fun t => ((q.1, i - 1), t)) ∧
      w'.disable_since = dsinceUpdate w.disable_since op.1 (s - start) ∧
      (∀ t : Int, (s : Int) - (start : Int) - (pred.2 : Int) < t →
        t < (fin : Int) - (start : Int) → ((q.1, i - 1), t) ∈ w'.disabled_variables) ∧
      (∀ (tasks : List TaskD) (till since : List (Nat × Nat)) (maxTime lagrange : Nat)
        (B : Biases) (t : Int),
        dqmRemoveAbsurdTimes tasks till since w'.disabled_variables maxTime lagrange =
          some B →
        ((q.1, i - 1), t) ∈ w'.disabled_variables → 0 ≤ t →
        ∃ y, entryAt B (q.1, i - 1) t.toNat = some y ∧ lagrange ≤ y) := by
  obtain ⟨h1, h2⟩ := windowStep_rightcross hops hop hpred hipos hcross hstep
  refine ⟨h1, h2, ?_, ?_⟩
  · intro t ht1 ht2
    rw [h1]
    apply List.mem_append.mpr
    right
    exact List.mem_map_of_mem _ ((intRange_mem _ _ _).mpr ⟨by omega, ht2⟩)
  · intro tasks till since maxTime lagrange B t hB hmem ht
    rcases tasks with _ | ⟨t0, trest⟩
    · simp [dqmRemoveAbsurdTimes] at hB
    · simp only [dqmRemoveAbsurdTimes, bind] at hB
      rcases hb1 : dqmEarlyPhase lagrange (t0 :: trest) 0 t0.job
          (initLinBiases (t0 :: trest) maxTime) with _ | b1
      · rw [hb1] at hB; simp at hB
      · rw [hb1] at hB
        simp only [Option.some_bind] at hB
        rcases hlast : (t0 :: trest).getLast? with _ | tl
        · rw [hlast] at hB; simp at hB
        · rw [hlast] at hB
          simp only [Option.some_bind] at hB
          rcases hb2 : dqmLatePhase lagrange maxTime (t0 :: trest).reverse (-1) tl.job b1
              with _ | b2
          · rw [hb2] at hB; simp at hB
          · rw [hb2] at hB
            simp only [Option.some_bind] at hB
            rcases hb3 : dqmDisablePhase lagrange maxTime till since (t0 :: trest) b2
                with _ | b3
            · rw [hb3] at hB; simp at hB
            · rw [hb3] at hB
              simp only [Option.some_bind] at hB
              exact dqmManualPhase_hit lagrange w'.disabled_variables b3 B _ t hB hmem ht

theorem claim_C4_rightcross_witness :
    (alookup [((1 : JobName), [((0 : Nat), (1 : Nat)), (1, 1), (2, 3)])] 1 =
        some [(0, 1), (1, 1), (2, 3)] ∧
      ([((0 : Nat), (1 : Nat)), (1, 1), (2, 3)] : List Op).get? 2 = some (2, 3) ∧
      ([((0 : Nat), (1 : Nat)), (1, 1), (2, 3)] : List Op).get? (2 - 1) = some (1, 1) ∧
      0 < 2 ∧
      ((3 : Nat) ≤ 5 ∧ 5 < 7 ∧ 7 < 5 + 3) ∧
      windowStep [(1, [(0, 1), (1, 1), (2, 3)])] 3 7 1 3 2 5
        ⟨[(1, [(0, 1), (1, 1)])], [(1, [0, 1])], [], [], []⟩ =
        some ⟨[(1, [(0, 1), (1, 1)])], [(1, [0, 1])], [], [(2, 2)],
          [((1, 1), 2), ((1, 1), 3)]⟩) ∧
    (WindowInfo.disabled_variables
          ⟨[(1, [(0, 1), (1, 1)])], [(1, [0, 1])], [], [(2, 2)],
            [((1, 1), 2), ((1, 1), 3)]⟩ =
        WindowInfo.disabled_variables
          ⟨[(1, [(0, 1), (1, 1)])], [(1, [0, 1])], [], [], []⟩ ++
        (intRange (((5 : Nat) : Int) - ((3 : Nat) : Int) - ((1 : Nat) : Int) + 1)
          (((7 : Nat) : Int) - ((3 : Nat) : Int))).map
          (fun t => (((1 : JobName), 2 - 1), t)) ∧
      WindowInfo.disable_since
          ⟨[(1, [(0, 1), (1, 1)])], [(1, [0, 1])], [], [(2, 2)],
            [((1, 1), 2), ((1, 1), 3)]⟩ =
        dsinceUpdate (WindowInfo.disable_since
          ⟨[(1, [(0, 1), (1, 1)])], [(1, [0, 1])], [], [], []⟩) 2 (5 - 3) ∧
      (∀ t : Int, ((5 : Nat) : Int) - ((3 : Nat) : Int) - ((1 : Nat) : Int) < t →
        t < ((7 : Nat) : Int) - ((3 : Nat) : Int) →
        (((1 : JobName), 2 - 1), t) ∈ WindowInfo.disabled_variables
          ⟨[(1, [(0, 1), (1, 1)])], [(1, [0, 1])], [], [(2, 2)],
            [((1, 1), 2), ((1, 1), 3)]⟩) ∧
      (∀ (tasks : List TaskD) (till since : List (Nat × Nat)) (maxTime lagrange : Nat)
        (B : Biases) (t : Int),
        dqmRemoveAbsurdTimes tasks till since
            (WindowInfo.disabled_variables
              ⟨[(1, [(0, 1), (1, 1)])], [(1, [0, 1])], [], [(2, 2)],
                [((1, 1), 2), ((1, 1), 3)]⟩) maxTime lagrange = some B →
        (((1 : JobName), 2 - 1), t) ∈ WindowInfo.disabled_variables
          ⟨[(1, [(0, 1), (1, 1)])], [(1, [0, 1])], [], [(2, 2)],
            [((1, 1), 2), ((1, 1), 3)]⟩ → 0 ≤ t →
        ∃ y, entryAt B ((1 : JobName), 2 - 1) t.toNat = some y ∧ lagrange ≤ y)) :=
  ⟨⟨by decide, by decide, by decide, by decide, by decide, by decide⟩,
    claim_C4_rightcross [(1, [(0, 1), (1, 1), (2, 3)])] 3 7 (1, [3, 4, 5]) 2 5
      [(0, 1), (1, 1), (2, 3)] (2, 3) (1, 1)
      ⟨[(1, [(0, 1), (1, 1)])], [(1, [0, 1])], [], [], []⟩
      ⟨[(1, [(0, 1), (1, 1)])], [(1, [0, 1])], [], [(2, 2)], [((1, 1), 2), ((1, 1), 3)]⟩
      (by decide) (by decide) (by decide) (by decide) (by decide) (by decide)⟩

/-- C4 counterexample to the original claim: on the instance with one job
`1 -> [(0,1), (1,1), (2,3)]` scheduled at `[3, 4, 5]`, the window `[3, 7)`
classifies the third operation as right-crossing (`op_start = 5`), and the
extractor forbids predecessor local times `2` and `3` only.  Encoding the
extracted window with `max_time = 5` (the spec's variable domain
`[0, window_length]` inclusive, `window_length = 4`), the predecessor
variable at local time `t = 4` satisfies `t + duration = 5 > op_start -
start = 2`, is not among the forbidden pairs, and keeps a zero linear
bias in the dqm model — it survives pruning, refuting the claim. -/
theorem claim_C4_counterexample :
    find_time_window [((1 : JobName), [(0, 1), (1, 1), (2, 3)])] [(1, [3, 4, 5])] 3 7 =
        some ⟨[(1, [(0, 1), (1, 1)])], [(1, [0, 1])], [], [(2, 2)],
          [((1, 1), 2), ((1, 1), 3)]⟩ ∧
      dqmRemoveAbsurdTimes (processTasks [(1, [(0, 1), (1, 1)])]) [] [(2, 2)]
          [((1, 1), 2), ((1, 1), 3)] 5 2 =
        some [((1, 0), [0, 0, 0, 0, 2]), ((1, 1), [2, 0, 2, 2, 0])] ∧
      ((4 : Int) + 1 > 5 - 3 ∧
        (((1 : JobName), (1 : Nat)), (4 : Int)) ∉
          ([(((1 : JobName), (1 : Nat)), (2 : Int)), ((1, 1), 3)] :
            List ((JobName × Nat) × Int)) ∧
        entryAt [((1, 0), [0, 0, 0, 0, 2]), ((1, 1), [2, 0, 2, 2, 0])] (1, 1) 4 =
          some 0) := by
  decide

/-! ## Claim C9: the makespan-minimization bias -/

theorem lastTaskIndicesAux_length :
    ∀ (jobs : Jobs) (prev : Int), (lastTaskIndicesAux prev jobs).length = jobs.length := by
  intro jobs
  induction jobs with
  | nil => intro prev; rfl
  | cons p rest ih => intro prev; simp [lastTaskIndicesAux, ih]

theorem lastTaskIndices_length (jobs : Jobs) :
    (lastTaskIndices jobs).length = jobs.length :=
  lastTaskIndicesAux_length jobs (-1)

theorem lastTaskIndicesAux_get :
    ∀ (jobs : Jobs) (pre : List TaskD) (k : Nat) (p : JobName × List Op),
      (∀ q ∈ jobs, q.2 ≠ []) → jobs.get? k = some p →
      ∃ i op, (lastTaskIndicesAux ((pre.length : Int) - 1) jobs).get? k = some i ∧
        p.2.get? (p.2.length - 1) = some op ∧
        listGetInt (pre ++ processTasks jobs) i =
          some ⟨p.1, p.2.length - 1, op.1, op.2⟩ := by
  intro jobs
  induction jobs with
  | nil => intro pre k p _ hk; simp at hk
  | cons q rest ih =>
      intro pre k p hops hk
      have hqlen : 1 ≤ q.2.length := by
        have hqne := hops q (List.mem_cons_self _ _)
        cases hq : q.2 with
        | nil => exact absurd hq hqne
        | cons a t => simp [hq]
      have hrowlen : (q.2.enum.map fun ip =>
          (⟨q.1, ip.1, ip.2.1, ip.2.2⟩ : TaskD)).length = q.2.length := by
        simp
      match k, hk with
      | 0, hk =>
          rw [List.get?_cons_zero, Option.some.injEq] at hk
          subst hk
          obtain ⟨op, hop⟩ : ∃ op, q.2.get? (q.2.length - 1) = some op := by
            rw [List.get?_eq_getElem?]
            exact ⟨_, List.getElem?_eq_getElem (by omega)⟩
          refine ⟨(pre.length : Int) - 1 + q.2.length, op, rfl, hop, ?_⟩
          unfold listGetInt
          rw [if_pos (by omega)]
          have hidx : ((pre.length : Int) - 1 + q.2.length).toNat =
              pre.length + (q.2.length - 1) := by omega
          rw [hidx]
          have hpt : processTasks (q :: rest) =
              (q.2.enum.map fun ip => (⟨q.1, ip.1, ip.2.1, ip.2.2⟩ : TaskD)) ++
                processTasks rest := by
            simp [processTasks]
          rw [hpt, ← List.append_assoc]
          rw [List.get?_append (by rw [List.length_append, hrowlen]; omega)]
          rw [List.get?_append_right (by omega)]
          have hsub : pre.length + (q.2.length - 1) - pre.length = q.2.length - 1 := by
            omega
          rw [hsub, List.get?_map, List.get?_eq_getElem?, List.getElem?_enum,
            ← List.get?_eq_getElem?, hop]
          rfl
      | k + 1, hk =>
          rw [List.get?_cons_succ] at hk
          obtain ⟨i, op, hget, hop, hli⟩ :=
            ih (pre ++ (q.2.enum.map fun ip => (⟨q.1, ip.1, ip.2.1, ip.2.2⟩ : TaskD)))
              k p (fun r hr => hops r (List.mem_cons_of_mem _ hr)) hk
          refine ⟨i, op, ?_, hop, ?_⟩
          · show (lastTaskIndicesAux ((pre.length : Int) - 1 + q.2.length) rest).get? k =
              some i
            have harg : (((pre ++ (q.2.enum.map fun ip =>
                (⟨q.1, ip.1, ip.2.1, ip.2.2⟩ : TaskD))).length : Int) - 1) =
                (pre.length : Int) - 1 + q.2.length := by
              rw [List.length_append, hrowlen]
              push_cast
              ring
            rw [← harg]
            exact hget
          · have hassoc : (pre ++ (q.2.enum.map fun ip =>
                (⟨q.1, ip.1, ip.2.1, ip.2.2⟩ : TaskD))) ++ processTasks rest =
                pre ++ processTasks (q :: rest) := by
              rw [List.append_assoc]
              congr 1
            rw [← hassoc]
            exact hli

theorem makespanTerms_mem (tasks : List TaskD) (absurd : List Label3) (maxTime : Nat)
    (base : ℚ) :
    ∀ (idxs : List Int) (ms : List HTerm),
      makespanTerms tasks absurd maxTime base idxs = some ms →
      ∀ h, h ∈ ms ↔ ∃ i ∈ idxs, ∃ task, listGetInt tasks i = some task ∧
        h ∈ ((List.range maxTime).filterMap fun t =>
          if t + task.duration > maxTime then none
          else if ((task.job, task.position, Int.ofNat t) : Label3) ∈ absurd then none
          else some (HTerm.lin (task.job, task.position, Int.ofNat t)
            (2 * base ^ (Int.ofNat t + (task.duration : Int) - (maxTime : Int))))) := by
  intro idxs
  induction idxs with
  | nil =>
      intro ms hms h
      simp only [makespanTerms, Option.some.injEq] at hms
      subst hms
      simp
  | cons i rest ih =>
      intro ms hms h
      simp only [makespanTerms, bind] at hms
      rcases htask : listGetInt tasks i with _ | task
      · rw [htask] at hms; simp at hms
      · rw [htask] at hms
        simp only [Option.some_bind] at hms
        rcases hmore : makespanTerms tasks absurd maxTime base rest with _ | more
        · rw [hmore] at hms; simp at hms
        · rw [hmore] at hms
          simp only [Option.some_bind, Option.pure_def, Option.some.injEq] at hms
          subst hms
          constructor
          · intro hmem
            rcases List.mem_append.mp hmem with hl | hr
            · exact ⟨i, List.mem_cons_self _ _, task, htask, hl⟩
            · obtain ⟨i2, hi2, task2, ht2, hmem2⟩ := (ih more hmore h).mp hr
              exact ⟨i2, List.mem_cons_of_mem _ hi2, task2, ht2, hmem2⟩
          · rintro ⟨i2, hi2, task2, ht2, hmem2⟩
            rcases List.mem_cons.mp hi2 with hi2 | hi2
            · subst hi2
              rw [htask, Option.some.injEq] at ht2
              subst ht2
              exact List.mem_append.mpr (Or.inl hmem2)
            · exact List.mem_append.mpr
                (Or.inr ((ih more hmore h).mpr ⟨i2, hi2, task2, ht2, hmem2⟩))

/-- C9: with `base = len(last_task_indices) + 1` as set by `get_bqm`,
(1) the base equals the number of jobs plus one; (2) a linear makespan
term is in the model exactly when it sits on some job's final operation
(position `len - 1`) at a non-pruned start time `t` with
`t + duration <= max_time`, and its coefficient is exactly
`2 * base ^ (t + duration - max_time)`; in particular no bias lands on a
non-final operation or on a start time with `t + duration > max_time`;
(3) the bias is strictly increasing in the operation's end time.  The
exponential is modelled exactly over `ℚ` (the code computes it in Python
floats). -/
theorem claim_C9_makespan_bias (jobs : Jobs) (maxTime : Nat) (absurd : List Label3)
    (base : ℚ) (ms : List HTerm)
    (hne : jobs ≠ []) (hops : ∀ p ∈ jobs, p.2 ≠ [])
    (hbase : base = ((lastTaskIndices jobs).length : ℚ) + 1)
    (hms : makespanTerms (processTasks jobs) absurd maxTime base
      (lastTaskIndices jobs) = some ms) :
    base = (jobs.length : ℚ) + 1 ∧
      (∀ h, h ∈ ms ↔ ∃ k p op t, jobs.get? k = some p ∧
        p.2.get? (p.2.length - 1) = some op ∧ t < maxTime ∧ t + op.2 ≤ maxTime ∧
        ((p.1, p.2.length - 1, Int.ofNat t) : Label3) ∉ absurd ∧
        h = HTerm.lin (p.1, p.2.length - 1, Int.ofNat t)
          (2 * base ^ (Int.ofNat t + (op.2 : Int) - (maxTime : Int)))) ∧
      (∀ e1 e2 : Int, e1 < e2 →
        2 * base ^ (e1 - (maxTime : Int)) < 2 * base ^ (e2 - (maxTime : Int))) := by
  have hlen := lastTaskIndices_length jobs
  have hbase2 : base = (jobs.length : ℚ) + 1 := by rw [hbase, hlen]
  refine ⟨hbase2, ?_, ?_⟩
  · intro h
    rw [makespanTerms_mem _ _ _ _ _ _ hms h]
    constructor
    · rintro ⟨i, hi, task, htask, hmem⟩
      unfold lastTaskIndices at hi
      obtain ⟨k, hk⟩ := List.mem_iff_get?.mp hi
      have hklt : k < jobs.length := by
        have h1 := get?_some_lt hk
        have h2 := lastTaskIndicesAux_length jobs (-1)
        omega
      obtain ⟨p, hp⟩ : ∃ p, jobs.get? k = some p := by
        rw [List.get?_eq_getElem?]
        exact ⟨_, List.getElem?_eq_getElem hklt⟩
      obtain ⟨i2, op, hget, hop, hli⟩ := lastTaskIndicesAux_get jobs [] k p hops hp
      have hpre : ((([] : List TaskD).length : Int) - 1) = -1 := by simp
      rw [hpre] at hget
      rw [List.nil_append] at hli
      rw [hget, Option.some.injEq] at hk
      subst hk
      rw [htask, Option.some.injEq] at hli
      subst hli
      obtain ⟨t, htr, hft⟩ := List.mem_filterMap.mp hmem
      by_cases h1 : t + op.2 > maxTime
      · rw [if_pos h1] at hft
        simp at hft
      · rw [if_neg h1] at hft
        by_cases h2 : ((p.1, p.2.length - 1, Int.ofNat t) : Label3) ∈ absurd
        · rw [if_pos h2] at hft
          simp at hft
        · rw [if_neg h2] at hft
          rw [Option.some.injEq] at hft
          exact ⟨k, p, op, t, hp, hop, List.mem_range.mp htr, by omega, h2, hft.symm⟩
    · rintro ⟨k, p, op, t, hp, hop, ht1, ht2, ht3, rfl⟩
      obtain ⟨i2, op2, hget, hop2, hli⟩ := lastTaskIndicesAux_get jobs [] k p hops hp
      have hpre : ((([] : List TaskD).length : Int) - 1) = -1 := by simp
      rw [hpre] at hget
      rw [hop, Option.some.injEq] at hop2
      subst hop2
      rw [List.nil_append] at hli
      refine ⟨i2, ?_, ⟨p.1, p.2.length - 1, op.1, op.2⟩, hli, ?_⟩
      · unfold lastTaskIndices
        exact List.get?_mem hget
      · apply List.mem_filterMap.mpr
        refine ⟨t, List.mem_range.mpr ht1, ?_⟩
        show (if t + op.2 > maxTime then none
          else if ((p.1, p.2.length - 1, Int.ofNat t) : Label3) ∈ absurd then none
          else some (HTerm.lin (p.1, p.2.length - 1, Int.ofNat t)
            (2 * base ^ (Int.ofNat t + (op.2 : Int) - (maxTime : Int))))) = _
        rw [if_neg (by omega), if_neg ht3]
  · intro e1 e2 hlt
    have hjl : 1 ≤ jobs.length := by
      cases jobs with
      | nil => exact (hne rfl).elim
      | cons a l => simp
    have h1 : (1 : ℚ) < base := by
      rw [hbase2]
      have hcast : (1 : ℚ) ≤ (jobs.length : ℚ) := by exact_mod_cast hjl
      linarith
    have h2 := zpow_lt_zpow_right₀ h1
      (show e1 - (maxTime : Int) < e2 - (maxTime : Int) by omega)
    linarith

theorem claim_C9_makespan_bias_witness :
    (([((1 : JobName), [((0 : Nat), (1 : Nat))])] : Jobs) ≠ [] ∧
      (∀ p ∈ ([((1 : JobName), [((0 : Nat), (1 : Nat))])] : Jobs), p.2 ≠ []) ∧
      ((((lastTaskIndices [((1 : JobName), [((0 : Nat), (1 : Nat))])]).length : ℚ) + 1) =
        ((lastTaskIndices [((1 : JobName), [((0 : Nat), (1 : Nat))])]).length : ℚ) + 1) ∧
      makespanTerms (processTasks [((1 : JobName), [((0 : Nat), (1 : Nat))])]) [] 1
        (((lastTaskIndices [((1 : JobName), [((0 : Nat), (1 : Nat))])]).length : ℚ) + 1)
        (lastTaskIndices [((1 : JobName), [((0 : Nat), (1 : Nat))])]) =
        some [HTerm.lin (1, 0, Int.ofNat 0)
          (2 * (((lastTaskIndices [((1 : JobName),
            [((0 : Nat), (1 : Nat))])]).length : ℚ) + 1) ^
            (Int.ofNat 0 + ((1 : Nat) : Int) - ((1 : Nat) : Int)))]) ∧
    ((((lastTaskIndices [((1 : JobName), [((0 : Nat), (1 : Nat))])]).length : ℚ) + 1) =
        (([((1 : JobName), [((0 : Nat), (1 : Nat))])] : Jobs).length : ℚ) + 1 ∧
      (∀ h, h ∈ [HTerm.lin (1, 0, Int.ofNat 0)
          (2 * (((lastTaskIndices [((1 : JobName),
            [((0 : Nat), (1 : Nat))])]).length : ℚ) + 1) ^
            (Int.ofNat 0 + ((1 : Nat) : Int) - ((1 : Nat) : Int)))] ↔
        ∃ k p op t, ([((1 : JobName), [((0 : Nat), (1 : Nat))])] : Jobs).get? k = some p ∧
          p.2.get? (p.2.length - 1) = some op ∧ t < 1 ∧ t + op.2 ≤ 1 ∧
          ((p.1, p.2.length - 1, Int.ofNat t) : Label3) ∉ ([] : List Label3) ∧
          h = HTerm.lin (p.1, p.2.length - 1, Int.ofNat t)
            (2 * (((lastTaskIndices [((1 : JobName),
              [((0 : Nat), (1 : Nat))])]).length : ℚ) + 1) ^
              (Int.ofNat t + (op.2 : Int) - ((1 : Nat) : Int)))) ∧
      (∀ e1 e2 : Int, e1 < e2 →
        2 * (((lastTaskIndices [((1 : JobName),
            [((0 : Nat), (1 : Nat))])]).length : ℚ) + 1) ^ (e1 - ((1 : Nat) : Int)) <
          2 * (((lastTaskIndices [((1 : JobName),
            [((0 : Nat), (1 : Nat))])]).length : ℚ) + 1) ^ (e2 - ((1 : Nat) : Int)))) :=
  ⟨⟨by decide, by decide, rfl, rfl⟩,
    claim_C9_makespan_bias [((1 : JobName), [((0 : Nat), (1 : Nat))])] 1 []
      (((lastTaskIndices [((1 : JobName), [((0 : Nat), (1 : Nat))])]).length : ℚ) + 1)
      [HTerm.lin (1, 0, Int.ofNat 0)
        (2 * (((lastTaskIndices [((1 : JobName),
          [((0 : Nat), (1 : Nat))])]).length : ℚ) + 1) ^
          (Int.ofNat 0 + ((1 : Nat) : Int) - ((1 : Nat) : Int)))]
      (by decide) (by decide) rfl rfl⟩

/-! ## Claim C10: `solve_with_order` produces valid schedules -/

theorem alookupD_eq_of_alookup {β : Type} {l : List (Nat × β)} {j : Nat} {v : β} (d : β)
    (h : alookup l j = some v) : alookupD l j d = v := by
  simp [alookupD, h]

theorem alookupD_dictSet_self (d : List (Nat × Nat)) (k v : Nat) :
    alookupD (dictSet d k v) k 0 = v :=
  alookupD_eq_of_alookup 0 (dictSet_lookup_self d k v)

theorem alookupD_dictSet_other (d : List (Nat × Nat)) (k v m : Nat) (hm : k ≠ m) :
    alookupD (dictSet d k v) m 0 = alookupD d m 0 := by
  simp [alookupD, dictSet_lookup_other d k v m hm]

theorem alookupD_dictSet_mono (d : List (Nat × Nat)) (k v : Nat)
    (hv : alookupD d k 0 ≤ v) : ∀ m, alookupD d m 0 ≤ alookupD (dictSet d k v) m 0 := by
  intro m
  by_cases hm : k = m
  · subst hm
    rw [alookupD_dictSet_self]
    exact hv
  · rw [alookupD_dictSet_other d k v m hm]

theorem concat_get?_cases {β : Type} {row : List β} {a : β} {i : Nat} {s : β}
    (h : (row ++ [a]).get? i = some s) :
    row.get? i = some s ∨ (i = row.length ∧ s = a) := by
  have hlt := get?_some_lt h
  rw [List.length_append, List.length_singleton] at hlt
  by_cases hi : i < row.length
  · left
    rw [List.get?_append hi] at h
    exact h
  · right
    have hieq : i = row.length := by omega
    subst hieq
    rw [List.get?_concat_length] at h
    rw [Option.some.injEq] at h
    exact ⟨rfl, h.symm⟩

theorem job_of_key {jobs : Jobs} (hnd : (jobs.map Prod.fst).Nodup) {key : JobName}
    {ops : List Op} (hops : alookup jobs key = some ops) :
    ∀ p ∈ jobs, p.1 = key → p = (key, ops) := by
  intro p hp hpk
  have h1 : alookup jobs p.1 = some p.2 := mem_alookup hnd hp
  rw [hpk, hops, Option.some.injEq] at h1
  exact Prod.ext hpk h1.symm

theorem order_step (jobs : Jobs) (hnd : (jobs.map Prod.fst).Nodup)
    (key : JobName) (ops : List Op) (op : Op) (lj lm : List (Nat × Nat)) (sol : Sol)
    (hops : alookup jobs key = some ops)
    (hop : ops.get? (alookupD sol key []).length = some op)
    (hinv : OrderInv jobs lj lm sol) :
    OrderInv jobs
      (dictSet lj key (max (alookupD lj key 0) (alookupD lm op.1 0) + op.2))
      (dictSet lm op.1 (max (alookupD lj key 0) (alookupD lm op.1 0) + op.2))
      (dictAppend sol key (max (alookupD lj key 0) (alookupD lm op.1 0))) := by
  obtain ⟨hsnd, hsub, hrows, hprec, hexcl⟩ := hinv
  have hpmem : (key, ops) ∈ jobs := alookup_mem hops
  have hkmem : key ∈ jobs.map Prod.fst := List.mem_map_of_mem _ hpmem
  have hc : (alookupD sol key []).length < ops.length := get?_some_lt hop
  have hljbound : alookupD lj key 0 ≤
      max (alookupD lj key 0) (alookupD lm op.1 0) + op.2 :=
    le_trans (le_max_left _ _) (Nat.le_add_right _ _)
  have hlmbound : alookupD lm op.1 0 ≤
      max (alookupD lj key 0) (alookupD lm op.1 0) + op.2 :=
    le_trans (le_max_right _ _) (Nat.le_add_right _ _)
  have hljmono := alookupD_dictSet_mono lj key _ hljbound
  have hlmmono := alookupD_dictSet_mono lm op.1 _ hlmbound
  refine ⟨dictAppend_nodup _ _ _ hsnd, ?_, ?_, ?_, ?_⟩
  · intro q hq
    have hqk := List.mem_map_of_mem Prod.fst hq
    rw [dictAppend_keys] at hqk
    by_cases hmem2 : key ∈ sol.map Prod.fst
    · rw [if_pos hmem2] at hqk
      obtain ⟨q', hq', hq'eq⟩ := List.mem_map.mp hqk
      rw [← hq'eq]
      exact hsub q' hq'
    · rw [if_neg hmem2] at hqk
      rcases List.mem_append.mp hqk with hh | hh
      · obtain ⟨q', hq', hq'eq⟩ := List.mem_map.mp hh
        rw [← hq'eq]
        exact hsub q' hq'
      · rw [List.mem_singleton] at hh
        rw [hh]
        exact hkmem
  · intro p hp
    by_cases hpk : p.1 = key
    · have hpe := job_of_key hnd hops p hp hpk
      subst hpe
      dsimp only
      rw [dictAppend_lookup_self]
      constructor
      · rw [List.length_append, List.length_singleton]
        omega
      · intro i op' s hopi hsi
        rcases concat_get?_cases hsi with hold | ⟨hieq, hseq⟩
        · have hro := (hrows (key, ops) hpmem).2
          dsimp only at hro
          exact ⟨le_trans (hro i op' s hopi hold).1 (hljmono key),
            le_trans (hro i op' s hopi hold).2 (hlmmono op'.1)⟩
        · subst hieq
          subst hseq
          rw [hop, Option.some.injEq] at hopi
          subst hopi
          rw [alookupD_dictSet_self, alookupD_dictSet_self]
          exact ⟨le_refl _, le_refl _⟩
    · refine ⟨?_, ?_⟩
      · rw [dictAppend_lookup_other _ _ _ _ hpk]
        exact (hrows p hp).1
      · intro i op' s hopi hsi
        rw [dictAppend_lookup_other _ _ _ _ hpk] at hsi
        exact ⟨le_trans ((hrows p hp).2 i op' s hopi hsi).1 (hljmono p.1),
          le_trans ((hrows p hp).2 i op' s hopi hsi).2 (hlmmono op'.1)⟩
  · intro p hp i op' s1 s2 hopi hs1 hs2
    by_cases hpk : p.1 = key
    · have hpe := job_of_key hnd hops p hp hpk
      subst hpe
      dsimp only at hopi hs1 hs2
      rw [dictAppend_lookup_self] at hs1 hs2
      rcases concat_get?_cases hs2 with hold2 | ⟨hieq2, hseq2⟩
      · have hi1 : i < (alookupD sol key []).length := by
          have := get?_some_lt hold2
          omega
        rcases concat_get?_cases hs1 with hold1 | ⟨hieq1, _⟩
        · have hpr := hprec (key, ops) hpmem
          dsimp only at hpr
          exact hpr i op' s1 s2 hopi hold1 hold2
        · omega
      · subst hseq2
        rcases concat_get?_cases hs1 with hold1 | ⟨hieq1, _⟩
        · have hro := (hrows (key, ops) hpmem).2
          dsimp only at hro
          exact le_trans (hro i op' s1 hopi hold1).1 (le_max_left _ _)
        · omega
    · rw [dictAppend_lookup_other _ _ _ _ hpk] at hs1 hs2
      exact hprec p hp i op' s1 s2 hopi hs1 hs2
  · intro p1 hp1 p2 hp2 i1 i2 op1 op2 s1 s2 hop1 hop2 hs1 hs2 hne hm
    have hchar : ∀ p ∈ jobs, ∀ i s,
        (alookupD (dictAppend sol key
          (max (alookupD lj key 0) (alookupD lm op.1 0))) p.1 []).get? i = some s →
        (alookupD sol p.1 []).get? i = some s ∨
          (p.1 = key ∧ i = (alookupD sol key []).length ∧
            s = max (alookupD lj key 0) (alookupD lm op.1 0)) := by
      intro p hp i s hsi
      by_cases hpk : p.1 = key
      · rw [hpk, dictAppend_lookup_self] at hsi
        rcases concat_get?_cases hsi with hold | ⟨h1, h2⟩
        · left
          rw [hpk]
          exact hold
        · right
          exact ⟨hpk, h1, h2⟩
      · rw [dictAppend_lookup_other _ _ _ _ hpk] at hsi
        left
        exact hsi
    have hend : ∀ p ∈ jobs, ∀ i opx sx, p.2.get? i = some opx →
        (alookupD sol p.1 []).get? i = some sx → opx.1 = op.1 →
        sx + opx.2 ≤ max (alookupD lj key 0) (alookupD lm op.1 0) := by
      intro p hp i opx sx hox hsx hmx
      have hb := ((hrows p hp).2 i opx sx hox hsx).2
      rw [hmx] at hb
      exact le_trans hb (le_max_right _ _)
    rcases hchar p1 hp1 i1 s1 hs1 with h1 | ⟨hk1, hi1, hS1⟩
    · rcases hchar p2 hp2 i2 s2 hs2 with h2 | ⟨hk2, hi2, hS2⟩
      · exact hexcl p1 hp1 p2 hp2 i1 i2 op1 op2 s1 s2 hop1 hop2 h1 h2 hne hm
      · have hpe2 := job_of_key hnd hops p2 hp2 hk2
        subst hpe2
        dsimp only at hop2
        rw [hi2, hop, Option.some.injEq] at hop2
        subst hop2
        subst hS2
        exact Or.inl (hend p1 hp1 i1 op1 s1 hop1 h1 hm)
    · rcases hchar p2 hp2 i2 s2 hs2 with h2 | ⟨hk2, hi2, hS2⟩
      · have hpe1 := job_of_key hnd hops p1 hp1 hk1
        subst hpe1
        dsimp only at hop1
        rw [hi1, hop, Option.some.injEq] at hop1
        subst hop1
        subst hS1
        exact Or.inr (hend p2 hp2 i2 op2 s2 hop2 h2 hm.symm)
      · exact absurd (by rw [hk1, hk2, hi1, hi2]) hne

theorem solve_with_order_aux_valid (jobs : Jobs) (hnd : (jobs.map Prod.fst).Nodup) :
    ∀ (todo : List (JobName × Nat)) (lj lm : List (Nat × Nat)) (sol : Sol),
      (∀ e ∈ todo, e.1 ∈ jobs.map Prod.fst) →
      (∀ p ∈ jobs, (todo.filter fun e => decide (e.1 = p.1)).map Prod.snd =
        (List.range p.2.length).drop (alookupD sol p.1 []).length) →
      OrderInv jobs lj lm sol →
      ∃ sol2, solve_with_order_aux jobs todo lj lm sol = some sol2 ∧
        (∃ lj2 lm2, OrderInv jobs lj2 lm2 sol2) ∧
        (∀ p ∈ jobs, (alookupD sol2 p.1 []).length = p.2.length) := by
  intro todo
  induction todo with
  | nil =>
      intro lj lm sol hkeys horder hinv
      refine ⟨sol, rfl, ⟨lj, lm, hinv⟩, ?_⟩
      intro p hp
      have h := horder p hp
      simp only [List.filter_nil, List.map_nil] at h
      have hle := (hinv.2.2.1 p hp).1
      have hlen := congrArg List.length h
      simp only [List.length_nil, List.length_drop, List.length_range] at hlen
      omega
  | cons e rest ih =>
      intro lj lm sol hkeys horder hinv
      obtain ⟨key, index⟩ := e
      have hkmem : key ∈ jobs.map Prod.fst := hkeys (key, index) (List.mem_cons_self _ _)
      obtain ⟨ops, hops⟩ := Option.isSome_iff_exists.mp
        ((alookup_isSome_iff jobs key).mpr hkmem)
      have hpmem : (key, ops) ∈ jobs := alookup_mem hops
      have hfk := horder (key, ops) hpmem
      rw [List.filter_cons] at hfk
      rw [if_pos (by simp)] at hfk
      rw [List.map_cons] at hfk
      dsimp only at hfk
      have hc : (alookupD sol key []).length < ops.length := by
        by_contra hge
        rw [List.drop_eq_nil_of_le (by simp; omega)] at hfk
        exact (List.cons_ne_nil _ _) hfk
      rw [List.drop_eq_getElem_cons (by simpa using hc)] at hfk
      simp only [List.getElem_range, List.cons.injEq] at hfk
      obtain ⟨hidx, hrest⟩ := hfk
      obtain ⟨op, hopc⟩ : ∃ op, ops.get? (alookupD sol key []).length = some op := by
        rw [List.get?_eq_getElem?]
        exact ⟨_, List.getElem?_eq_getElem hc⟩
      have hop : ops.get? index = some op := by rw [hidx]; exact hopc
      have hstep := order_step jobs hnd key ops op lj lm sol hops hopc hinv
      have hkeys' : ∀ e ∈ rest, e.1 ∈ jobs.map Prod.fst :=
        fun e he => hkeys e (List.mem_cons_of_mem _ he)
      have horder' : ∀ p ∈ jobs,
          (rest.filter fun e => decide (e.1 = p.1)).map Prod.snd =
          (List.range p.2.length).drop
            (alookupD (dictAppend sol key
              (max (alookupD lj key 0) (alookupD lm op.1 0))) p.1 []).length := by
        intro p hp
        by_cases hpk : p.1 = key
        · have hpe := job_of_key hnd hops p hp hpk
          subst hpe
          dsimp only
          rw [dictAppend_lookup_self, List.length_append, List.length_singleton]
          exact hrest
        · have hfp := horder p hp
          rw [List.filter_cons] at hfp
          rw [if_neg (by simp only [decide_eq_true_eq]; exact fun h => hpk h.symm)] at hfp
          rw [dictAppend_lookup_other _ _ _ _ hpk]
          exact hfp
      obtain ⟨sol2, haux, hinv2, hfull⟩ := ih
        (dictSet lj key (max (alookupD lj key 0) (alookupD lm op.1 0) + op.2))
        (dictSet lm op.1 (max (alookupD lj key 0) (alookupD lm op.1 0) + op.2))
        (dictAppend sol key (max (alookupD lj key 0) (alookupD lm op.1 0)))
        hkeys' horder' hstep
      refine ⟨sol2, ?_, hinv2, hfull⟩
      simp only [solve_with_order_aux, hops, hop, bind, Option.some_bind]
      exact haux

/-- C10: for every instance with nodup job names and at least one
operation per job, and every order that lists only operations of the
instance and whose per-job index subsequence is exactly
`0, 1, ..., len-1`, `solve_with_order` returns (without raising) a
schedule with exactly one start time per operation that passes
`checkValidity`: each operation starts no earlier than the end of its
job predecessor and no two operations sharing a machine overlap. -/
theorem claim_C10_solve_with_order (jobs : Jobs) (order : List (JobName × Nat))
    (hnd : (jobs.map Prod.fst).Nodup) (hne : ∀ p ∈ jobs, p.2 ≠ [])
    (hkeys : ∀ e ∈ order, e.1 ∈ jobs.map Prod.fst)
    (horder : ∀ p ∈ jobs, (order.filter fun e => decide (e.1 = p.1)).map Prod.snd =
      List.range p.2.length) :
    ∃ sol, solve_with_order jobs order = some sol ∧ SolMatches jobs sol ∧
      checkValidity jobs sol = some true := by
  have hinv0 : OrderInv jobs [] [] [] := by
    refine ⟨List.nodup_nil, ?_, ?_, ?_, ?_⟩
    · intro q hq
      simp at hq
    · intro p hp
      constructor
      · simp [alookupD, alookup]
      · intro i op s _ hsi
        simp [alookupD, alookup] at hsi
    · intro p hp i op s1 s2 _ hs1 _
      simp [alookupD, alookup] at hs1
    · intro p1 hp1 p2 hp2 i1 i2 op1 op2 s1 s2 _ _ hs1 _ _ _
      simp [alookupD, alookup] at hs1
  have horder0 : ∀ p ∈ jobs, (order.filter fun e => decide (e.1 = p.1)).map Prod.snd =
      (List.range p.2.length).drop (alookupD ([] : Sol) p.1 []).length := by
    intro p hp
    have h0 : (alookupD ([] : Sol) p.1 []).length = 0 := by simp [alookupD, alookup]
    rw [h0, List.drop_zero]
    exact horder p hp
  obtain ⟨sol, haux, ⟨lj2, lm2, hinv⟩, hfull⟩ :=
    solve_with_order_aux_valid jobs hnd order [] [] [] hkeys horder0 hinv0
  obtain ⟨hsnd, hsub, hrows, hprec, hexcl⟩ := hinv
  have hlook : ∀ q ∈ sol, alookupD sol q.1 [] = q.2 := by
    intro q hq
    exact alookupD_eq_of_alookup [] (mem_alookup hsnd hq)
  have hmatch : SolMatches jobs sol := by
    refine ⟨hnd, hsnd, ?_, ?_⟩
    · apply (List.perm_ext_iff_of_nodup hsnd hnd).mpr
      intro a
      constructor
      · intro ha
        obtain ⟨q, hq, hqe⟩ := List.mem_map.mp ha
        rw [← hqe]
        exact hsub q hq
      · intro ha
        obtain ⟨p, hp, hpe⟩ := List.mem_map.mp ha
        have hlen := hfull p hp
        have hops1 : 1 ≤ p.2.length := by
          cases hop2 : p.2 with
          | nil => exact absurd hop2 (hne p hp)
          | cons x xs => simp [hop2]
        have hsome : (alookup sol p.1).isSome := by
          rcases hal : alookup sol p.1 with _ | v
          · have h0 : alookupD sol p.1 [] = [] := by simp [alookupD, hal]
            rw [h0] at hlen
            simp at hlen
            omega
          · simp
        rw [alookup_isSome_iff] at hsome
        rw [← hpe]
        exact hsome
    · intro p hp q hq hpq
      rw [← hlook q hq, ← hpq]
      exact hfull p hp
  have hPrec : PrecSpec jobs sol := by
    intro p hp q hq hpq i op s1 s2 hopi hs1 hs2
    rw [← hlook q hq, ← hpq] at hs1 hs2
    exact hprec p hp i op s1 s2 hopi hs1 hs2
  have hExcl : ExclSpec jobs sol := by
    intro p1 hp1 p2 hp2 q1 hq1 q2 hq2 he1 he2 i1 i2 op1 op2 s1 s2 ho1 ho2 hs1 hs2 hne2 hm
    rw [← hlook q1 hq1, ← he1] at hs1
    rw [← hlook q2 hq2, ← he2] at hs2
    exact hexcl p1 hp1 p2 hp2 i1 i2 op1 op2 s1 s2 ho1 ho2 hs1 hs2 hne2 hm
  exact ⟨sol, haux, hmatch, (checkValidity_spec hmatch).2.mpr ⟨hPrec, hExcl⟩⟩

theorem claim_C10_solve_with_order_witness :
    ((([(1, [(0, 1), (1, 1)]), (2, [(0, 2)])] : Jobs).map Prod.fst).Nodup ∧
      (∀ p ∈ ([(1, [(0, 1), (1, 1)]), (2, [(0, 2)])] : Jobs), p.2 ≠ []) ∧
      (∀ e ∈ ([(1, 0), (2, 0), (1, 1)] : List (JobName × Nat)),
        e.1 ∈ ([(1, [(0, 1), (1, 1)]), (2, [(0, 2)])] : Jobs).map Prod.fst) ∧
      (∀ p ∈ ([(1, [(0, 1), (1, 1)]), (2, [(0, 2)])] : Jobs),
        (([(1, 0), (2, 0), (1, 1)] : List (JobName × Nat)).filter
          fun e => decide (e.1 = p.1)).map Prod.snd = List.range p.2.length)) ∧
    (∃ sol, solve_with_order [(1, [(0, 1), (1, 1)]), (2, [(0, 2)])]
        [(1, 0), (2, 0), (1, 1)] = some sol ∧
      SolMatches [(1, [(0, 1), (1, 1)]), (2, [(0, 2)])] sol ∧
      checkValidity [(1, [(0, 1), (1, 1)]), (2, [(0, 2)])] sol = some true) :=
  ⟨⟨by decide, by decide, by decide, by decide⟩,
    claim_C10_solve_with_order [(1, [(0, 1), (1, 1)]), (2, [(0, 2)])]
      [(1, 0), (2, 0), (1, 1)] (by decide) (by decide) (by decide) (by decide)⟩

/-! ## Claim C3: `solve_greedily` always returns a valid schedule -/

theorem chainOk_mem : ∀ (l : List (Nat × Nat)) (lo : Nat), ChainOk lo l →
    ∀ x ∈ l, lo ≤ x.1 ∧ x.1 ≤ x.2 := by
  intro l
  induction l with
  | nil => intro lo _ x hx; simp at hx
  | cons ab rest ih =>
      intro lo hc x hx
      obtain ⟨h1, h2, h3⟩ := hc
      rcases List.mem_cons.mp hx with hx | hx
      · subst hx
        exact ⟨h1, h2⟩
      · have := ih ab.2 h3 x hx
        exact ⟨by omega, this.2⟩

theorem chainOk_decomp :
    ∀ (pre : List (Nat × Nat)) (lo a b : Nat) (suf : List (Nat × Nat)),
      ChainOk lo (pre ++ (a, b) :: suf) →
      lo ≤ a ∧ a ≤ b ∧ (∀ x ∈ pre, x.1 ≤ x.2 ∧ x.2 ≤ a) ∧
        (∀ x ∈ suf, b ≤ x.1 ∧ x.1 ≤ x.2) := by
  intro pre
  induction pre with
  | nil =>
      intro lo a b suf hc
      obtain ⟨h1, h2, h3⟩ := hc
      refine ⟨h1, h2, by simp, ?_⟩
      exact chainOk_mem suf b h3
  | cons uv rest ih =>
      intro lo a b suf hc
      obtain ⟨h1, h2, h3⟩ := hc
      obtain ⟨g1, g2, g3, g4⟩ := ih uv.2 a b suf h3
      refine ⟨by omega, g2, ?_, g4⟩
      intro x hx
      rcases List.mem_cons.mp hx with hx | hx
      · subst hx
        exact ⟨h2, g1⟩
      · exact g3 x hx

theorem chainOk_split0 :
    ∀ (pre : List (Nat × Nat)) (lo a b d : Nat) (suf : List (Nat × Nat)),
      ChainOk lo (pre ++ (a, b) :: suf) → a + d ≤ b →
      ChainOk lo (pre ++ (a + d, b) :: suf) := by
  intro pre
  induction pre with
  | nil =>
      intro lo a b d suf hc hd
      obtain ⟨h1, h2, h3⟩ := hc
      exact ⟨by omega, hd, h3⟩
  | cons uv rest ih =>
      intro lo a b d suf hc hd
      obtain ⟨h1, h2, h3⟩ := hc
      exact ⟨h1, h2, ih uv.2 a b d suf h3 hd⟩

theorem chainOk_split2 :
    ∀ (pre : List (Nat × Nat)) (lo a b sp d : Nat) (suf : List (Nat × Nat)),
      ChainOk lo (pre ++ (a, b) :: suf) → a ≤ sp → sp + d ≤ b →
      ChainOk lo (pre ++ (a, sp) :: (sp + d, b) :: suf) := by
  intro pre
  induction pre with
  | nil =>
      intro lo a b sp d suf hc h1 h2
      obtain ⟨g1, g2, g3⟩ := hc
      exact ⟨g1, h1, by omega, h2, g3⟩
  | cons uv rest ih =>
      intro lo a b sp d suf hc h1 h2
      obtain ⟨g1, g2, g3⟩ := hc
      exact ⟨g1, g2, ih uv.2 a b sp d suf g3 h1 h2⟩

theorem place0_spec :
    ∀ (fl : List (Nat × Nat)) (d sp : Nat) (fl2 : List (Nat × Nat)),
      place0 d fl = some (sp, fl2) →
      ∃ pre a b suf, fl = pre ++ (a, b) :: suf ∧ sp = a ∧ a + d ≤ b ∧
        fl2 = pre ++ (a + d, b) :: suf := by
  intro fl
  induction fl with
  | nil => intro d sp fl2 h; simp [place0] at h
  | cons ab rest ih =>
      intro d sp fl2 h
      obtain ⟨s, e⟩ := ab
      simp only [place0] at h
      by_cases hfit : s + d ≤ e
      · rw [if_pos hfit, Option.some.injEq] at h
        obtain ⟨h1, h2⟩ := Prod.mk.injEq .. ▸ h
        exact ⟨[], s, e, rest, rfl, h1.symm, hfit, h2.symm⟩
      · rw [if_neg hfit] at h
        rcases hrec : place0 d rest with _ | r
        · rw [hrec] at h; simp at h
        · rw [hrec] at h
          simp only [Option.map_some', Option.some.injEq] at h
          obtain ⟨hsp, hfl⟩ := Prod.mk.injEq .. ▸ h
          obtain ⟨pre, a, b, suf, g1, g2, g3, g4⟩ := ih d r.1 r.2 (by rw [hrec])
          refine ⟨(s, e) :: pre, a, b, suf, by simp [g1], by rw [← hsp]; exact g2, g3, ?_⟩
          rw [← hfl, g4]
          simp

theorem placeLater_spec :
    ∀ (fl : List (Nat × Nat)) (prev d sp : Nat) (fl2 : List (Nat × Nat)),
      placeLater prev d fl = some (sp, fl2) →
      ∃ pre a b suf, fl = pre ++ (a, b) :: suf ∧ sp = max a prev ∧ sp + d ≤ b ∧
        fl2 = pre ++ (a, sp) :: (sp + d, b) :: suf := by
  intro fl
  induction fl with
  | nil => intro prev d sp fl2 h; simp [placeLater] at h
  | cons ab rest ih =>
      intro prev d sp fl2 h
      obtain ⟨s, e⟩ := ab
      simp only [placeLater] at h
      by_cases hfit : max s prev + d ≤ e
      · rw [if_pos hfit, Option.some.injEq] at h
        obtain ⟨h1, h2⟩ := Prod.mk.injEq .. ▸ h
        refine ⟨[], s, e, rest, rfl, h1.symm, by rw [← h1]; exact hfit, ?_⟩
        rw [← h2, ← h1]
        simp
      · rw [if_neg hfit] at h
        rcases hrec : placeLater prev d rest with _ | r
        · rw [hrec] at h; simp at h
        · rw [hrec] at h
          simp only [Option.map_some', Option.some.injEq] at h
          obtain ⟨hsp, hfl⟩ := Prod.mk.injEq .. ▸ h
          obtain ⟨pre, a, b, suf, g1, g2, g3, g4⟩ := ih prev d r.1 r.2 (by rw [hrec])
          rw [hsp] at g2 g3 g4
          refine ⟨(s, e) :: pre, a, b, suf, by simp [g1], g2, g3, ?_⟩
          rw [← hfl, g4]
          simp

theorem place0_isSome :
    ∀ (fl : List (Nat × Nat)) (d : Nat), (∃ ab ∈ fl, ab.1 + d ≤ ab.2) →
      (place0 d fl).isSome := by
  intro fl
  induction fl with
  | nil => intro d h; simp at h
  | cons ab rest ih =>
      intro d h
      obtain ⟨s, e⟩ := ab
      simp only [place0]
      by_cases hfit : s + d ≤ e
      · rw [if_pos hfit]; rfl
      · rw [if_neg hfit]
        obtain ⟨x, hx, hfx⟩ := h
        rcases List.mem_cons.mp hx with hx | hx
        · subst hx
          exact absurd hfx hfit
        · have := ih d ⟨x, hx, hfx⟩
          rcases hrec : place0 d rest with _ | r
          · rw [hrec] at this; simp at this
          · simp

theorem placeLater_isSome :
    ∀ (fl : List (Nat × Nat)) (prev d : Nat),
      (∃ ab ∈ fl, max ab.1 prev + d ≤ ab.2) → (placeLater prev d fl).isSome := by
  intro fl
  induction fl with
  | nil => intro prev d h; simp at h
  | cons ab rest ih =>
      intro prev d h
      obtain ⟨s, e⟩ := ab
      simp only [placeLater]
      by_cases hfit : max s prev + d ≤ e
      · rw [if_pos hfit]; rfl
      · rw [if_neg hfit]
        obtain ⟨x, hx, hfx⟩ := h
        rcases List.mem_cons.mp hx with hx | hx
        · subst hx
          exact absurd hfx hfit
        · have := ih prev d ⟨x, hx, hfx⟩
          rcases hrec : placeLater prev d rest with _ | r
          · rw [hrec] at this; simp at this
          · simp

theorem takeSum_succ (ops : List Op) (c : Nat) (op : Op)
    (hop : ops.get? c = some op) :
    ((ops.take (c + 1)).map Prod.snd).sum = ((ops.take c).map Prod.snd).sum + op.2 := by
  rw [List.take_succ]
  rw [List.get?_eq_getElem?] at hop
  rw [hop]
  simp

theorem takeSum_le (ops : List Op) (c : Nat) :
    ((ops.take c).map Prod.snd).sum ≤ (ops.map Prod.snd).sum := by
  conv_rhs => rw [← List.take_append_drop c ops]
  rw [List.map_append, List.sum_append]
  exact Nat.le_add_right _ _

theorem placedSum_nil (jobs : Jobs) : placedSum jobs [] = 0 := by
  unfold placedSum
  simp [alookupD, alookup]

theorem placedSum_room (jobs : Jobs) (sol : Sol) (p : JobName × List Op) (hp : p ∈ jobs)
    (op : Op) (hop : p.2.get? (alookupD sol p.1 []).length = some op) :
    placedSum jobs sol + op.2 ≤ totalTime jobs := by
  obtain ⟨l1, l2, rfl⟩ := List.append_of_mem hp
  unfold placedSum totalTime
  rw [List.map_append, List.map_cons, List.sum_append, List.sum_cons,
    List.map_append, List.map_cons, List.sum_append, List.sum_cons]
  have h1 : (l1.map fun q => ((q.2.take (alookupD sol q.1 []).length).map Prod.snd).sum).sum ≤
      (l1.map fun q => (q.2.map Prod.snd).sum).sum :=
    List.sum_le_sum fun q _ => takeSum_le q.2 _
  have h2 : (l2.map fun q => ((q.2.take (alookupD sol q.1 []).length).map Prod.snd).sum).sum ≤
      (l2.map fun q => (q.2.map Prod.snd).sum).sum :=
    List.sum_le_sum fun q _ => takeSum_le q.2 _
  have h3 : ((p.2.take (alookupD sol p.1 []).length).map Prod.snd).sum + op.2 ≤
      (p.2.map Prod.snd).sum := by
    rw [← takeSum_succ p.2 _ op hop]
    exact takeSum_le p.2 _
  omega

theorem placedSum_append :
    ∀ (jobs : Jobs) (sol : Sol) (key : JobName) (ops : List Op) (op : Op) (sp : Nat),
      (jobs.map Prod.fst).Nodup →
      alookup jobs key = some ops →
      ops.get? (alookupD sol key []).length = some op →
      placedSum jobs (dictAppend sol key sp) = placedSum jobs sol + op.2 := by
  intro jobs
  induction jobs with
  | nil => intro sol key ops op sp _ hops _; simp [alookup] at hops
  | cons q rest ih =>
      intro sol key ops op sp hnd hops hop
      simp only [List.map_cons, List.nodup_cons] at hnd
      unfold placedSum
      simp only [List.map_cons, List.sum_cons]
      by_cases hqk : q.1 = key
      · have hqeq : alookup (q :: rest) key = some q.2 := by
          rw [show alookup (q :: rest) key =
            if q.1 = key then some q.2 else alookup rest key from rfl, if_pos hqk]
        rw [hqeq, Option.some.injEq] at hops
        have hrow : alookupD (dictAppend sol key sp) q.1 [] =
            alookupD sol q.1 [] ++ [sp] := by
          rw [hqk]
          exact dictAppend_lookup_self _ _ _
        rw [hrow, List.length_append, List.length_singleton]
        have hts : ((q.2.take ((alookupD sol q.1 []).length + 1)).map Prod.snd).sum =
            ((q.2.take (alookupD sol q.1 []).length).map Prod.snd).sum + op.2 := by
          apply takeSum_succ
          rw [hops, hqk]
          exact hop
        rw [hts]
        have hrest : (rest.map fun p =>
            ((p.2.take (alookupD (dictAppend sol key sp) p.1 []).length).map
              Prod.snd).sum) =
            (rest.map fun p =>
              ((p.2.take (alookupD sol p.1 []).length).map Prod.snd).sum) := by
          apply List.map_congr_left
          intro r hr
          have hrk : r.1 ≠ key := by
            intro he
            exact hnd.1 (List.mem_map.mpr ⟨r, hr, he.trans hqk.symm⟩)
          rw [dictAppend_lookup_other _ _ _ _ hrk]
        rw [hrest]
        omega
      · have hrowq : alookupD (dictAppend sol key sp) q.1 [] = alookupD sol q.1 [] :=
          dictAppend_lookup_other _ _ _ _ hqk
        rw [hrowq]
        have hops' : alookup rest key = some ops := by
          rw [show alookup (q :: rest) key =
            if q.1 = key then some q.2 else alookup rest key from rfl, if_neg hqk] at hops
          exact hops
        have hih := ih sol key ops op sp hnd.2 hops' hop
        unfold placedSum at hih
        rw [hih]
        omega

theorem dictSet_isSome_mono {β : Type} (d : List (Nat × β)) (k : Nat) (v : β) (m : Nat)
    (h : (alookup d m).isSome) : (alookup (dictSet d k v) m).isSome := by
  by_cases hk : k = m
  · subst hk
    rw [dictSet_lookup_self]
    rfl
  · rw [dictSet_lookup_other d k v m hk]
    exact h

theorem innerFold_values (maxT : Nat) :
    ∀ (l : List Op) (acc : List (Nat × List (Nat × Nat))),
      (∀ k v, alookup acc k = some v → v = [(0, maxT)]) →
      ∀ k v, alookup (l.foldl (fun fs op => dictSet fs op.1 [(0, maxT)]) acc) k = some v →
        v = [(0, maxT)] := by
  intro l
  induction l with
  | nil => intro acc hacc k v h; exact hacc k v h
  | cons op rest ih =>
      intro acc hacc k v h
      refine ih (dictSet acc op.1 [(0, maxT)]) ?_ k v h
      intro k2 v2 h2
      by_cases hk : op.1 = k2
      · subst hk
        rw [dictSet_lookup_self, Option.some.injEq] at h2
        exact h2.symm
      · rw [dictSet_lookup_other _ _ _ _ hk] at h2
        exact hacc k2 v2 h2

theorem innerFold_some (maxT : Nat) :
    ∀ (l : List Op) (acc : List (Nat × List (Nat × Nat))) (m : Nat),
      ((alookup acc m).isSome ∨ ∃ op ∈ l, op.1 = m) →
      (alookup (l.foldl (fun fs op => dictSet fs op.1 [(0, maxT)]) acc) m).isSome := by
  intro l
  induction l with
  | nil =>
      intro acc m h
      rcases h with h | ⟨op, hop, _⟩
      · exact h
      · simp at hop
  | cons op rest ih =>
      intro acc m h
      apply ih
      rcases h with h | ⟨op2, hop2, he⟩
      · left
        exact dictSet_isSome_mono _ _ _ _ h
      · rcases List.mem_cons.mp hop2 with h2 | h2
        · left
          subst h2
          subst he
          rw [dictSet_lookup_self]
          rfl
        · right
          exact ⟨op2, h2, he⟩

theorem initFreeSpace_values (jobs : Jobs) (maxT : Nat) :
    ∀ k v, alookup (initFreeSpace jobs maxT) k = some v → v = [(0, maxT)] := by
  suffices hgen : ∀ (l : Jobs) (acc : List (Nat × List (Nat × Nat))),
      (∀ k v, alookup acc k = some v → v = [(0, maxT)]) →
      ∀ k v, alookup (l.foldl (fun fs p =>
        p.2.foldl (fun fs op => dictSet fs op.1 [(0, maxT)]) fs) acc) k = some v →
        v = [(0, maxT)] by
    intro k v hv
    exact hgen jobs [] (by intro k2 v2 h2; simp [alookup] at h2) k v hv
  intro l
  induction l with
  | nil => intro acc hacc; exact hacc
  | cons p rest ih =>
      intro acc hacc
      exact ih _ (innerFold_values maxT p.2 acc hacc)

theorem initFreeSpace_some (jobs : Jobs) (maxT : Nat) (m : Nat)
    (h : ∃ p ∈ jobs, ∃ op ∈ p.2, op.1 = m) :
    (alookup (initFreeSpace jobs maxT) m).isSome := by
  suffices hgen : ∀ (l : Jobs) (acc : List (Nat × List (Nat × Nat))),
      ((alookup acc m).isSome ∨ ∃ p ∈ l, ∃ op ∈ p.2, op.1 = m) →
      (alookup (l.foldl (fun fs p =>
        p.2.foldl (fun fs op => dictSet fs op.1 [(0, maxT)]) fs) acc) m).isSome by
    exact hgen jobs [] (Or.inr h)
  intro l
  induction l with
  | nil =>
      intro acc h2
      rcases h2 with h2 | ⟨p, hp, _⟩
      · exact h2
      · simp at hp
  | cons p rest ihl =>
      intro acc h2
      apply ihl
      rcases h2 with h2 | ⟨p2, hp2, hop2⟩
      · left
        exact innerFold_some maxT p.2 acc m (Or.inl h2)
      · rcases List.mem_cons.mp hp2 with he | he
        · left
          subst he
          exact innerFold_some maxT p2.2 acc m (Or.inr hop2)
        · right
          exact ⟨p2, he, hop2⟩

theorem maxNumOps_le :
    ∀ (l : Jobs) (init : Nat),
      init ≤ l.foldl (fun m p => if p.2.length > m then p.2.length else m) init ∧
      ∀ p ∈ l, p.2.length ≤
        l.foldl (fun m p => if p.2.length > m then p.2.length else m) init := by
  intro l
  induction l with
  | nil => intro init; exact ⟨le_refl _, by simp⟩
  | cons q rest ih =>
      intro init
      constructor
      · have h1 : init ≤ if q.2.length > init then q.2.length else init := by
          split
          · omega
          · omega
        exact le_trans h1 (ih _).1
      · intro p hp
        rcases List.mem_cons.mp hp with he | he
        · subst he
          have h1 : p.2.length ≤ if p.2.length > init then p.2.length else init := by
            split
            · omega
            · omega
          exact le_trans h1 (ih _).1
        · exact (ih _).2 p he

theorem le_maxNumOps (jobs : Jobs) (p : JobName × List Op) (hp : p ∈ jobs) :
    p.2.length ≤ maxNumOps jobs :=
  (maxNumOps_le jobs 0).2 p hp

theorem chainOk_replace :
    ∀ (pre : List (Nat × Nat)) (lo a b a2 : Nat) (suf : List (Nat × Nat)),
      ChainOk lo (pre ++ (a, b) :: suf) → a ≤ a2 → a2 ≤ b →
      ChainOk lo (pre ++ (a2, b) :: suf) := by
  intro pre
  induction pre with
  | nil =>
      intro lo a b a2 suf hc h1 h2
      obtain ⟨g1, g2, g3⟩ := hc
      exact ⟨by omega, h2, g3⟩
  | cons uv rest ih =>
      intro lo a b a2 suf hc h1 h2
      obtain ⟨g1, g2, g3⟩ := hc
      exact ⟨g1, g2, ih uv.2 a b a2 suf g3 h1 h2⟩

theorem ginv_place (jobs : Jobs) (maxT : Nat)
    (hnd : (jobs.map Prod.fst).Nodup)
    (sol : Sol) (fs : List (Nat × List (Nat × Nat)))
    (hinv : GInv jobs maxT sol fs)
    (key : JobName) (ops : List Op) (op : Op)
    (hops : alookup jobs key = some ops)
    (hop : ops.get? (alookupD sol key []).length = some op)
    (sp : Nat) (fl fl2 : List (Nat × Nat))
    (hfl : alookup fs op.1 = some fl)
    (hspD : sp ≤ placedSum jobs sol)
    (hprevle : ∀ sprev opprev,
      ops.get? ((alookupD sol key []).length - 1) = some opprev →
      (alookupD sol key []).get? ((alookupD sol key []).length - 1) = some sprev →
      0 < (alookupD sol key []).length → sprev + opprev.2 ≤ sp)
    (hsplit : ∃ pre a b suf, fl = pre ++ (a, b) :: suf ∧ a ≤ sp ∧ sp + op.2 ≤ b ∧
      (fl2 = pre ++ (sp + op.2, b) :: suf ∨
       fl2 = pre ++ (a, sp) :: (sp + op.2, b) :: suf)) :
    GInv jobs maxT (dictAppend sol key sp) (dictSet fs op.1 fl2) := by
  obtain ⟨hsnd, hsub, hlens, hends, hprec, hexcl, hmach⟩ := hinv
  obtain ⟨pre, a, b, suf, hfldec, hasp, hspb, hfl2⟩ := hsplit
  have hpmem : (key, ops) ∈ jobs := alookup_mem hops
  have hkmem : key ∈ jobs.map Prod.fst := List.mem_map_of_mem _ hpmem
  have hc : (alookupD sol key []).length < ops.length := get?_some_lt hop
  have hmex : ∃ p ∈ jobs, ∃ op2 ∈ p.2, op2.1 = op.1 :=
    ⟨(key, ops), hpmem, op, List.get?_mem hop, rfl⟩
  obtain ⟨fl', hfl', hchain, hstarts, htail, hfree⟩ := hmach op.1 hmex
  rw [hfl, Option.some.injEq] at hfl'
  subst hfl'
  have hD : placedSum jobs (dictAppend sol key sp) = placedSum jobs sol + op.2 :=
    placedSum_append jobs sol key ops op sp hnd hops hop
  have hdec := chainOk_decomp pre 0 a b suf (hfldec ▸ hchain)
  have hab2 : (a, b) ∈ fl := by
    rw [hfldec]
    exact List.mem_append.mpr (Or.inr (List.mem_cons_self _ _))
  have hchar : ∀ p ∈ jobs, ∀ i s,
      (alookupD (dictAppend sol key sp) p.1 []).get? i = some s →
      (alookupD sol p.1 []).get? i = some s ∨
        (p = (key, ops) ∧ i = (alookupD sol key []).length ∧ s = sp) := by
    intro p hp i s hsi
    by_cases hpk : p.1 = key
    · have hpe := job_of_key hnd hops p hp hpk
      rw [hpk, dictAppend_lookup_self] at hsi
      rcases concat_get?_cases hsi with hold | ⟨h1, h2⟩
      · left
        rw [hpk]
        exact hold
      · right
        exact ⟨hpe, h1, h2⟩
    · left
      rw [dictAppend_lookup_other _ _ _ _ hpk] at hsi
      exact hsi
  have hnew : ∀ p ∈ jobs, ∀ i opx, p = (key, ops) → i = (alookupD sol key []).length →
      p.2.get? i = some opx → opx = op := by
    intro p hp i opx hpe hie hopx
    subst hpe
    subst hie
    dsimp only at hopx
    rw [hop, Option.some.injEq] at hopx
    exact hopx.symm
  have hfl2mem : ∀ x ∈ fl2, x ∈ pre ∨ x ∈ suf ∨ x = (sp + op.2, b) ∨ x = (a, sp) := by
    intro x hx
    rcases hfl2 with h | h
    · rw [h] at hx
      rcases List.mem_append.mp hx with h1 | h1
      · exact Or.inl h1
      · rcases List.mem_cons.mp h1 with h2 | h2
        · exact Or.inr (Or.inr (Or.inl h2))
        · exact Or.inr (Or.inl h2)
    · rw [h] at hx
      rcases List.mem_append.mp hx with h1 | h1
      · exact Or.inl h1
      · rcases List.mem_cons.mp h1 with h2 | h2
        · exact Or.inr (Or.inr (Or.inr h2))
        · rcases List.mem_cons.mp h2 with h3 | h3
          · exact Or.inr (Or.inr (Or.inl h3))
          · exact Or.inr (Or.inl h3)
  have hpremem : ∀ x ∈ pre, x ∈ fl := by
    intro x hx
    rw [hfldec]
    exact List.mem_append.mpr (Or.inl hx)
  have hsufmem : ∀ x ∈ suf, x ∈ fl := by
    intro x hx
    rw [hfldec]
    exact List.mem_append.mpr (Or.inr (List.mem_cons_of_mem _ hx))
  refine ⟨dictAppend_nodup _ _ _ hsnd, ?_, ?_, ?_, ?_, ?_, ?_⟩
  · intro q hq
    have hqk := List.mem_map_of_mem Prod.fst hq
    rw [dictAppend_keys] at hqk
    by_cases hmem2 : key ∈ sol.map Prod.fst
    · rw [if_pos hmem2] at hqk
      obtain ⟨q2, hq2, hq2e⟩ := List.mem_map.mp hqk
      rw [← hq2e]
      exact hsub q2 hq2
    · rw [if_neg hmem2] at hqk
      rcases List.mem_append.mp hqk with hh | hh
      · obtain ⟨q2, hq2, hq2e⟩ := List.mem_map.mp hh
        rw [← hq2e]
        exact hsub q2 hq2
      · rw [List.mem_singleton] at hh
        rw [hh]
        exact hkmem
  · intro p hp
    by_cases hpk : p.1 = key
    · have hpe := job_of_key hnd hops p hp hpk
      subst hpe
      dsimp only
      rw [dictAppend_lookup_self, List.length_append, List.length_singleton]
      omega
    · rw [dictAppend_lookup_other _ _ _ _ hpk]
      exact hlens p hp
  · intro p hp i opx s hopi hsi
    rw [hD]
    rcases hchar p hp i s hsi with hold | ⟨hpe, hi, hs⟩
    · exact le_trans (hends p hp i opx s hopi hold) (Nat.le_add_right _ _)
    · have hoeq := hnew p hp i opx hpe hi hopi
      subst hoeq
      subst hs
      omega
  · intro p hp i opx s1 s2 hopi hs1 hs2
    rcases hchar p hp (i + 1) s2 hs2 with hold2 | ⟨hpe2, hi2, hs2e⟩
    · rcases hchar p hp i s1 hs1 with hold1 | ⟨hpe1, hi1, hs1e⟩
      · exact hprec p hp i opx s1 s2 hopi hold1 hold2
      · subst hpe1
        dsimp only at hold2
        have hlt := get?_some_lt hold2
        omega
    · subst hpe2
      subst hs2e
      dsimp only at hopi hs1
      rcases hchar (key, ops) hpmem i s1 hs1 with hold1 | ⟨_, hi1, _⟩
      · rw [show i = (alookupD sol key []).length - 1 by omega] at hopi hold1
        exact hprevle s1 opx hopi hold1 (by omega)
      · omega
  · intro p1 hp1 p2 hp2 i1 i2 op1 op2 s1 s2 hop1 hop2 hs1 hs2 hne2 hm
    have hendle : ∀ p ∈ jobs, ∀ i opx sx, p.2.get? i = some opx →
        (alookupD sol p.1 []).get? i = some sx → opx.1 = op.1 →
        sx + opx.2 ≤ sp ∨ sp + op.2 ≤ sx := by
      intro p hp i opx sx hox hsx hmx
      rcases hfree (a, b) hab2 p hp i opx sx hox hsx hmx with h | h
      · left
        dsimp only at h
        omega
      · right
        dsimp only at h
        omega
    rcases hchar p1 hp1 i1 s1 hs1 with h1 | ⟨hpe1, hi1, hs1e⟩
    · rcases hchar p2 hp2 i2 s2 hs2 with h2 | ⟨hpe2, hi2, hs2e⟩
      · exact hexcl p1 hp1 p2 hp2 i1 i2 op1 op2 s1 s2 hop1 hop2 h1 h2 hne2 hm
      · have hopeq := hnew p2 hp2 i2 op2 hpe2 hi2 hop2
        subst hopeq
        subst hs2e
        exact hendle p1 hp1 i1 op1 s1 hop1 h1 hm
    · rcases hchar p2 hp2 i2 s2 hs2 with h2 | ⟨hpe2, hi2, hs2e⟩
      · have hopeq := hnew p1 hp1 i1 op1 hpe1 hi1 hop1
        subst hopeq
        subst hs1e
        rcases hendle p2 hp2 i2 op2 s2 hop2 h2 hm.symm with h | h
        · exact Or.inr h
        · exact Or.inl h
      · exfalso
        apply hne2
        rw [hpe1, hpe2, hi1, hi2]
  · intro m hmuse
    obtain ⟨flm, hflm, hchainm, hstartsm, htailm, hfreem⟩ := hmach m hmuse
    by_cases hmm : op.1 = m
    · subst hmm
      rw [hfl, Option.some.injEq] at hflm
      subst hflm
      refine ⟨fl2, ?_, ?_, ?_, ?_, ?_⟩
      · rw [dictSet_lookup_self]
      · rcases hfl2 with h | h
        · subst h
          exact chainOk_replace pre 0 a b (sp + op.2) suf (hfldec ▸ hchain)
            (by omega) hspb
        · subst h
          exact chainOk_split2 pre 0 a b sp op.2 suf (hfldec ▸ hchain) hasp hspb
      · rw [hD]
        intro ab hab
        rcases hfl2mem ab hab with h | h | h | h
        · exact le_trans (hstarts ab (hpremem ab h)) (Nat.le_add_right _ _)
        · exact le_trans (hstarts ab (hsufmem ab h)) (Nat.le_add_right _ _)
        · subst h
          dsimp only
          omega
        · subst h
          have := hstarts (a, b) hab2
          dsimp only at this ⊢
          omega
      · obtain ⟨x, hx⟩ := htail
        rw [hfldec] at hx
        rcases List.mem_append.mp hx with h | h
        · refine ⟨x, ?_⟩
          rcases hfl2 with h2 | h2
          · rw [h2]
            exact List.mem_append.mpr (Or.inl h)
          · rw [h2]
            exact List.mem_append.mpr (Or.inl h)
        · rcases List.mem_cons.mp h with h3 | h3
          · have hb : maxT = b := (Prod.mk.injEq .. ▸ h3).2
            refine ⟨sp + op.2, ?_⟩
            rcases hfl2 with h2 | h2
            · rw [h2, hb]
              exact List.mem_append.mpr (Or.inr (List.mem_cons_self _ _))
            · rw [h2, hb]
              exact List.mem_append.mpr
                (Or.inr (List.mem_cons_of_mem _ (List.mem_cons_self _ _)))
          · refine ⟨x, ?_⟩
            rcases hfl2 with h2 | h2
            · rw [h2]
              exact List.mem_append.mpr (Or.inr (List.mem_cons_of_mem _ h3))
            · rw [h2]
              exact List.mem_append.mpr
                (Or.inr (List.mem_cons_of_mem _ (List.mem_cons_of_mem _ h3)))
      · intro ab hab p2 hp2 i2 op2 s2 hox hsx hmx
        rcases hchar p2 hp2 i2 s2 hsx with hold | ⟨hpe2, hi2, hs2e⟩
        · rcases hfl2mem ab hab with h | h | h | h
          · exact hfree ab (hpremem ab h) p2 hp2 i2 op2 s2 hox hold hmx
          · exact hfree ab (hsufmem ab h) p2 hp2 i2 op2 s2 hox hold hmx
          · subst h
            rcases hfree (a, b) hab2 p2 hp2 i2 op2 s2 hox hold hmx with h4 | h4
            · left
              dsimp only at h4 ⊢
              omega
            · right
              dsimp only at h4 ⊢
              omega
          · subst h
            rcases hfree (a, b) hab2 p2 hp2 i2 op2 s2 hox hold hmx with h4 | h4
            · left
              dsimp only at h4 ⊢
              omega
            · right
              dsimp only at h4 ⊢
              omega
        · subst hs2e
          have hopeq := hnew p2 hp2 i2 op2 hpe2 hi2 hox
          subst hopeq
          rcases hfl2mem ab hab with h | h | h | h
          · have hp3 := hdec.2.2.1 ab h
            right
            omega
          · have hs3 := hdec.2.2.2 ab h
            left
            omega
          · subst h
            left
            dsimp only
            omega
          · subst h
            right
            dsimp only
            omega
    · refine ⟨flm, ?_, hchainm, ?_, htailm, ?_⟩
      · rw [dictSet_lookup_other _ _ _ _ hmm]
        exact hflm
      · rw [hD]
        intro ab hab
        exact le_trans (hstartsm ab hab) (Nat.le_add_right _ _)
      · intro ab hab p2 hp2 i2 op2 s2 hox hsx hmx
        rcases hchar p2 hp2 i2 s2 hsx with hold | ⟨hpe2, hi2, hs2e⟩
        · exact hfreem ab hab p2 hp2 i2 op2 s2 hox hold hmx
        · have hopeq := hnew p2 hp2 i2 op2 hpe2 hi2 hox
          subst hopeq
          exact absurd hmx hmm

theorem greedyJobStep_inv (jobs : Jobs) (maxT : Nat)
    (hnd : (jobs.map Prod.fst).Nodup) (hMT : maxT = totalTime jobs)
    (i : Nat) (q : JobName × List Op) (hq : q ∈ jobs)
    (sol : Sol) (fs : List (Nat × List (Nat × Nat)))
    (hinv : GInv jobs maxT sol fs)
    (hrow : (alookupD sol q.1 []).length = min i q.2.length) :
    ∃ st2, greedyJobStep jobs i q (sol, fs) = some st2 ∧
      GInv jobs maxT st2.1 st2.2 ∧
      (alookupD st2.1 q.1 []).length = min (i + 1) q.2.length ∧
      (∀ k, k ≠ q.1 → alookupD st2.1 k [] = alookupD sol k []) := by
  by_cases hskip : i ≥ q.2.length
  · refine ⟨(sol, fs), ?_, hinv, ?_, fun k _ => rfl⟩
    · simp only [greedyJobStep]
      rw [if_pos hskip]
    · rw [hrow]
      omega
  · push_neg at hskip
    have hqe : alookup jobs q.1 = some q.2 := mem_alookup hnd hq
    have hrowi : (alookupD sol q.1 []).length = i := by rw [hrow]; omega
    obtain ⟨op, hopi⟩ : ∃ op, q.2.get? i = some op := by
      rw [List.get?_eq_getElem?]
      exact ⟨_, List.getElem?_eq_getElem hskip⟩
    have hmuse : ∃ p ∈ jobs, ∃ op2 ∈ p.2, op2.1 = op.1 :=
      ⟨q, hq, op, List.get?_mem hopi, rfl⟩
    obtain ⟨fl, hfl, hchain, hstarts, htail, hfree⟩ := hinv.2.2.2.2.2.2 op.1 hmuse
    obtain ⟨x, hxmem⟩ := htail
    have hxD : x ≤ placedSum jobs sol := hstarts (x, maxT) hxmem
    have hroom : placedSum jobs sol + op.2 ≤ maxT := by
      rw [hMT]
      apply placedSum_room jobs sol q hq op
      rw [hrowi]
      exact hopi
    have hoprow : q.2.get? (alookupD sol q.1 []).length = some op := by
      rw [hrowi]
      exact hopi
    have habD : ∀ u v, (u, v) ∈ fl → u ≤ placedSum jobs sol := fun u v h => hstarts (u, v) h
    by_cases hi0 : i = 0
    · subst hi0
      have hfit : ∃ ab ∈ fl, ab.1 + op.2 ≤ ab.2 :=
        ⟨(x, maxT), hxmem, by dsimp only; omega⟩
      obtain ⟨r, hr⟩ := Option.isSome_iff_exists.mp (place0_isSome fl op.2 hfit)
      obtain ⟨pre, a, b, suf, g1, g2, g3, g4⟩ := place0_spec fl op.2 r.1 r.2 (by rw [hr])
      rw [← g2] at g3 g4
      have hstep : greedyJobStep jobs 0 q (sol, fs) =
          some (dictAppend sol q.1 r.1, dictSet fs op.1 r.2) := by
        simp only [greedyJobStep]
        rw [if_neg (by omega)]
        simp only [bind, hqe, Option.some_bind, hopi, hfl]
        rw [if_true, hr]
      refine ⟨(dictAppend sol q.1 r.1, dictSet fs op.1 r.2), hstep, ?_, ?_, ?_⟩
      · apply ginv_place jobs maxT hnd sol fs hinv q.1 q.2 op hqe hoprow r.1 fl r.2 hfl
        · rw [g2]
          have hmemab : (a, b) ∈ fl := by
            rw [g1]
            exact List.mem_append.mpr (Or.inr (List.mem_cons_self _ _))
          exact habD a b hmemab
        · intro sprev opprev _ _ hpos
          rw [hrowi] at hpos
          omega
        · exact ⟨pre, a, b, suf, g1, le_of_eq g2.symm, g3, Or.inl g4⟩
      · rw [dictAppend_lookup_self, List.length_append, List.length_singleton, hrowi]
        omega
      · intro k hk
        exact dictAppend_lookup_other _ _ _ _ hk
    · have hipos : 0 < i := Nat.pos_of_ne_zero hi0
      obtain ⟨sprev, hsprev⟩ : ∃ s, (alookupD sol q.1 []).get? (i - 1) = some s := by
        rw [List.get?_eq_getElem?]
        refine ⟨_, List.getElem?_eq_getElem ?_⟩
        rw [hrowi]
        omega
      obtain ⟨opprev, hopprev⟩ : ∃ o, q.2.get? (i - 1) = some o := by
        rw [List.get?_eq_getElem?]
        exact ⟨_, List.getElem?_eq_getElem (by omega)⟩
      have hprevD : sprev + opprev.2 ≤ placedSum jobs sol :=
        hinv.2.2.2.1 q hq (i - 1) opprev sprev hopprev hsprev
      obtain ⟨fh, ft, hflc⟩ : ∃ fh ft, fl = fh :: ft := by
        cases hcc : fl with
        | nil =>
            rw [hcc] at hxmem
            simp at hxmem
        | cons fh ft => exact ⟨fh, ft, rfl⟩
      have hfit : ∃ ab ∈ fl, max ab.1 (sprev + opprev.2) + op.2 ≤ ab.2 :=
        ⟨(x, maxT), hxmem, by dsimp only; omega⟩
      obtain ⟨r, hr⟩ :=
        Option.isSome_iff_exists.mp (placeLater_isSome fl (sprev + opprev.2) op.2 hfit)
      obtain ⟨pre, a, b, suf, g1, g2, g3, g4⟩ :=
        placeLater_spec fl (sprev + opprev.2) op.2 r.1 r.2 (by rw [hr])
      have hstep : greedyJobStep jobs i q (sol, fs) =
          some (dictAppend sol q.1 r.1, dictSet fs op.1 r.2) := by
        simp only [greedyJobStep]
        rw [if_neg (by omega)]
        simp only [bind, hqe, Option.some_bind, hopi, hfl]
        rw [if_neg hi0, hflc]
        simp only [hsprev, hopprev, bind, Option.some_bind]
        rw [← hflc, hr]
      refine ⟨(dictAppend sol q.1 r.1, dictSet fs op.1 r.2), hstep, ?_, ?_, ?_⟩
      · apply ginv_place jobs maxT hnd sol fs hinv q.1 q.2 op hqe hoprow r.1 fl r.2 hfl
        · have hmemab : (a, b) ∈ fl := by
            rw [g1]
            exact List.mem_append.mpr (Or.inr (List.mem_cons_self _ _))
          have haD : a ≤ placedSum jobs sol := habD a b hmemab
          rw [g2]
          omega
        · intro sprev2 opprev2 h1 h2 _
          rw [hrowi] at h1 h2
          rw [hopprev, Option.some.injEq] at h1
          rw [hsprev, Option.some.injEq] at h2
          subst h1
          subst h2
          rw [g2]
          omega
        · refine ⟨pre, a, b, suf, g1, ?_, g3, Or.inr g4⟩
          rw [g2]
          omega
      · rw [dictAppend_lookup_self, List.length_append, List.length_singleton, hrowi]
        omega
      · intro k hk
        exact dictAppend_lookup_other _ _ _ _ hk

theorem greedyRound_fold (jobs : Jobs) (maxT : Nat)
    (hnd : (jobs.map Prod.fst).Nodup) (hMT : maxT = totalTime jobs) (i : Nat) :
    ∀ (pending : Jobs) (sol : Sol) (fs : List (Nat × List (Nat × Nat))),
      (∀ e ∈ pending, e ∈ jobs) →
      (pending.map Prod.fst).Nodup →
      GInv jobs maxT sol fs →
      (∀ p ∈ jobs, p.1 ∈ pending.map Prod.fst →
        (alookupD sol p.1 []).length = min i p.2.length) →
      (∀ p ∈ jobs, p.1 ∉ pending.map Prod.fst →
        (alookupD sol p.1 []).length = min (i + 1) p.2.length) →
      ∃ st2, pending.foldlM (fun st q => greedyJobStep jobs i q st) (sol, fs) =
          some st2 ∧
        GInv jobs maxT st2.1 st2.2 ∧
        (∀ p ∈ jobs, (alookupD st2.1 p.1 []).length = min (i + 1) p.2.length) := by
  intro pending
  induction pending with
  | nil =>
      intro sol fs _ _ hinv _ hout
      refine ⟨(sol, fs), rfl, hinv, ?_⟩
      intro p hp
      exact hout p hp (by simp)
  | cons q rest ih =>
      intro sol fs hsubj hndp hinv hin hout
      have hq : q ∈ jobs := hsubj q (List.mem_cons_self _ _)
      have hrowq : (alookupD sol q.1 []).length = min i q.2.length := by
        apply hin q hq
        simp
      obtain ⟨st2, hstep, hinv2, hrow2, hframe⟩ :=
        greedyJobStep_inv jobs maxT hnd hMT i q hq sol fs hinv hrowq
      simp only [List.map_cons, List.nodup_cons] at hndp
      have hin2 : ∀ p ∈ jobs, p.1 ∈ rest.map Prod.fst →
          (alookupD st2.1 p.1 []).length = min i p.2.length := by
        intro p hp hpk
        have hne2 : p.1 ≠ q.1 := fun he => hndp.1 (he ▸ hpk)
        rw [hframe p.1 hne2]
        apply hin p hp
        simp only [List.map_cons, List.mem_cons]
        exact Or.inr hpk
      have hout2 : ∀ p ∈ jobs, p.1 ∉ rest.map Prod.fst →
          (alookupD st2.1 p.1 []).length = min (i + 1) p.2.length := by
        intro p hp hpk
        by_cases hpq : p.1 = q.1
        · have hqe : alookup jobs q.1 = some q.2 := mem_alookup hnd hq
          have hpe := job_of_key hnd hqe p hp hpq
          rw [hpe]
          dsimp only
          exact hrow2
        · rw [hframe p.1 hpq]
          apply hout p hp
          simp only [List.map_cons, List.mem_cons]
          push_neg
          exact ⟨hpq, hpk⟩
      obtain ⟨st3, hfold, hinv3, hrows3⟩ :=
        ih st2.1 st2.2 (fun e he => hsubj e (List.mem_cons_of_mem _ he)) hndp.2
          hinv2 hin2 hout2
      refine ⟨st3, ?_, hinv3, hrows3⟩
      rw [List.foldlM_cons]
      simp only [bind, hstep, Option.some_bind]
      exact hfold

theorem greedyRounds_inv (jobs jsh : Jobs) (maxT : Nat)
    (hnd : (jobs.map Prod.fst).Nodup) (hMT : maxT = totalTime jobs)
    (hsubj : ∀ e ∈ jsh, e ∈ jobs)
    (hndj : (jsh.map Prod.fst).Nodup)
    (hcov : ∀ p ∈ jobs, p.1 ∈ jsh.map Prod.fst) :
    ∀ (n i : Nat) (sol : Sol) (fs : List (Nat × List (Nat × Nat))),
      GInv jobs maxT sol fs →
      (∀ p ∈ jobs, (alookupD sol p.1 []).length = min i p.2.length) →
      ∃ st2, (List.range' i n).foldlM (fun st j => greedyRound jobs jsh j st) (sol, fs) =
          some st2 ∧
        GInv jobs maxT st2.1 st2.2 ∧
        (∀ p ∈ jobs, (alookupD st2.1 p.1 []).length = min (i + n) p.2.length) := by
  intro n
  induction n with
  | zero =>
      intro i sol fs hinv hrows
      refine ⟨(sol, fs), rfl, hinv, ?_⟩
      intro p hp
      rw [Nat.add_zero]
      exact hrows p hp
  | succ m ih =>
      intro i sol fs hinv hrows
      obtain ⟨st2, hr1, hinv2, hrows2⟩ := greedyRound_fold jobs maxT hnd hMT i jsh sol fs
        hsubj hndj hinv (fun p hp _ => hrows p hp)
        (fun p hp hnk => absurd (hcov p hp) hnk)
      obtain ⟨st3, hr2, hinv3, hrows3⟩ := ih (i + 1) st2.1 st2.2 hinv2 hrows2
      refine ⟨st3, ?_, hinv3, ?_⟩
      · rw [show List.range' i (m + 1) = i :: List.range' (i + 1) m from rfl]
        rw [List.foldlM_cons]
        have hg : greedyRound jobs jsh i (sol, fs) = some st2 := hr1
        simp only [bind, hg, Option.some_bind]
        exact hr2
      · intro p hp
        have h := hrows3 p hp
        rw [show i + 1 + m = i + (m + 1) by omega] at h
        exact h

theorem ginv_init (jobs : Jobs) (maxT : Nat) :
    GInv jobs maxT [] (initFreeSpace jobs maxT) := by
  refine ⟨List.nodup_nil, ?_, ?_, ?_, ?_, ?_, ?_⟩
  · intro q hq
    simp at hq
  · intro p hp
    simp [alookupD, alookup]
  · intro p hp i op s _ hsi
    simp [alookupD, alookup] at hsi
  · intro p hp i op s1 s2 _ hs1 _
    simp [alookupD, alookup] at hs1
  · intro p1 hp1 p2 hp2 i1 i2 op1 op2 s1 s2 _ _ hs1 _ _ _
    simp [alookupD, alookup] at hs1
  · intro m hm
    obtain ⟨fl, hfl⟩ := Option.isSome_iff_exists.mp (initFreeSpace_some jobs maxT m hm)
    have hv := initFreeSpace_values jobs maxT m fl hfl
    subst hv
    refine ⟨[(0, maxT)], hfl, ⟨Nat.le_refl 0, Nat.zero_le maxT, trivial⟩, ?_,
      ⟨0, List.mem_singleton.mpr rfl⟩, ?_⟩
    · intro ab hab
      rw [List.mem_singleton] at hab
      subst hab
      exact Nat.zero_le _
    · intro ab hab p2 hp2 i2 op2 s2 _ hs2 _
      simp [alookupD, alookup] at hs2

/-- C3: for every well-formed instance (nodup job names, at least one
operation per job, positive durations) and every processing order of the
jobs (any permutation `jsh` of the instance's items — the shuffle),
`solve_greedily` returns (without raising) a schedule assigning exactly
one start time to every operation, and the schedule passes
`checkValidity`: feasibility is guaranteed for every shuffle.  The free
list of every machine always keeps an interval reaching the horizon
`max_time` (the total duration), so the first-fit scan never fails. -/
theorem claim_C3_solve_greedily (jobs jsh : Jobs)
    (hnd : (jobs.map Prod.fst).Nodup)
    (hne : ∀ p ∈ jobs, p.2 ≠ [])
    (hdur : ∀ p ∈ jobs, ∀ op ∈ p.2, 0 < op.2)
    (hperm : jsh.Perm jobs) :
    ∃ sol, solve_greedily jobs jsh = some sol ∧ SolMatches jobs sol ∧
      checkValidity jobs sol = some true := by
  have hsubj : ∀ e ∈ jsh, e ∈ jobs := fun e he => hperm.mem_iff.mp he
  have hndj : (jsh.map Prod.fst).Nodup := ((hperm.map Prod.fst).nodup_iff).mpr hnd
  have hcov : ∀ p ∈ jobs, p.1 ∈ jsh.map Prod.fst := by
    intro p hp
    exact (hperm.map Prod.fst).mem_iff.mpr (List.mem_map_of_mem _ hp)
  have hrows0 : ∀ p ∈ jobs, (alookupD ([] : Sol) p.1 []).length = min 0 p.2.length := by
    intro p hp
    simp [alookupD, alookup]
  obtain ⟨st2, hfold, hinv2, hrows2⟩ := greedyRounds_inv jobs jsh (totalTime jobs)
    hnd rfl hsubj hndj hcov (maxNumOps jobs) 0 [] (initFreeSpace jobs (totalTime jobs))
    (ginv_init jobs (totalTime jobs)) hrows0
  have hfull : ∀ p ∈ jobs, (alookupD st2.1 p.1 []).length = p.2.length := by
    intro p hp
    have h := hrows2 p hp
    have hle := le_maxNumOps jobs p hp
    rw [h]
    omega
  have hsol : solve_greedily jobs jsh = some st2.1 := by
    unfold solve_greedily
    rw [List.range_eq_range']
    simp only [bind, hfold, Option.some_bind, Option.pure_def]
  obtain ⟨hsnd, hsub, hlens, hends, hprec, hexcl, hmach⟩ := hinv2
  have hlook : ∀ q ∈ st2.1, alookupD st2.1 q.1 [] = q.2 := by
    intro q hq
    exact alookupD_eq_of_alookup [] (mem_alookup hsnd hq)
  have hmatch : SolMatches jobs st2.1 := by
    refine ⟨hnd, hsnd, ?_, ?_⟩
    · apply (List.perm_ext_iff_of_nodup hsnd hnd).mpr
      intro a
      constructor
      · intro ha
        obtain ⟨q, hq, hqe⟩ := List.mem_map.mp ha
        rw [← hqe]
        exact hsub q hq
      · intro ha
        obtain ⟨p, hp, hpe⟩ := List.mem_map.mp ha
        have hlen := hfull p hp
        have hops1 : 1 ≤ p.2.length := by
          cases hop2 : p.2 with
          | nil => exact absurd hop2 (hne p hp)
          | cons y ys => simp [hop2]
        have hsome : (alookup st2.1 p.1).isSome := by
          rcases hal : alookup st2.1 p.1 with _ | v
          · have h0 : alookupD st2.1 p.1 [] = [] := by simp [alookupD, hal]
            rw [h0] at hlen
            simp at hlen
            omega
          · simp
        rw [alookup_isSome_iff] at hsome
        rw [← hpe]
        exact hsome
    · intro p hp q hq hpq
      rw [← hlook q hq, ← hpq]
      exact hfull p hp
  have hPrec : PrecSpec jobs st2.1 := by
    intro p hp q hq hpq i op s1 s2 hopi hs1 hs2
    rw [← hlook q hq, ← hpq] at hs1 hs2
    exact hprec p hp i op s1 s2 hopi hs1 hs2
  have hExcl : ExclSpec jobs st2.1 := by
    intro p1 hp1 p2 hp2 q1 hq1 q2 hq2 he1 he2 i1 i2 op1 op2 s1 s2 ho1 ho2 hs1 hs2 hne2 hm
    rw [← hlook q1 hq1, ← he1] at hs1
    rw [← hlook q2 hq2, ← he2] at hs2
    exact hexcl p1 hp1 p2 hp2 i1 i2 op1 op2 s1 s2 ho1 ho2 hs1 hs2 hne2 hm
  exact ⟨st2.1, hsol, hmatch, (checkValidity_spec hmatch).2.mpr ⟨hPrec, hExcl⟩⟩

theorem claim_C3_solve_greedily_witness :
    ((([(1, [(0, 1), (1, 1)]), (2, [(0, 2)])] : Jobs).map Prod.fst).Nodup ∧
      (∀ p ∈ ([(1, [(0, 1), (1, 1)]), (2, [(0, 2)])] : Jobs), p.2 ≠ []) ∧
      (∀ p ∈ ([(1, [(0, 1), (1, 1)]), (2, [(0, 2)])] : Jobs), ∀ op ∈ p.2, 0 < op.2) ∧
      ([(2, [(0, 2)]), (1, [(0, 1), (1, 1)])] : Jobs).Perm
        [(1, [(0, 1), (1, 1)]), (2, [(0, 2)])]) ∧
    (∃ sol, solve_greedily [(1, [(0, 1), (1, 1)]), (2, [(0, 2)])]
        [(2, [(0, 2)]), (1, [(0, 1), (1, 1)])] = some sol ∧
      SolMatches [(1, [(0, 1), (1, 1)]), (2, [(0, 2)])] sol ∧
      checkValidity [(1, [(0, 1), (1, 1)]), (2, [(0, 2)])] sol = some true) :=
  ⟨⟨by decide, by decide, by decide, by decide⟩,
    claim_C3_solve_greedily [(1, [(0, 1), (1, 1)]), (2, [(0, 2)])]
      [(2, [(0, 2)]), (1, [(0, 1), (1, 1)])]
      (by decide) (by decide) (by decide) (by decide)⟩
